import Mathlib

/-!
# Aloha Editor, `ms-word-transform-utils.js`

A shallow embedding of the paste-cleaning utilities of Aloha Editor
(`src/ms-word-transform-utils.js`) over an explicit model of the DOM, and
theorems about the tree walker, the structural cleaner, the nested list
rebuilder and the leaf helpers.

The DOM is a store indexed by node identities (natural numbers).  Every
mutation of the source is a function from stores to stores; a function of the
source that can throw, or whose loop is not structurally bounded, returns an
`Option` and takes a `fuel` argument.
-/

namespace Aloha

/-! ## The DOM store -/

/-- Node kinds of the data model: element nodes and text nodes. -/
inductive NodeType where
  | element
  | text
  deriving DecidableEq, Repr

/-- The document store.  A node is a natural number; the fields give, for
every node, the properties the source reads: `nodeType`, `nodeName`, the
attribute list (`attrs`, in document order, as name/value pairs), the
character data of a text node (`data`), the ordered child list and the parent
reference.  `size` counts the nodes created so far: identities below it are in
use, `createElement` hands out `size` itself. -/
structure Dom where
  nodeType : Nat → NodeType
  nodeName : Nat → String
  attrs : Nat → List (String × String)
  data : Nat → String
  childNodes : Nat → List Nat
  parentNode : Nat → Option Nat
  size : Nat

/-- The store with no node created yet. -/
def Dom.empty : Dom :=
  { nodeType := fun _ => NodeType.element
    nodeName := fun _ => ""
    attrs := fun _ => []
    data := fun _ => ""
    childNodes := fun _ => []
    parentNode := fun _ => none
    size := 0 }

/-- Host primitive `document.createElement(name)`: a fresh element, without
attributes, children or parent.  Returns the new node and the new store. -/
def createElement (name : String) (d : Dom) : Nat × Dom :=
  (d.size,
    { d with
      nodeType := Function.update d.nodeType d.size NodeType.element
      nodeName := Function.update d.nodeName d.size name
      attrs := Function.update d.attrs d.size []
      data := Function.update d.data d.size ""
      childNodes := Function.update d.childNodes d.size []
      parentNode := Function.update d.parentNode d.size none
      size := d.size + 1 })

/-- Host primitive `document.createTextNode(text)`. -/
def createTextNode (text : String) (d : Dom) : Nat × Dom :=
  (d.size,
    { d with
      nodeType := Function.update d.nodeType d.size NodeType.text
      nodeName := Function.update d.nodeName d.size "#text"
      attrs := Function.update d.attrs d.size []
      data := Function.update d.data d.size text
      childNodes := Function.update d.childNodes d.size []
      parentNode := Function.update d.parentNode d.size none
      size := d.size + 1 })

/-- Host property `element.attributes`: the live attribute map of an element,
`undefined` on a text node. -/
def attributes (d : Dom) (node : Nat) : Option (List (String × String)) :=
  match d.nodeType node with
  | NodeType.element => some (d.attrs node)
  | NodeType.text => none

/-- Host primitive `element.hasAttribute(name)`. -/
def hasAttribute (d : Dom) (element : Nat) (name : String) : Bool :=
  (d.attrs element).any (fun a => a.1 == name)

/-- Modelled from the spec: `Dom.removeAttr(element, name)` of the absent `dom`
module, the attribute mutator of the host tree: it removes the attribute
called `name` from `element`. -/
def removeAttr (d : Dom) (element : Nat) (name : String) : Dom :=
  { d with
    attrs := Function.update d.attrs element
      ((d.attrs element).filter (fun a => !(a.1 == name))) }

/-- Modelled from the spec: `Dom.isElementNode(node)` of the absent `dom`
module, the node-type discrimination (element vs. text) of the host tree. -/
def isElementNode (d : Dom) (node : Nat) : Bool :=
  decide (d.nodeType node = NodeType.element)

/-- Host property `node.firstChild`. -/
def firstChild (d : Dom) (node : Nat) : Option Nat :=
  (d.childNodes node).head?

/-- The element that follows the first occurrence of `node` in a child list. -/
def nextIn : List Nat → Nat → Option Nat
  | [], _ => none
  | x :: xs, node => if x = node then xs.head? else nextIn xs node

/-- Host property `node.nextSibling`. -/
def nextSibling (d : Dom) (node : Nat) : Option Nat :=
  match d.parentNode node with
  | none => none
  | some p => nextIn (d.childNodes p) node

/-- Host primitive `parent.removeChild(child)` for a `child` of `parent`: the
child leaves the child list and loses its parent reference. -/
def removeChild (d : Dom) (parent child : Nat) : Dom :=
  { d with
    childNodes := Function.update d.childNodes parent ((d.childNodes parent).erase child)
    parentNode := Function.update d.parentNode child none }

/-- The insertion step of `parent.appendChild(node)`, taken once the host has
accepted the call: `node` is first taken out of the child list of its current
parent, if it has one, and then becomes the last child of `parent`. -/
def insertLast (d : Dom) (parent node : Nat) : Dom :=
  let d1 : Dom :=
    match d.parentNode node with
    | none => d
    | some p => removeChild d p node
  { d1 with
    childNodes := Function.update d1.childNodes parent (d1.childNodes parent ++ [node])
    parentNode := Function.update d1.parentNode node (some parent) }

/-- Node `target` is `node` itself or one of the first `steps` ancestors of
`node`. -/
def isInclusiveAncestor (d : Dom) : Nat → Nat → Nat → Bool
  | 0, node, target => node == target
  | steps + 1, node, target =>
    node == target ||
      match d.parentNode node with
      | none => false
      | some p => isInclusiveAncestor d steps p target

/-- The check the host makes before it puts `node` below `parent`; when it
fails the host throws a `HierarchyRequestError`: `parent` has to be an element,
and `node` must not be `parent` or contain it.  The store has `size` nodes, so
the ancestors of `parent` are among the first `size` steps upwards. -/
def canInsert (d : Dom) (parent node : Nat) : Bool :=
  decide (d.nodeType parent = NodeType.element) && !isInclusiveAncestor d d.size parent node

/-- Host primitive `parent.appendChild(node)`: the host checks the call and
throws (`none`) when the check fails; otherwise `node` is taken out of the child
list of its current parent, if it has one, and becomes the last child of
`parent`. -/
def appendChild (d : Dom) (parent node : Nat) : Option Dom :=
  if canInsert d parent node then some (insertLast d parent node) else none

/-- The list `l` with the first occurrence of `node` replaced by the list
`kids`. -/
def spliceAt : List Nat → Nat → List Nat → List Nat
  | [], _, _ => []
  | x :: xs, node, kids => if x = node then kids ++ xs else x :: spliceAt xs node kids

/-- The parent references of the nodes of `kids`, set to `p`. -/
def reparent (parentNode : Nat → Option Nat) (kids : List Nat) (p : Nat) : Nat → Option Nat :=
  fun n => if n ∈ kids then some p else parentNode n

/-- Modelled from the spec: `Dom.removeShallow(node)` of the absent `dom`
module ("Unwrap: replace an element with its children, discarding the element
itself, preserving child order and position"): the children of `node` move, in
order, into the parent of `node` at the position of `node`, and `node` itself
is detached, left without children.  A node without a parent has no position to
splice into: the call throws (`none`). -/
def removeShallow (d : Dom) (node : Nat) : Option Dom :=
  match d.parentNode node with
  | none => none
  | some p =>
    let kids := d.childNodes node
    some { d with
      childNodes := Function.update
        (Function.update d.childNodes p (spliceAt (d.childNodes p) node kids)) node []
      parentNode := Function.update (reparent d.parentNode kids p) node none }

/-! ## Text content -/

/-- Concatenation of the text contents `f c` of the nodes `c` of a list,
undefined as soon as one of them is. -/
def concatText (f : Nat → Option String) : List Nat → Option String
  | [] => some ""
  | c :: cs =>
    match f c, concatText f cs with
    | some a, some b => some (a ++ b)
    | _, _ => none

/-- Modelled from the spec: `Dom.getTextContent(node)` of the absent `dom`
module, the text-content extraction of the host tree: the character data of a
text node, and for an element the concatenation of the text contents of its
children in document order.  `fuel` bounds the depth of the descent. -/
def getTextContent : Nat → Dom → Nat → Option String
  | 0, _, _ => none
  | fuel + 1, d, node =>
    match d.nodeType node with
    | NodeType.text => some (d.data node)
    | NodeType.element => concatText (getTextContent fuel d) (d.childNodes node)

/-- White space and line terminators, the characters `String.prototype.trim`
strips. -/
def isTrimChar (c : Char) : Bool :=
  c.toNat = 0x09 || c.toNat = 0x0A || c.toNat = 0x0B || c.toNat = 0x0C || c.toNat = 0x0D
  || c.toNat = 0x20 || c.toNat = 0xA0 || c.toNat = 0x1680
  || (0x2000 ≤ c.toNat && c.toNat ≤ 0x200A)
  || c.toNat = 0x2028 || c.toNat = 0x2029 || c.toNat = 0x202F || c.toNat = 0x205F
  || c.toNat = 0x3000 || c.toNat = 0xFEFF

/-- The characters of `s.trim()`. -/
def trim (s : List Char) : List Char :=
  ((s.dropWhile isTrimChar).reverse.dropWhile isTrimChar).reverse

/-- The `length` of a string with the characters `s`: the number of its
UTF-16 code units, two for a character outside the basic plane. -/
def utf16Length (s : List Char) : Nat :=
  (s.map (fun c => if c.toNat < 0x10000 then 1 else 2)).sum

/-- Source `hasText(element)`: `Dom.getTextContent(element).trim().length`,
a number, used as a truth value by the callers. -/
def hasText (fuel : Nat) (d : Dom) (element : Nat) : Option Nat :=
  (getTextContent fuel d element).map (fun s => utf16Length (trim s.data))

/-! ## The tree walker -/

/-- What the walker did, in order: `test n b` records one evaluation of the
predicate on node `n` with result `b`, `act n` one invocation of the action on
node `n`. -/
inductive Event where
  | test (node : Nat) (result : Bool)
  | act (node : Nat)
  deriving DecidableEq, Repr

/-- A predicate of the walker, `conditionFn`: it reads the store. -/
abbrev Cond := Dom → Nat → Bool

/-- An action of the walker, `callBackFn`: it changes the store, or throws. -/
abbrev Action := Dom → Nat → Option Dom

/-- The `for` loop of `walkDescendants(element, conditionFn, callBackFn)`,
entered with loop index `i`; `childNodes` is the live child list of `element`,
read from the current store at every access.  The state is the store together
with the record of the predicate evaluations and action invocations made so
far.

    for (var i = childNodes.length - 1; i >= 0; i--) {
        child = childNodes[i];
        if (child) {
            if (conditionFn(child)) {
                callBackFn(child);
                if (child !== childNodes[i]) { i++; }
            }
            if (Dom.isElementNode(child)) {
                walkDescendants(child, conditionFn, callBackFn);
            }
        }
    }
-/
def walkFrom : Nat → Cond → Action → Nat → Int → Dom × List Event → Option (Dom × List Event)
  | 0, _, _, _, _, _ => none
  | fuel + 1, conditionFn, callBackFn, element, i, (d, log) =>
    if i < 0 then some (d, log)
    else
      match (d.childNodes element)[i.toNat]? with
      | none => walkFrom fuel conditionFn callBackFn element (i - 1) (d, log)
      | some child =>
        let handled : Option (Dom × List Event × Int) :=
          if conditionFn d child then
            match callBackFn d child with
            | none => none
            | some d1 =>
              some (d1, log ++ [Event.test child true, Event.act child],
                if (d1.childNodes element)[i.toNat]? ≠ some child then i + 1 else i)
          else some (d, log ++ [Event.test child false], i)
        match handled with
        | none => none
        | some (d1, log1, i1) =>
          let walked : Option (Dom × List Event) :=
            if isElementNode d1 child then
              walkFrom fuel conditionFn callBackFn child
                (((d1.childNodes child).length : Int) - 1) (d1, log1)
            else some (d1, log1)
          match walked with
          | none => none
          | some s2 => walkFrom fuel conditionFn callBackFn element (i1 - 1) s2

/-- Source `walkDescendants(element, conditionFn, callBackFn)`, with the
record of what it did. -/
def walkDescendantsLog (fuel : Nat) (conditionFn : Cond) (callBackFn : Action)
    (element : Nat) (d : Dom) : Option (Dom × List Event) :=
  walkFrom fuel conditionFn callBackFn element
    (((d.childNodes element).length : Int) - 1) (d, [])

/-- Source `walkDescendants(element, conditionFn, callBackFn)`. -/
def walkDescendants (fuel : Nat) (conditionFn : Cond) (callBackFn : Action)
    (element : Nat) (d : Dom) : Option Dom :=
  (walkDescendantsLog fuel conditionFn callBackFn element d).map Prod.fst

/-- The action of `removeDescendants`: `child.parentNode.removeChild(child)`. -/
def removeAction : Action := fun d child =>
  match d.parentNode child with
  | none => none
  | some p => some (removeChild d p child)

/-- Source `removeDescendants(node, conditionFn)`. -/
def removeDescendants (fuel : Nat) (conditionFn : Cond) (node : Nat) (d : Dom) : Option Dom :=
  walkDescendants fuel conditionFn removeAction node d

/-- Source `unwrapDescendants(node, conditionFn)`. -/
def unwrapDescendants (fuel : Nat) (conditionFn : Cond) (node : Nat) (d : Dom) : Option Dom :=
  walkDescendants fuel conditionFn removeShallow node d

/-! ## The structural cleaner -/

/-- The loop of `removeAllAttributes`, entered with `i = k - 1`:

    for (var i = attributes.length - 1; i >= 0; i--) {
        if (attributes[i] !== undefined && element.hasAttribute(attributes[i].name)) {
            Dom.removeAttr(element, attributes[i].name);
        }
    }
-/
def removeAttributesFrom : Nat → Dom → Nat → Dom
  | 0, d, _ => d
  | k + 1, d, element =>
    match (d.attrs element)[k]? with
    | none => removeAttributesFrom k d element
    | some a =>
      if hasAttribute d element a.1 then removeAttributesFrom k (removeAttr d element a.1) element
      else removeAttributesFrom k d element

/-- Source `removeAllAttributes(element)`. -/
def removeAllAttributes (d : Dom) (element : Nat) : Dom :=
  match attributes d element with
  | none => d
  | some as => removeAttributesFrom as.length d element

/-- The predicate of the unwrapping pass of `cleanElement`. -/
def isSpanOrFont : Cond := fun d node =>
  d.nodeName node == "SPAN" || d.nodeName node == "FONT"

/-- The predicate of the attribute pass of `cleanElement`. -/
def isNotImgOrA : Cond := fun d node =>
  d.nodeName node != "IMG" && d.nodeName node != "A"

/-- The classification of the absent `predicates` module the cleaner
consumes: which tags are text-level semantic elements, which are void. -/
structure Predicates where
  isTextLevelSemanticNode : String → Bool
  isVoidNode : String → Bool

/-- The value of `a || b` for two node references: `a` unless it is
undefined, else `b`. -/
def orNode (a b : Option Nat) : Option Nat :=
  match a with
  | some x => some x
  | none => b

/-- The `while (child)` loop over the direct children in `cleanElement`:

    while (child) {
        textLevelElement = Predicates.isTextLevelSemanticNode(child)
                           && !Predicates.isVoidNode(child);
        if (child.nodeName === 'SPAN' || child.nodeName === 'FONT'
            || (!hasText(child) && textLevelElement)) {
            Dom.removeShallow(child);
            child = prev || element.firstChild;
        } else {
            prev = child;
            child = child.nextSibling;
        }
    }
-/
def cleanChildren (P : Predicates) : Nat → Dom → Nat → Option Nat → Option Nat → Option Dom
  | 0, _, _, _, _ => none
  | _ + 1, d, _, none, _ => some d
  | fuel + 1, d, element, some child, prev =>
    let textLevelElement :=
      P.isTextLevelSemanticNode (d.nodeName child) && !P.isVoidNode (d.nodeName child)
    let unwrap : Option Bool :=
      if d.nodeName child == "SPAN" || d.nodeName child == "FONT" then some true
      else (hasText fuel d child).map (fun n => (n == 0) && textLevelElement)
    match unwrap with
    | none => none
    | some true =>
      match removeShallow d child with
      | none => none
      | some d1 =>
        cleanChildren P fuel d1 element (orNode prev (firstChild d1 element)) prev
    | some false => cleanChildren P fuel d element (nextSibling d child) (some child)

/-- The action of the attribute pass of `cleanElement`: the function
`removeAllAttributes` itself, passed as `callBackFn`. -/
def stripAction : Action := fun d node => some (removeAllAttributes d node)

/-- Source `cleanElement(element)`. -/
def cleanElement (P : Predicates) (fuel : Nat) (element : Nat) (d : Dom) : Option Dom :=
  let d1 := removeAllAttributes d element
  match unwrapDescendants fuel isSpanOrFont element d1 with
  | none => none
  | some d2 =>
    match walkDescendants fuel isNotImgOrA stripAction element d2 with
    | none => none
    | some d3 => cleanChildren P fuel d3 element (firstChild d3 element) none

/-! ## The nested list rebuilder -/

/-- A list factory, `createListFn`: it creates a node in the store and
returns it. -/
abbrev Factory := Dom → Nat × Dom

/-- The state of `createNestedList` between two loop iterations: the store,
the variables `listHTML` and `lastLevel`, and the number of calls of the
factory made so far.  The levels are numbers of the source, doubles; the model
holds the integer a level stands for. -/
structure ListState where
  dom : Dom
  listHTML : Nat
  lastLevel : Int
  calls : Nat

/-- The unit in the last place of the doubles around `n`: the least power of
two `u` with `n < 2 ^ 53 * u`, looked for among the `fuel` first powers. -/
def ulpFrom : Nat → Nat → Nat → Nat
  | 0, _, u => u
  | fuel + 1, n, u => if n < 2 ^ 53 * u then u else ulpFrom fuel n (2 * u)

/-- The double nearest to the natural number `n`, ties to even: a number below
`2 ^ 53` is a double itself, from there on the doubles are the multiples of the
unit in the last place. -/
def roundNat (n : Nat) : Nat :=
  let u := ulpFrom 1024 n 1
  let q := n / u
  let r := n % u
  if 2 * r < u then q * u
  else if u < 2 * r then (q + 1) * u
  else if q % 2 = 0 then q * u
  else (q + 1) * u

/-- The double nearest to the integer `x`, ties to even: the result of an
arithmetic operation of the source whose exact result is `x`. -/
def roundDouble (x : Int) : Int :=
  if x < 0 then -((roundNat x.natAbs : Nat) : Int) else ((roundNat x.toNat : Nat) : Int)

/-- The value of `lastLevel` after `lastLevel++`, for a level that is an
integer: numbers of the source are doubles. -/
def incDouble (x : Int) : Int := roundDouble (x + 1)

/-- The value of `lastLevel` after `lastLevel--`. -/
def decDouble (x : Int) : Int := roundDouble (x - 1)

/-- The first loop of `createNestedList`; a call of `appendChild` the host
rejects throws:

    while (actualLevel > lastLevel) {
        newList = createListFn();
        listHTML.appendChild(newList);
        listHTML = newList;
        lastLevel++;
    }
-/
def descend (createListFn : Factory) (actualLevel : Int) : Nat → ListState → Option ListState
  | 0, _ => none
  | fuel + 1, s =>
    if actualLevel > s.lastLevel then
      let (newList, d1) := createListFn s.dom
      match appendChild d1 s.listHTML newList with
      | none => none
      | some d2 =>
        descend createListFn actualLevel fuel
          { dom := d2
            listHTML := newList
            lastLevel := incDouble s.lastLevel
            calls := s.calls + 1 }
    else some s

/-- The block of the second loop of `createNestedList` that wraps a
`listHTML` without parent:

    if (listHTML.parentNode === null) {
        newList = createListFn();
        newList.appendChild(listHTML);
    }
-/
def wrapRoot (createListFn : Factory) (s : ListState) : Option ListState :=
  match s.dom.parentNode s.listHTML with
  | none =>
    let (newList, d1) := createListFn s.dom
    match appendChild d1 newList s.listHTML with
    | none => none
    | some d2 => some { s with dom := d2, calls := s.calls + 1 }
  | some _ => some s

/-- The second loop of `createNestedList`; reading `parentNode` of a `null`
`listHTML` throws:

    while (actualLevel < lastLevel) {
        if (listHTML.parentNode === null) {
            newList = createListFn();
            newList.appendChild(listHTML);
        }
        listHTML = listHTML.parentNode;
        lastLevel--;
    }
-/
def ascend (createListFn : Factory) (actualLevel : Int) : Nat → ListState → Option ListState
  | 0, _ => none
  | fuel + 1, s =>
    if actualLevel < s.lastLevel then
      match wrapRoot createListFn s with
      | none => none
      | some s1 =>
        match s1.dom.parentNode s1.listHTML with
        | none => none
        | some p =>
          ascend createListFn actualLevel fuel
            { s1 with listHTML := p, lastLevel := decDouble s1.lastLevel }
    else some s

/-- Source `createNestedList(actualLevel, lastLevel, listHTML, createListFn)`:
the final state holds the returned container in `listHTML`. -/
def createNestedList (fuel : Nat) (actualLevel lastLevel : Int) (listHTML : Nat)
    (createListFn : Factory) (d : Dom) : Option ListState :=
  match descend createListFn actualLevel fuel
      { dom := d, listHTML := listHTML, lastLevel := lastLevel, calls := 0 } with
  | none => none
  | some s => ascend createListFn actualLevel fuel s

/-- A factory returning fresh empty parentless containers: the node it returns
is a newly created one (the identity `d.size`, not in use before), it is an
element, it has no children and no parent, and the types, child lists and
parent references of the other nodes are left as they were. -/
def FreshFactory (createListFn : Factory) : Prop :=
  ∀ d : Dom, (createListFn d).1 = d.size ∧ (createListFn d).2.size = d.size + 1
    ∧ (createListFn d).2.childNodes = Function.update d.childNodes d.size []
    ∧ (createListFn d).2.parentNode = Function.update d.parentNode d.size none
    ∧ (createListFn d).2.nodeType = Function.update d.nodeType d.size NodeType.element

/-- The ancestor `k` levels above `node`: its parent for `k = 1`, the parent
of its parent for `k = 2`, and so on; `node` itself for `k = 0`. -/
def ancestorAt (d : Dom) : Nat → Nat → Option Nat
  | 0, node => some node
  | k + 1, node =>
    match d.parentNode node with
    | none => none
    | some p => ancestorAt d k p

/-! ## Documents as terms

Element trees written as terms, to build a store from and to read one back
from a store. -/

/-- An element tree: a text node with its character data, or an element with
its name, its attributes and its children. -/
inductive Html where
  | text (s : String)
  | elem (name : String) (attrs : List (String × String)) (kids : List Html)
  deriving Repr

mutual
/-- Decidable equality of element trees. -/
def Html.decEq : (a b : Html) → Decidable (a = b)
  | Html.text s, Html.text t =>
    if h : s = t then isTrue (by rw [h]) else isFalse (fun e => h (Html.text.inj e))
  | Html.text _, Html.elem _ _ _ => isFalse (fun e => Html.noConfusion e)
  | Html.elem _ _ _, Html.text _ => isFalse (fun e => Html.noConfusion e)
  | Html.elem n as ks, Html.elem m bs ls =>
    if h1 : n = m then
      if h2 : as = bs then
        match Html.decEqList ks ls with
        | isTrue h3 => isTrue (by rw [h1, h2, h3])
        | isFalse h3 => isFalse (fun e => h3 (Html.elem.inj e).2.2)
      else isFalse (fun e => h2 (Html.elem.inj e).2.1)
    else isFalse (fun e => h1 (Html.elem.inj e).1)
/-- Decidable equality of lists of element trees. -/
def Html.decEqList : (as bs : List Html) → Decidable (as = bs)
  | [], [] => isTrue rfl
  | [], _ :: _ => isFalse (fun e => List.noConfusion e)
  | _ :: _, [] => isFalse (fun e => List.noConfusion e)
  | a :: as, b :: bs =>
    match Html.decEq a b with
    | isTrue h1 =>
      match Html.decEqList as bs with
      | isTrue h2 => isTrue (by rw [h1, h2])
      | isFalse h2 => isFalse (fun e => h2 (List.cons.inj e).2)
    | isFalse h1 => isFalse (fun e => h1 (List.cons.inj e).1)
end

instance : DecidableEq Html := Html.decEq

mutual
/-- The store `d` extended with the nodes of an element tree, created in
document order; returns the root of the new subtree, a node without parent. -/
def build : Html → Dom → Nat × Dom
  | Html.text s, d => createTextNode s d
  | Html.elem name as kids, d =>
    let (n, d1) := createElement name d
    let d2 : Dom := { d1 with attrs := Function.update d1.attrs n as }
    (n, buildKids kids n d2)
/-- The trees of a list, built one after the other and appended to `p`. -/
def buildKids : List Html → Nat → Dom → Dom
  | [], _, d => d
  | k :: ks, p, d =>
    let (c, d1) := build k d
    buildKids ks p (insertLast d1 p c)
end

/-- The document that consists of the element tree `t`; its root is node 0 and
the other nodes are numbered in document order. -/
def document (t : Html) : Dom := (build t Dom.empty).2

/-- The results `f c` for the nodes `c` of a list, undefined as soon as one of
them is. -/
def collect {α : Type} (f : Nat → Option α) : List Nat → Option (List α)
  | [] => some []
  | c :: cs =>
    match f c, collect f cs with
    | some a, some as => some (a :: as)
    | _, _ => none

/-- The element tree below `node` read back from the store: structure, node
names, text and attributes.  `fuel` bounds the depth. -/
def toHtml : Nat → Dom → Nat → Option Html
  | 0, _, _ => none
  | fuel + 1, d, node =>
    match d.nodeType node with
    | NodeType.text => some (Html.text (d.data node))
    | NodeType.element =>
      (collect (toHtml fuel d) (d.childNodes node)).map
        (Html.elem (d.nodeName node) (d.attrs node))

/-- The descendants of `node` in document order (`node` itself is not one of
them).  `fuel` bounds the depth. -/
def descendants : Nat → Dom → Nat → Option (List Nat)
  | 0, _, _ => none
  | fuel + 1, d, node =>
    (collect (fun c => (descendants fuel d c).map (fun l => c :: l)) (d.childNodes node)).map
      List.flatten

/-- The descendants of `root`: its children, and the children of its
descendants. -/
inductive Descendant (d : Dom) (root : Nat) : Nat → Prop where
  | child {c : Nat} : c ∈ d.childNodes root → Descendant d root c
  | step {p c : Nat} : Descendant d root p → c ∈ d.childNodes p → Descendant d root c

/-- Modelled from the spec: the classification of the absent `predicates`
module for HTML: the text-level semantic elements and the void elements of the
HTML standard. -/
def htmlPredicates : Predicates :=
  { isTextLevelSemanticNode := fun name =>
      ["A", "ABBR", "B", "BDI", "BDO", "BR", "CITE", "CODE", "DATA", "DFN", "EM", "I", "KBD",
       "MARK", "Q", "RP", "RT", "RUBY", "S", "SAMP", "SMALL", "SPAN", "STRONG", "SUB", "SUP",
       "TIME", "U", "VAR", "WBR"].contains name
    isVoidNode := fun name =>
      ["AREA", "BASE", "BR", "COL", "COMMAND", "EMBED", "HR", "IMG", "INPUT", "KEYGEN", "LINK",
       "META", "PARAM", "SOURCE", "TRACK", "WBR"].contains name }

/-! ## Trees in the store -/

/-- The shape of a subtree: the identity of its root and the shapes of the
subtrees of its children, in order. -/
inductive Shape where
  | mk (id : Nat) (kids : List Shape)

/-- The root of a shape. -/
def Shape.id : Shape → Nat
  | Shape.mk i _ => i

/-- The shapes below the root of a shape. -/
def Shape.kids : Shape → List Shape
  | Shape.mk _ ks => ks

/-- The roots of a list of shapes. -/
def roots (ks : List Shape) : List Nat := ks.map Shape.id

mutual
/-- The nodes of a shape, in document order. -/
def Shape.ids : Shape → List Nat
  | Shape.mk i ks => i :: idsList ks
/-- The nodes of a list of shapes, in document order. -/
def idsList : List Shape → List Nat
  | [] => []
  | k :: ks => k.ids ++ idsList ks
end

mutual
/-- The number of nodes of a shape. -/
def Shape.size : Shape → Nat
  | Shape.mk _ ks => sizeList ks + 1
/-- The number of nodes of a list of shapes. -/
def sizeList : List Shape → Nat
  | [] => 0
  | k :: ks => k.size + sizeList ks
end

mutual
/-- The nodes of a shape in the order of the walker: the root, then the
children from the last to the first, each followed by its descendants. -/
def Shape.order : Shape → List Nat
  | Shape.mk i ks => i :: orderList ks
/-- The nodes of a list of shapes in the order of the walker. -/
def orderList : List Shape → List Nat
  | [] => []
  | k :: ks => orderList ks ++ k.order
end

mutual
/-- The store holds the subtree `s`: the child list of every node of `s` is
the list of the roots below it, every child refers back to its parent, and a
text node has no children. -/
def Shape.In (d : Dom) : Shape → Prop
  | Shape.mk i ks =>
    d.childNodes i = ks.map Shape.id ∧ (d.nodeType i = NodeType.text → ks.length = 0)
      ∧ KidsIn d i ks
/-- The store holds the subtrees `ks`, each as a child of `p`. -/
def KidsIn (d : Dom) (p : Nat) : List Shape → Prop
  | [] => True
  | k :: ks => (d.parentNode k.id = some p ∧ k.In d) ∧ KidsIn d p ks
end

mutual
/-- Deciding `Shape.In`. -/
def Shape.decIn (d : Dom) : (s : Shape) → Decidable (s.In d)
  | Shape.mk i ks =>
    match KidsIn.dec d i ks with
    | isTrue h =>
      if h1 : d.childNodes i = ks.map Shape.id then
        if h2 : d.nodeType i = NodeType.text → ks.length = 0 then
          isTrue (by unfold Shape.In; exact ⟨h1, h2, h⟩)
        else isFalse (by unfold Shape.In; exact fun e => h2 e.2.1)
      else isFalse (by unfold Shape.In; exact fun e => h1 e.1)
    | isFalse h => isFalse (by unfold Shape.In; exact fun e => h e.2.2)
/-- Deciding `KidsIn`. -/
def KidsIn.dec (d : Dom) (p : Nat) : (ks : List Shape) → Decidable (KidsIn d p ks)
  | [] => isTrue (by unfold KidsIn; trivial)
  | k :: ks =>
    match Shape.decIn d k, KidsIn.dec d p ks with
    | isTrue h1, isTrue h2 =>
      if h3 : d.parentNode k.id = some p then isTrue (by unfold KidsIn; exact ⟨⟨h3, h1⟩, h2⟩)
      else isFalse (by unfold KidsIn; exact fun e => h3 e.1.1)
    | isFalse h1, _ => isFalse (by unfold KidsIn; exact fun e => h1 e.1.2)
    | _, isFalse h2 => isFalse (by unfold KidsIn; exact fun e => h2 e.2)
end

instance (d : Dom) (s : Shape) : Decidable (s.In d) := Shape.decIn d s
instance (d : Dom) (p : Nat) (ks : List Shape) : Decidable (KidsIn d p ks) := KidsIn.dec d p ks

/-- The store holds the tree `t`: the subtree is there, and no node occurs
twice in it. -/
def IsTree (d : Dom) (t : Shape) : Prop := t.In d ∧ t.ids.Nodup

instance (d : Dom) (t : Shape) : Decidable (IsTree d t) := by unfold IsTree; infer_instance

/-! ## Notions used by the theorems -/

/-- Enough fuel gives the result `r`. -/
def Terminates {α : Type} (f : Nat → Option α) (r : α) : Prop :=
  ∃ N, ∀ fuel, N ≤ fuel → f fuel = some r

/-- The block of the walker that tests one child and, when the predicate
holds, runs the action and compares the child with the node now at its index:
the new store, the new record and the new loop index. -/
def handleChild (conditionFn : Cond) (callBackFn : Action) (element : Nat) (i : Int)
    (d : Dom) (log : List Event) (child : Nat) : Option (Dom × List Event × Int) :=
  if conditionFn d child then
    match callBackFn d child with
    | none => none
    | some d1 =>
      some (d1, log ++ [Event.test child true, Event.act child],
        if (d1.childNodes element)[i.toNat]? ≠ some child then i + 1 else i)
  else some (d, log ++ [Event.test child false], i)

/-- The block of the walker that recurses into a child that is an element. -/
def descendInto (conditionFn : Cond) (callBackFn : Action) (child : Nat)
    (st : Dom × List Event) (fuel : Nat) : Option (Dom × List Event) :=
  if isElementNode st.1 child then
    walkFrom fuel conditionFn callBackFn child (((st.1.childNodes child).length : Int) - 1) st
  else some st

/-- The store `d1` has the structure of `d`: the same child lists, the same
parent references and the same node types. -/
def SameStructure (d d1 : Dom) : Prop :=
  d1.childNodes = d.childNodes ∧ d1.parentNode = d.parentNode ∧ d1.nodeType = d.nodeType

/-- One visit of the walker to node `n`: the predicate is evaluated on `n`
and, when it holds, the action runs on `n`. -/
def visit (conditionFn : Cond) (callBackFn : Action) (st : Dom × List Event) (n : Nat) :
    Option (Dom × List Event) :=
  if conditionFn st.1 n then
    match callBackFn st.1 n with
    | none => none
    | some d1 => some (d1, st.2 ++ [Event.test n true, Event.act n])
  else some (st.1, st.2 ++ [Event.test n false])

/-- The visits to the nodes of a list, one after the other. -/
def visitAll (conditionFn : Cond) (callBackFn : Action) :
    List Nat → Dom × List Event → Option (Dom × List Event)
  | [], st => some st
  | n :: ns, st =>
    match visit conditionFn callBackFn st n with
    | none => none
    | some st1 => visitAll conditionFn callBackFn ns st1

/-- Along the visits to the nodes of a list, started in store `d`, every run
of the action succeeds and keeps the structure of the store. -/
def StableRun (conditionFn : Cond) (callBackFn : Action) : List Nat → Dom → Prop
  | [], _ => True
  | n :: ns, d =>
    if conditionFn d n then
      ∃ d1, callBackFn d n = some d1 ∧ SameStructure d d1 ∧ StableRun conditionFn callBackFn ns d1
    else StableRun conditionFn callBackFn ns d

/-- The walker on a run of children whose visits keep the structure: in a
loop over the children of `e`, entered at the last node of the run `K` (the
children before the run are `pre`), the walker makes the visits of
`orderList K` and goes on with the loop at the last node of `pre`. -/
def WalksStable (c : Cond) (a : Action) (K : List Shape) : Prop :=
  ∀ (e : Nat) (d : Dom) (log : List Event) (pre post : List Nat),
    d.childNodes e = pre ++ roots K ++ post →
    (∀ k ∈ K, k.In d) →
    StableRun c a (orderList K) d →
    ∃ d1 log1, visitAll c a (orderList K) (d, log) = some (d1, log1) ∧ SameStructure d d1 ∧
      ∀ r, Terminates (fun fuel => walkFrom fuel c a e ((pre.length : Int) - 1) (d1, log1)) r →
        Terminates
          (fun fuel => walkFrom fuel c a e (((pre.length + K.length : Nat) : Int) - 1) (d, log)) r

/-- The number of evaluations of the predicate on node `n` in a record. -/
def testCount (log : List Event) (n : Nat) : Nat :=
  log.countP (fun e => match e with
    | Event.test m _ => decide (m = n)
    | Event.act _ => false)

/-- The number of evaluations of the predicate on node `n` that found it to
hold. -/
def heldCount (log : List Event) (n : Nat) : Nat :=
  log.countP (fun e => match e with
    | Event.test m b => decide (m = n) && b
    | Event.act _ => false)

/-- The number of invocations of the action on node `n` in a record. -/
def actCount (log : List Event) (n : Nat) : Nat :=
  log.countP (fun e => match e with
    | Event.test _ _ => false
    | Event.act m => decide (m = n))

/-- The store holds the forest `ks` below node `p`: the children of `p` are
the roots of `ks`, the subtrees are there, and no node occurs twice. -/
def Forest (d : Dom) (p : Nat) (ks : List Shape) : Prop :=
  d.childNodes p = roots ks ∧ KidsIn d p ks ∧ (p :: idsList ks).Nodup

/-- The store `d1` differs from `d` only in the structure below `p`: names,
types, attributes and text are those of `d`, child lists differ at most at `p`
and at the nodes of `ks`, parent references at most at the nodes of `ks`. -/
def Touches (d d1 : Dom) (p : Nat) (ks : List Shape) : Prop :=
  d1.nodeType = d.nodeType ∧ d1.nodeName = d.nodeName ∧ d1.attrs = d.attrs ∧ d1.data = d.data
    ∧ d1.size = d.size
    ∧ (∀ m, m ≠ p → m ∉ idsList ks → d1.childNodes m = d.childNodes m)
    ∧ (∀ m, m ∉ idsList ks → d1.parentNode m = d.parentNode m)

/-- The stores `d` and `d1` give every node the same type, name, attributes
and text. -/
def SameData (d d1 : Dom) : Prop :=
  d1.nodeType = d.nodeType ∧ d1.nodeName = d.nodeName ∧ d1.attrs = d.attrs ∧ d1.data = d.data

/-- The unwrapping walker on a forest: entered at any index `k - 1` of the
loop over the children of `p`, it returns, the store then holds a forest below
`p` again, whose nodes are nodes of the former forest in their former order,
and a node that is gone is one on which the predicate held. -/
def UnwrapWalk (c : Cond) (ks : List Shape) : Prop :=
  ∀ (k : Nat) (p : Nat) (d : Dom) (log : List Event), Forest d p ks →
    ∃ d1 log1 ks1,
      Terminates (fun fuel => walkFrom fuel c removeShallow p ((k : Int) - 1) (d, log)) (d1, log1)
      ∧ Forest d1 p ks1 ∧ (idsList ks1).Sublist (idsList ks) ∧ sizeList ks1 ≤ sizeList ks
      ∧ Touches d d1 p ks
      ∧ (∀ m, m ∈ idsList ks → m ∉ idsList ks1 → ∃ d2, SameData d d2 ∧ c d2 m = true)

mutual
/-- The text content of a subtree, read off its shape: the character data of
a text node, the concatenated text contents of the children of an element. -/
def Shape.text (nodeType : Nat → NodeType) (data : Nat → String) : Shape → String
  | Shape.mk i ks =>
    match nodeType i with
    | NodeType.text => data i
    | NodeType.element => textList nodeType data ks
/-- The concatenated text contents of a list of subtrees. -/
def textList (nodeType : Nat → NodeType) (data : Nat → String) : List Shape → String
  | [] => ""
  | k :: ks => k.text nodeType data ++ textList nodeType data ks
end

/-- The test of the loop over the direct children in `cleanElement`, on a
child given with its shape: the child is a `SPAN` or a `FONT`, or it has no
text and is a text-level semantic element that is not void. -/
def shouldUnwrap (P : Predicates) (d : Dom) (s : Shape) : Bool :=
  (d.nodeName s.id == "SPAN" || d.nodeName s.id == "FONT")
    || ((utf16Length (trim (s.text d.nodeType d.data).data) == 0)
      && (P.isTextLevelSemanticNode (d.nodeName s.id) && !P.isVoidNode (d.nodeName s.id)))

/-- The nodes the loop over the direct children in `cleanElement` can take
out: the `SPAN` and `FONT` nodes and the text-level semantic elements that are
not void. -/
def Removable (P : Predicates) (d : Dom) (m : Nat) : Prop :=
  isSpanOrFont d m = true
    ∨ (P.isTextLevelSemanticNode (d.nodeName m) && !P.isVoidNode (d.nodeName m)) = true

/-- The state of the loop over the direct children in `cleanElement`: the
children in `A` have been examined and kept, `child` is the first node of the
remaining children `R`, and `prev` is one of the kept children, or `child`
itself when `child` has already been kept. -/
def CleanState (P : Predicates) (d : Dom) (A R : List Shape) (child prev : Option Nat) : Prop :=
  (∀ s, s ∈ A → shouldUnwrap P d s = false)
    ∧ child = R.head?.map Shape.id
    ∧ (∀ q, prev = some q →
        q ∈ roots A ∨ ∃ C R1, R = C :: R1 ∧ C.id = q ∧ shouldUnwrap P d C = false)

/-- The loop over the direct children in `cleanElement` on a forest: it
returns, the store then holds a forest below `p` whose nodes are nodes of the
former forest in their former order, none of the remaining children of `p`
passes the test of the loop, and a node that is gone is one the loop can take
out. -/
def CleanLoop (P : Predicates) (ks : List Shape) : Prop :=
  ∀ (r : Nat) (A R : List Shape) (p : Nat) (d : Dom) (child prev : Option Nat),
    ks = A ++ R → R.length ≤ r → Forest d p ks → CleanState P d A R child prev →
    ∃ d1 ks1, Terminates (fun fuel => cleanChildren P fuel d p child prev) d1
      ∧ Forest d1 p ks1 ∧ (idsList ks1).Sublist (idsList ks) ∧ Touches d d1 p ks
      ∧ (∀ s, s ∈ ks1 → shouldUnwrap P d1 s = false)
      ∧ (∀ m, m ∈ idsList ks → m ∉ idsList ks1 → Removable P d m)

/-! ## Sample documents -/

/-- The document `<p class="x"><a href="u" style="s"><img src="i"></a><span
style="c"><b id="q">t</b></span></p>`. -/
def sampleLink : Html :=
  Html.elem "P" [("class", "x")]
    [Html.elem "A" [("href", "u"), ("style", "s")] [Html.elem "IMG" [("src", "i")] []],
     Html.elem "SPAN" [("style", "c")] [Html.elem "B" [("id", "q")] [Html.text "t"]]]

/-- The shape of the document `sampleLink`. -/
def sampleLinkShape : Shape :=
  Shape.mk 0 [Shape.mk 1 [Shape.mk 2 []], Shape.mk 3 [Shape.mk 4 [Shape.mk 5 []]]]

/-- The document `<div class="x"><p id="q"><span style="s">a<span>b</span>
</span></p></div>`: a `SPAN` with a text and a second `SPAN` inside. -/
def sampleNested : Html :=
  Html.elem "DIV" [("class", "x")]
    [Html.elem "P" [("id", "q")]
      [Html.elem "SPAN" [("style", "s")] [Html.text "a", Html.elem "SPAN" [] [Html.text "b"]]]]

/-- The document `<div><span>a<span>b</span></span></div>`. -/
def sampleSpans : Html :=
  Html.elem "DIV" []
    [Html.elem "SPAN" [] [Html.text "a", Html.elem "SPAN" [] [Html.text "b"]]]

/-- The document `<p><x></x><y></y><z></z></p>`: a parent, node 0, with the
children X, Y and Z, the nodes 1, 2 and 3. -/
def sampleXYZ : Html :=
  Html.elem "P" [] [Html.elem "X" [] [], Html.elem "Y" [] [], Html.elem "Z" [] []]

/-- A document that consists of one empty list container `L0`, node 0. -/
def sampleList : Dom := (createElement "UL" Dom.empty).2

/-- The shape of the document `sampleXYZ`. -/
def sampleXYZShape : Shape :=
  Shape.mk 0 [Shape.mk 1 [], Shape.mk 2 [], Shape.mk 3 []]

/-- A predicate that holds exactly on node 2, the node Y of `sampleXYZ`. -/
def isNodeY : Cond := fun _ node => decide (node = 2)

/-- The document `<p><i>x</i><span><b>1</b>2<u>3</u></span><em>y</em></p>`:
the wrapper W, the `SPAN`, is node 3, at index 1 of the parent, and its
children are the nodes 4, 6 and 7. -/
def sampleWrapper : Html :=
  Html.elem "P" []
    [Html.elem "I" [] [Html.text "x"],
     Html.elem "SPAN" []
       [Html.elem "B" [] [Html.text "1"], Html.text "2", Html.elem "U" [] [Html.text "3"]],
     Html.elem "EM" [] [Html.text "y"]]

/-- The shape of the document `sampleWrapper`. -/
def sampleWrapperShape : Shape :=
  Shape.mk 0
    [Shape.mk 1 [Shape.mk 2 []],
     Shape.mk 3 [Shape.mk 4 [Shape.mk 5 []], Shape.mk 6 [], Shape.mk 7 [Shape.mk 8 []]],
     Shape.mk 9 [Shape.mk 10 []]]

/-- A predicate that holds exactly on node 3, the wrapper of `sampleWrapper`. -/
def isNodeW : Cond := fun _ node => decide (node = 3)

mutual
/-- A subtree without the nodes below its root on which `q` holds, and
without what is below them. -/
def Shape.prune (q : Nat → Bool) : Shape → Shape
  | Shape.mk i ks => Shape.mk i (pruneList q ks)
/-- A forest without the nodes on which `q` holds, and without what is below
them. -/
def pruneList (q : Nat → Bool) : List Shape → List Shape
  | [] => []
  | k :: ks => if q k.id then pruneList q ks else k.prune q :: pruneList q ks
end

/-- The descendants of `root` that have no node matching the predicate on
their path below `root`, themselves included: the children of `root` that do
not match, and the children that do not match of such descendants. -/
inductive KeptDescendant (c : Cond) (d : Dom) (root : Nat) : Nat → Prop where
  | child {x : Nat} : x ∈ d.childNodes root → c d x = false → KeptDescendant c d root x
  | step {p x : Nat} : KeptDescendant c d root p → x ∈ d.childNodes p → c d x = false →
      KeptDescendant c d root x

/-- The removing walker on a run of children `A` that is followed by children
`B` already cleared of matching nodes: entered at the last node of `A`, it
returns, and the store then holds the forest `A` without its matching nodes,
followed by `B`. -/
def RemoveWalk (c : Cond) (q : Nat → Bool) (d0 : Dom) (A : List Shape) : Prop :=
  ∀ (B : List Shape) (p : Nat) (d : Dom) (log : List Event),
    Forest d p (A ++ B) → (∀ n, n ∈ idsList B → q n = false) → SameData d0 d →
    ∃ d1 log1,
      Terminates (fun fuel => walkFrom fuel c removeAction p ((A.length : Int) - 1) (d, log))
        (d1, log1)
      ∧ Forest d1 p (pruneList q A ++ B) ∧ Touches d d1 p (A ++ B)

/-- The document `<div><b><i>1</i></b><u>2<b>3</b></u><i>4</i></div>`: the
`B` elements are the nodes 1 and 6. -/
def sampleBold : Html :=
  Html.elem "DIV" []
    [Html.elem "B" [] [Html.elem "I" [] [Html.text "1"]],
     Html.elem "U" [] [Html.text "2", Html.elem "B" [] [Html.text "3"]],
     Html.elem "I" [] [Html.text "4"]]

/-- The shape of the document `sampleBold`. -/
def sampleBoldShape : Shape :=
  Shape.mk 0
    [Shape.mk 1 [Shape.mk 2 [Shape.mk 3 []]],
     Shape.mk 4 [Shape.mk 5 [], Shape.mk 6 [Shape.mk 7 []]],
     Shape.mk 8 [Shape.mk 9 []]]

/-- The predicate "is a `B` element". -/
def isBold : Cond := fun d node => d.nodeName node == "B"

/-! ## The leaf helpers -/

/-- The replacement step of `parent.replaceChild(newChild, oldChild)`, taken
once the host has accepted the call, for a `newChild` other than `oldChild`:
`newChild` is first taken out of the child list of its current parent, if it
has one, and then takes the place of `oldChild`, which is left without
parent. -/
def replaceStep (d : Dom) (parent newChild oldChild : Nat) : Dom :=
  let d1 : Dom :=
    match d.parentNode newChild with
    | none => d
    | some q => removeChild d q newChild
  { d1 with
    childNodes :=
      Function.update d1.childNodes parent (spliceAt (d1.childNodes parent) oldChild [newChild])
    parentNode :=
      Function.update (Function.update d1.parentNode oldChild none) newChild (some parent) }

/-- Host primitive `parent.replaceChild(newChild, oldChild)`: the host throws
(`none`) when `parent` is not an element, when `newChild` is `parent` or
contains it (`HierarchyRequestError`), and when `oldChild` is not a child of
`parent` (`NotFoundError`); a node replaced by itself stays where it is;
otherwise `newChild` takes the place of `oldChild`. -/
def replaceChild (d : Dom) (parent newChild oldChild : Nat) : Option Dom :=
  if canInsert d parent newChild && decide (d.parentNode oldChild = some parent) then
    if newChild = oldChild then some d
    else some (replaceStep d parent newChild oldChild)
  else none

/-- The `while` loop of `copyChildNodes`:

    while (source.firstChild) {
        destination.appendChild(source.firstChild);
    }
-/
def moveChildren : Nat → Dom → Nat → Nat → Option Dom
  | 0, _, _, _ => none
  | fuel + 1, d, source, destination =>
    match firstChild d source with
    | none => some d
    | some c =>
      match appendChild d destination c with
      | none => none
      | some d1 => moveChildren fuel d1 source destination

/-- Source `copyChildNodes(source, destination)`: a copy of a text node
`source` is appended to `destination` (`source.cloneNode(true)` is a new text
node with the same character data); the children of an element `source` are
moved to `destination` one by one. -/
def copyChildNodes (fuel : Nat) (d : Dom) (source destination : Nat) : Option Dom :=
  match d.nodeType source with
  | NodeType.text =>
    let (clone, d1) := createTextNode (d.data source) d
    appendChild d1 destination clone
  | NodeType.element => moveChildren fuel d source destination

/-- Source `replaceNode(nodeSrc, nodeDst)`. -/
def replaceNode (fuel : Nat) (d : Dom) (nodeSrc nodeDst : Nat) : Option Dom :=
  match copyChildNodes fuel d nodeSrc nodeDst with
  | none => none
  | some d1 =>
    match d1.parentNode nodeSrc with
    | none => some d1
    | some p => replaceChild d1 p nodeDst nodeSrc

/-- The nodes that follow the first occurrence of `node` in a child list. -/
def afterIn : List Nat → Nat → List Nat
  | [], _ => []
  | x :: xs, node => if x = node then xs else afterIn xs node

/-- Host property `node.nextElementSibling`: the first of the following
siblings that is an element. -/
def nextElementSibling (d : Dom) (node : Nat) : Option Nat :=
  match d.parentNode node with
  | none => none
  | some p =>
    (afterIn (d.childNodes p) node).find? (fun n => decide (d.nodeType n = NodeType.element))

/-- The `while` loop of `nextNotEmptyElementSibling`, entered with the value
`node` of the variable; the result is the value returned, `none` for `null`:

    while (node && !hasText(node)) {
        node = node.nextElementSibling;
    }
    return node;
-/
def skipEmpty : Nat → Dom → Option Nat → Option (Option Nat)
  | 0, _, _ => none
  | _ + 1, _, none => some none
  | fuel + 1, d, some node =>
    match hasText fuel d node with
    | none => none
    | some 0 => skipEmpty fuel d (nextElementSibling d node)
    | some (_ + 1) => some (some node)

/-- Source `nextNotEmptyElementSibling(node)`. -/
def nextNotEmptyElementSibling (fuel : Nat) (d : Dom) (node : Nat) : Option (Option Nat) :=
  skipEmpty fuel d (nextElementSibling d node)

/-- The `for` loop of `removeEmptyChildren`, entered with loop index `i`;
`len` is the number of children at the start of the loop and `childNodes` is
the live child list of `node`:

    for (var i = 0, len = childNodes.length; i < len; i++) {
        if (childNodes[i] && !hasText(childNodes[i])) {
            node.removeChild(childNodes[i]);
        }
    }
-/
def removeEmptyFrom : Nat → Dom → Nat → Nat → Nat → Option Dom
  | 0, _, _, _, _ => none
  | fuel + 1, d, node, i, len =>
    if i < len then
      match (d.childNodes node)[i]? with
      | none => removeEmptyFrom fuel d node (i + 1) len
      | some child =>
        match hasText fuel d child with
        | none => none
        | some 0 => removeEmptyFrom fuel (removeChild d node child) node (i + 1) len
        | some (_ + 1) => removeEmptyFrom fuel d node (i + 1) len
    else some d

/-- Source `removeEmptyChildren(node)`. -/
def removeEmptyChildren (fuel : Nat) (d : Dom) (node : Nat) : Option Dom :=
  removeEmptyFrom fuel d node 0 (d.childNodes node).length

/-! ## Repeated calls of the list rebuilder -/

/-- The calls of `createNestedList` a caller makes for a sequence of levels:
each call receives the level of the call before as `lastLevel` and the container
returned by the call before as `listHTML`; the result is the list of the final
states of the calls. -/
def applyLevels (createListFn : Factory) (fuel : Nat) :
    List Int → Int → Nat → Dom → Option (List ListState)
  | [], _, _, _ => some []
  | level :: levels, lastLevel, listHTML, d =>
    match createNestedList fuel level lastLevel listHTML createListFn d with
    | none => none
    | some s =>
      match applyLevels createListFn fuel levels level s.listHTML s.dom with
      | none => none
      | some rest => some (s :: rest)

/-! ## Notions used by the theorems on the list rebuilder -/

/-- A level that is a safe integer of the source: an integer of absolute value
below `2 ^ 53 = 9007199254740992`, the range in which the arithmetic on
doubles is exact. -/
def SafeLevel (x : Int) : Prop := -9007199254740992 < x ∧ x < 9007199254740992

instance (x : Int) : Decidable (SafeLevel x) := by unfold SafeLevel; infer_instance

/-- The parent references of the store lead to nodes of the store. -/
def Grounded (d : Dom) : Prop := ∀ m p, d.parentNode m = some p → p < d.size

/-- No node that is yet to be created is `x` or among the ancestors of `x`. -/
def Clear (d : Dom) (x : Nat) : Prop :=
  ∀ t, d.size ≤ t → ∀ n, isInclusiveAncestor d n x t = false

/-- The container `c` lies `k` levels below `root`: going up `k` times from
`c` along the parent references leads to `root`, through elements of the
store. -/
def ChainIn (d : Dom) (root : Nat) : Nat → Nat → Prop
  | 0, c => c = root ∧ c < d.size ∧ d.nodeType c = NodeType.element
  | k + 1, c =>
    c < d.size ∧ d.nodeType c = NodeType.element
      ∧ ∃ p, d.parentNode c = some p ∧ ChainIn d root k p

/-! ## Notions and sample documents for the cleaner and the leaf helpers -/

/-- The character data of the nodes of a list, concatenated. -/
def joinText (data : Nat → String) (ns : List Nat) : String :=
  (ns.map data).foldr (fun a b => a ++ b) ""

/-- The text nodes among the nodes of a list, in the order of the list. -/
def textNodes (d : Dom) (ns : List Nat) : List Nat :=
  ns.filter (fun n => decide (d.nodeType n = NodeType.text))

/-- The document `<p><span style="color:red">Hello</span> <b></b>World</p>`. -/
def sampleHello : Html :=
  Html.elem "P" []
    [Html.elem "SPAN" [("style", "color:red")] [Html.text "Hello"], Html.text " ",
     Html.elem "B" [] [], Html.text "World"]

/-- The shape of the document `sampleHello`. -/
def sampleHelloShape : Shape :=
  Shape.mk 0 [Shape.mk 1 [Shape.mk 2 []], Shape.mk 3 [], Shape.mk 4 [], Shape.mk 5 []]

/-- The document `<div><i></i>x<b>y</b>z</div>`: the children of the `DIV` are
the empty `I`, node 1, the text `x`, node 2, the `B`, node 3, and the text `z`,
node 5. -/
def sampleSiblings : Html :=
  Html.elem "DIV" []
    [Html.elem "I" [] [], Html.text "x", Html.elem "B" [] [Html.text "y"], Html.text "z"]

/-- The shape of the document `sampleSiblings`. -/
def sampleSiblingsShape : Shape :=
  Shape.mk 0 [Shape.mk 1 [], Shape.mk 2 [], Shape.mk 3 [Shape.mk 4 []], Shape.mk 5 []]

/-- The document `sampleSiblings` together with a new `H1` element that has no
parent and no children, node 6. -/
def sampleHeading : Dom := (createElement "H1" (document sampleSiblings)).2

/-- The document `<div><p></p><p></p><p>x</p></div>`: two empty paragraphs,
the nodes 1 and 2, and a paragraph with text, node 3. -/
def sampleEmpty : Html :=
  Html.elem "DIV" [] [Html.elem "P" [] [], Html.elem "P" [] [], Html.elem "P" [] [Html.text "x"]]

/-- The test of `nextNotEmptyElementSibling` on a sibling given with its
shape: the sibling is an element and its trimmed text content is not empty. -/
def isFilledElement (d : Dom) (s : Shape) : Bool :=
  decide (d.nodeType s.id = NodeType.element)
    && (utf16Length (trim (s.text d.nodeType d.data).data) != 0)

/-- An action that replaces a node by a new, empty `P` element at the same
position in its parent, with the host primitive `replaceChild`; the node
replaced keeps its children. -/
def swapAction : Action := fun d child =>
  match d.parentNode child with
  | none => none
  | some p =>
    let (fresh, d1) := createElement "P" d
    replaceChild d1 p fresh child

/-- The document `<div><b><b>t</b></b></div>`: the outer `B` is node 1, the
inner `B` node 2, the text node 3. -/
def sampleBoldPair : Html :=
  Html.elem "DIV" [] [Html.elem "B" [] [Html.elem "B" [] [Html.text "t"]]]

/-- The store `swapAction` leaves when it runs on the outer `B`, node 1, of
`sampleBoldPair`: a new `P`, node 4, stands at the position of node 1, which is
detached and keeps its child. -/
def sampleSwapped : Dom := replaceStep (createElement "P" (document sampleBoldPair)).2 0 4 1

/-- The document `sampleSiblings` together with a new text node that has no
parent, node 6. -/
def sampleLoose : Dom := (createTextNode "t" (document sampleSiblings)).2

/-! ## The walker, one step at a time -/

theorem walkFrom_neg (c : Cond) (a : Action) (e : Nat) (i : Int) (st : Dom × List Event)
    (fuel : Nat) (h : i < 0) : walkFrom (fuel + 1) c a e i st = some st := by
  obtain ⟨d, log⟩ := st
  simp [walkFrom, h]

theorem walkFrom_undef (c : Cond) (a : Action) (e : Nat) (i : Int) (d : Dom) (log : List Event)
    (fuel : Nat) (h : 0 ≤ i) (hc : (d.childNodes e)[i.toNat]? = none) :
    walkFrom (fuel + 1) c a e i (d, log) = walkFrom fuel c a e (i - 1) (d, log) := by
  have h1 : ¬ i < 0 := by omega
  simp [walkFrom, h1, hc]

theorem walkFrom_child (c : Cond) (a : Action) (e : Nat) (i : Int) (d : Dom) (log : List Event)
    (fuel : Nat) (child : Nat) (h : 0 ≤ i) (hc : (d.childNodes e)[i.toNat]? = some child) :
    walkFrom (fuel + 1) c a e i (d, log) =
      match handleChild c a e i d log child with
      | none => none
      | some (d1, log1, i1) =>
        match descendInto c a child (d1, log1) fuel with
        | none => none
        | some s2 => walkFrom fuel c a e (i1 - 1) s2 := by
  have h1 : ¬ i < 0 := by omega
  simp only [walkFrom, h1, hc, handleChild, descendInto]
  rfl

theorem terminates_neg (c : Cond) (a : Action) (e : Nat) (i : Int) (st : Dom × List Event)
    (h : i < 0) : Terminates (fun fuel => walkFrom fuel c a e i st) st :=
  ⟨1, fun fuel hf => by
    obtain ⟨k, rfl⟩ : ∃ k, fuel = k + 1 := ⟨fuel - 1, by omega⟩
    exact walkFrom_neg c a e i st k h⟩

theorem terminates_undef (c : Cond) (a : Action) (e : Nat) (i : Int) (d : Dom) (log : List Event)
    (r : Dom × List Event) (h : 0 ≤ i) (hc : (d.childNodes e)[i.toNat]? = none)
    (hr : Terminates (fun fuel => walkFrom fuel c a e (i - 1) (d, log)) r) :
    Terminates (fun fuel => walkFrom fuel c a e i (d, log)) r := by
  obtain ⟨N, hN⟩ := hr
  refine ⟨N + 1, fun fuel hf => ?_⟩
  obtain ⟨k, rfl⟩ : ∃ k, fuel = k + 1 := ⟨fuel - 1, by omega⟩
  show walkFrom (k + 1) c a e i (d, log) = some r
  rw [walkFrom_undef c a e i d log k h hc]
  exact hN k (by omega)

theorem terminates_child (c : Cond) (a : Action) (e : Nat) (i : Int) (d : Dom) (log : List Event)
    (child : Nat) (d1 : Dom) (log1 : List Event) (i1 : Int) (s2 r : Dom × List Event)
    (h : 0 ≤ i) (hc : (d.childNodes e)[i.toNat]? = some child)
    (hh : handleChild c a e i d log child = some (d1, log1, i1))
    (hd : Terminates (descendInto c a child (d1, log1)) s2)
    (hr : Terminates (fun fuel => walkFrom fuel c a e (i1 - 1) s2) r) :
    Terminates (fun fuel => walkFrom fuel c a e i (d, log)) r := by
  obtain ⟨N1, hN1⟩ := hd
  obtain ⟨N2, hN2⟩ := hr
  refine ⟨max N1 N2 + 1, fun fuel hf => ?_⟩
  obtain ⟨k, rfl⟩ : ∃ k, fuel = k + 1 := ⟨fuel - 1, by omega⟩
  show walkFrom (k + 1) c a e i (d, log) = some r
  rw [walkFrom_child c a e i d log k child h hc, hh]
  show (match descendInto c a child (d1, log1) k with
    | none => none
    | some s2 => walkFrom k c a e (i1 - 1) s2) = some r
  rw [hN1 k (by omega)]
  exact hN2 k (by omega)

/-! ## Shapes -/

theorem roots_append (a b : List Shape) : roots (a ++ b) = roots a ++ roots b := by
  simp [roots]

theorem roots_length (a : List Shape) : (roots a).length = a.length := by
  simp [roots]

theorem idsList_append (a b : List Shape) : idsList (a ++ b) = idsList a ++ idsList b := by
  induction a with
  | nil => simp [idsList]
  | cons x xs ih => simp [idsList, ih]

theorem sizeList_append (a b : List Shape) : sizeList (a ++ b) = sizeList a + sizeList b := by
  induction a with
  | nil => simp [sizeList]
  | cons x xs ih => simp [sizeList, ih]; omega

theorem orderList_append (a b : List Shape) : orderList (a ++ b) = orderList b ++ orderList a := by
  induction a with
  | nil => simp [orderList]
  | cons x xs ih => simp [orderList, ih]

theorem idsList_single (s : Shape) : idsList [s] = s.ids := by
  simp [idsList]

theorem sizeList_single (s : Shape) : sizeList [s] = s.size := by
  simp [sizeList]

theorem orderList_single (s : Shape) : orderList [s] = s.order := by
  simp [orderList]

theorem Shape.ids_mk (i : Nat) (ks : List Shape) : (Shape.mk i ks).ids = i :: idsList ks := by
  simp [Shape.ids]

theorem Shape.size_mk (i : Nat) (ks : List Shape) : (Shape.mk i ks).size = sizeList ks + 1 := by
  simp [Shape.size]

theorem Shape.order_mk (i : Nat) (ks : List Shape) :
    (Shape.mk i ks).order = i :: orderList ks := by
  simp [Shape.order]

theorem Shape.id_mem_ids (s : Shape) : s.id ∈ s.ids := by
  cases s with
  | mk i ks => simp [Shape.id, Shape.ids]

theorem ids_subset_idsList (ks : List Shape) (k : Shape) (h : k ∈ ks) :
    ∀ m, m ∈ k.ids → m ∈ idsList ks := by
  induction ks with
  | nil => cases h
  | cons x xs ih =>
    intro m hm
    rw [idsList]
    rcases List.mem_cons.1 h with rfl | h1
    · exact List.mem_append_left _ hm
    · exact List.mem_append_right _ (ih h1 m hm)

theorem roots_subset_idsList (ks : List Shape) : ∀ m, m ∈ roots ks → m ∈ idsList ks := by
  intro m hm
  obtain ⟨k, hk, rfl⟩ := List.mem_map.1 hm
  exact ids_subset_idsList ks k hk _ k.id_mem_ids

theorem Shape.in_mk (d : Dom) (i : Nat) (ks : List Shape) :
    (Shape.mk i ks).In d ↔
      d.childNodes i = roots ks ∧ (d.nodeType i = NodeType.text → ks.length = 0)
        ∧ KidsIn d i ks := by
  simp [Shape.In, roots]

theorem kidsIn_cons (d : Dom) (p : Nat) (k : Shape) (ks : List Shape) :
    KidsIn d p (k :: ks) ↔ (d.parentNode k.id = some p ∧ k.In d) ∧ KidsIn d p ks := by
  simp [KidsIn]

theorem kidsIn_iff (d : Dom) (p : Nat) (ks : List Shape) :
    KidsIn d p ks ↔ ∀ k ∈ ks, d.parentNode k.id = some p ∧ k.In d := by
  induction ks with
  | nil => simp [KidsIn]
  | cons x xs ih => simp [KidsIn, ih]

theorem kidsIn_append (d : Dom) (p : Nat) (a b : List Shape) :
    KidsIn d p (a ++ b) ↔ KidsIn d p a ∧ KidsIn d p b := by
  simp only [kidsIn_iff, List.mem_append]
  constructor
  · intro h
    exact ⟨fun k hk => h k (Or.inl hk), fun k hk => h k (Or.inr hk)⟩
  · rintro ⟨h1, h2⟩ k (hk | hk)
    · exact h1 k hk
    · exact h2 k hk

mutual
/-- A subtree held by `d` is held by every store that agrees with `d` on the
child list and type of its nodes and on the parent of the nodes below its
root. -/
theorem Shape.in_frame (d d1 : Dom) : ∀ (s : Shape),
    (∀ m, m ∈ s.ids → d1.childNodes m = d.childNodes m ∧ d1.nodeType m = d.nodeType m) →
    (∀ m, m ∈ idsList s.kids → d1.parentNode m = d.parentNode m) → s.In d → s.In d1
  | Shape.mk i ks, h1, h2, h => by
    rw [Shape.in_mk] at h ⊢
    have hi := h1 i (by simp [Shape.ids])
    refine ⟨by rw [hi.1]; exact h.1, by rw [hi.2]; exact h.2.1, ?_⟩
    exact kidsIn_frame d d1 i ks
      (fun m hm => h1 m (by simp [Shape.ids, hm])) (fun m hm => h2 m (by simpa [Shape.kids] using hm))
      h.2.2
/-- The list version of `Shape.in_frame`. -/
theorem kidsIn_frame (d d1 : Dom) (p : Nat) : ∀ (ks : List Shape),
    (∀ m, m ∈ idsList ks → d1.childNodes m = d.childNodes m ∧ d1.nodeType m = d.nodeType m) →
    (∀ m, m ∈ idsList ks → d1.parentNode m = d.parentNode m) → KidsIn d p ks → KidsIn d1 p ks
  | [], _, _, _ => by simp [KidsIn]
  | k :: ks, h1, h2, h => by
    rw [kidsIn_cons] at h ⊢
    have hsub : ∀ m, m ∈ k.ids → m ∈ idsList (k :: ks) := fun m hm => by
      rw [idsList]; exact List.mem_append_left _ hm
    have hsub2 : ∀ m, m ∈ idsList ks → m ∈ idsList (k :: ks) := fun m hm => by
      rw [idsList]; exact List.mem_append_right _ hm
    refine ⟨⟨?_, ?_⟩, ?_⟩
    · rw [h2 k.id (hsub _ k.id_mem_ids)]; exact h.1.1
    · refine Shape.in_frame d d1 k (fun m hm => h1 m (hsub m hm)) (fun m hm => h2 m (hsub m ?_)) h.1.2
      cases k with
      | mk i ks1 => simp only [Shape.kids] at hm; simp [Shape.ids, hm]
    · exact kidsIn_frame d d1 p ks (fun m hm => h1 m (hsub2 m hm)) (fun m hm => h2 m (hsub2 m hm)) h.2
end

theorem Shape.in_same (d d1 : Dom) (s : Shape) (hs : SameStructure d d1) (h : s.In d) :
    s.In d1 :=
  Shape.in_frame d d1 s (fun m _ => by rw [hs.1, hs.2.2]; exact ⟨rfl, rfl⟩)
    (fun m _ => by rw [hs.2.1]) h

theorem kidsIn_same (d d1 : Dom) (p : Nat) (ks : List Shape) (hs : SameStructure d d1)
    (h : KidsIn d p ks) : KidsIn d1 p ks :=
  kidsIn_frame d d1 p ks (fun m _ => by rw [hs.1, hs.2.2]; exact ⟨rfl, rfl⟩)
    (fun m _ => by rw [hs.2.1]) h

theorem SameStructure.same_refl (d : Dom) : SameStructure d d := ⟨rfl, rfl, rfl⟩

theorem SameStructure.same_trans {d d1 d2 : Dom} (h1 : SameStructure d d1) (h2 : SameStructure d1 d2) :
    SameStructure d d2 :=
  ⟨h2.1.trans h1.1, h2.2.1.trans h1.2.1, h2.2.2.trans h1.2.2⟩

/-! ## The walker under an action that keeps the structure -/

theorem visitAll_append (c : Cond) (a : Action) (xs ys : List Nat) (st : Dom × List Event) :
    visitAll c a (xs ++ ys) st =
      match visitAll c a xs st with
      | none => none
      | some st1 => visitAll c a ys st1 := by
  induction xs generalizing st with
  | nil => simp [visitAll]
  | cons x xs ih =>
    simp only [List.cons_append, visitAll]
    cases visit c a st x with
    | none => rfl
    | some st1 => exact ih st1

theorem stableRun_visit (c : Cond) (a : Action) (n : Nat) (ns : List Nat) (d : Dom)
    (log : List Event) (e : Nat) (i : Int) (h : StableRun c a (n :: ns) d)
    (hi : (d.childNodes e)[i.toNat]? = some n) :
    ∃ d1 log1, visit c a (d, log) n = some (d1, log1)
      ∧ handleChild c a e i d log n = some (d1, log1, i) ∧ SameStructure d d1
      ∧ StableRun c a ns d1 := by
  simp only [StableRun] at h
  by_cases hc : c d n = true
  · rw [if_pos hc] at h
    obtain ⟨d1, h1, h2, h3⟩ := h
    refine ⟨d1, log ++ [Event.test n true, Event.act n], by simp [visit, hc, h1], ?_, h2, h3⟩
    simp [handleChild, hc, h1, h2.1, hi]
  · rw [if_neg hc] at h
    refine ⟨d, log ++ [Event.test n false], by simp [visit, hc], ?_, SameStructure.same_refl d, h⟩
    simp [handleChild, hc]

theorem stableRun_append_left (c : Cond) (a : Action) (xs ys : List Nat) (d : Dom)
    (h : StableRun c a (xs ++ ys) d) : StableRun c a xs d := by
  induction xs generalizing d with
  | nil => simp [StableRun]
  | cons x xs ih =>
    simp only [List.cons_append, StableRun] at h ⊢
    by_cases hc : c d x = true
    · rw [if_pos hc] at h ⊢
      obtain ⟨d1, h1, h2, h3⟩ := h
      exact ⟨d1, h1, h2, ih d1 h3⟩
    · rw [if_neg hc] at h ⊢
      exact ih d h

theorem stableRun_append_right (c : Cond) (a : Action) (xs ys : List Nat) (d : Dom)
    (log : List Event) (d1 : Dom) (log1 : List Event)
    (h : StableRun c a (xs ++ ys) d) (hv : visitAll c a xs (d, log) = some (d1, log1)) :
    StableRun c a ys d1 := by
  induction xs generalizing d log with
  | nil =>
    simp only [visitAll, Option.some.injEq, Prod.mk.injEq] at hv
    rw [← hv.1]; exact h
  | cons x xs ih =>
    simp only [List.cons_append, StableRun] at h
    simp only [visitAll] at hv
    by_cases hc : c d x = true
    · rw [if_pos hc] at h
      obtain ⟨d2, h1, h2, h3⟩ := h
      have hvis : visit c a (d, log) x = some (d2, log ++ [Event.test x true, Event.act x]) := by
        simp [visit, hc, h1]
      rw [hvis] at hv
      exact ih d2 _ h3 hv
    · rw [if_neg hc] at h
      have hvis : visit c a (d, log) x = some (d, log ++ [Event.test x false]) := by
        simp [visit, hc]
      rw [hvis] at hv
      exact ih d _ h hv

theorem getElem?_mid (pre mid post : List Nat) (x : Nat) :
    (pre ++ (mid ++ [x]) ++ post)[pre.length + mid.length]? = some x := by
  rw [List.append_assoc, List.getElem?_append_right (by omega)]
  rw [List.append_assoc, show pre.length + mid.length - pre.length = mid.length by omega]
  rw [List.getElem?_append_right (by omega)]
  simp

theorem walksStable_step (c : Cond) (a : Action) (n : Nat)
    (ih : ∀ K, sizeList K < n → WalksStable c a K) :
    ∀ K, sizeList K ≤ n → WalksStable c a K := by
  intro K
  induction K using List.reverseRecOn with
  | nil =>
    intro _ e d log pre post _ _ _
    refine ⟨d, log, rfl, SameStructure.same_refl d, fun r hr => ?_⟩
    simpa using hr
  | append_singleton K1 C ihK =>
    intro hsize e d log pre post hch hin hrun
    obtain ⟨ci, ck⟩ := C
    rw [sizeList_append, sizeList_single, Shape.size_mk] at hsize
    have hC : (Shape.mk ci ck).In d := hin _ (by simp)
    rw [Shape.in_mk] at hC
    rw [orderList_append, orderList_single, Shape.order_mk, List.cons_append] at hrun ⊢
    -- the loop index
    have hidx : ((((pre.length + (K1 ++ [Shape.mk ci ck]).length : Nat) : Int) - 1)).toNat
        = pre.length + K1.length := by
      simp only [List.length_append, List.length_singleton]; omega
    have hget : (d.childNodes e)[((((pre.length + (K1 ++ [Shape.mk ci ck]).length : Nat) : Int)
        - 1)).toNat]? = some ci := by
      rw [hidx, hch, roots_append]
      have := getElem?_mid pre (roots K1) post ci
      rw [roots_length] at this
      simpa [roots, Shape.id] using this
    -- the visit of the child
    obtain ⟨d1, log1, hv1, hh1, hs1, hrun1⟩ := stableRun_visit c a ci _ d log e _ hrun hget
    -- the descent into the child
    have hkin1 : ∀ k ∈ ck, k.In d1 := fun k hk =>
      Shape.in_same d d1 k hs1 (((kidsIn_iff d ci ck).1 hC.2.2) k hk).2
    obtain ⟨d2, log2, hv2, hs2, hT2⟩ := ih ck (by omega) ci d1 log1 [] []
      (by rw [hs1.1, hC.1]; simp) hkin1 (stableRun_append_left c a _ _ d1 hrun1)
    have hdesc : Terminates (descendInto c a ci (d1, log1)) (d2, log2) := by
      by_cases hel : isElementNode d1 ci = true
      · have h2 := hT2 (d2, log2) (terminates_neg c a ci _ (d2, log2) (by simp))
        obtain ⟨N, hN⟩ := h2
        refine ⟨N, fun fuel hf => ?_⟩
        have hlen : (d1.childNodes ci).length = ck.length := by
          rw [hs1.1, hC.1, roots_length]
        simp only [descendInto, hel, if_true, hlen]
        simpa using hN fuel hf
      · have htext : d.nodeType ci = NodeType.text := by
          have : d1.nodeType ci ≠ NodeType.element := by simpa [isElementNode] using hel
          rw [hs1.2.2] at this
          cases hty : d.nodeType ci with
          | element => exact absurd hty this
          | text => rfl
        have hnil : ck = [] := List.length_eq_zero.1 (hC.2.1 htext)
        subst hnil
        simp only [orderList, visitAll, Option.some.injEq, Prod.mk.injEq] at hv2
        refine ⟨0, fun fuel _ => ?_⟩
        simp only [descendInto, hel]
        simp [← hv2.1, ← hv2.2]
    -- the rest of the run
    have hs12 : SameStructure d d2 := hs1.same_trans hs2
    obtain ⟨d3, log3, hv3, hs3, hT3⟩ := ihK (by omega) e d2 log2 pre ([ci] ++ post)
      (by rw [hs12.1, hch, roots_append]; simp [roots, Shape.id])
      (fun k hk => Shape.in_same d d2 k hs12 (hin k (by simp [hk])))
      (stableRun_append_right c a _ _ d1 log1 d2 log2 hrun1 hv2)
    refine ⟨d3, log3, ?_, hs12.same_trans hs3, fun r hr => ?_⟩
    · simp only [visitAll, hv1]
      rw [visitAll_append, hv2]
      exact hv3
    · have h3 := hT3 r hr
      refine terminates_child c a e _ d log ci d1 log1 _ (d2, log2) r
        (by simp only [List.length_append, List.length_singleton]; omega) hget hh1 hdesc ?_
      have hcast : (((pre.length + (K1 ++ [Shape.mk ci ck]).length : Nat) : Int) - 1) - 1
          = ((pre.length + K1.length : Nat) : Int) - 1 := by
        simp only [List.length_append, List.length_singleton]; omega
      rw [hcast]
      exact h3

theorem walksStable (c : Cond) (a : Action) (K : List Shape) : WalksStable c a K := by
  have h : ∀ n, ∀ K, sizeList K ≤ n → WalksStable c a K := by
    intro n
    induction n using Nat.strong_induction_on with
    | _ n ih =>
      exact walksStable_step c a n (fun K hK => ih (sizeList K) hK K (le_refl _))
  exact h (sizeList K) K (le_refl _)

theorem stableRun_of_keeps (c : Cond) (a : Action)
    (hkeep : ∀ d n, ∃ d1, a d n = some d1 ∧ SameStructure d d1) (ns : List Nat) (d : Dom) :
    StableRun c a ns d := by
  induction ns generalizing d with
  | nil => simp [StableRun]
  | cons x xs ih =>
    simp only [StableRun]
    split
    · obtain ⟨d1, h1, h2⟩ := hkeep d x
      exact ⟨d1, h1, h2, ih d1⟩
    · exact ih d

/-- The walker on a whole tree, under an action whose visits keep the
structure: it makes the visits of `orderList`. -/
theorem walkDescendantsLog_stable (c : Cond) (a : Action) (d : Dom) (i : Nat) (ks : List Shape)
    (hin : (Shape.mk i ks).In d) (hrun : StableRun c a (orderList ks) d) :
    ∃ d1 log, visitAll c a (orderList ks) (d, []) = some (d1, log) ∧ SameStructure d d1
      ∧ Terminates (fun fuel => walkDescendantsLog fuel c a i d) (d1, log) := by
  rw [Shape.in_mk] at hin
  obtain ⟨d1, log1, hv, hs, hT⟩ := walksStable c a ks i d [] [] []
    (by simp [hin.1]) (fun k hk => ((kidsIn_iff d i ks).1 hin.2.2 k hk).2) hrun
  refine ⟨d1, log1, hv, hs, ?_⟩
  have h := hT (d1, log1) (terminates_neg c a i _ (d1, log1) (by simp))
  obtain ⟨N, hN⟩ := h
  refine ⟨N, fun fuel hf => ?_⟩
  have hlen : (d.childNodes i).length = ks.length := by rw [hin.1, roots_length]
  simp only [walkDescendantsLog, hlen]
  simpa using hN fuel hf

/-! ## Descendants and the order of the walker -/

mutual
theorem Shape.order_perm : ∀ s : Shape, s.order.Perm s.ids
  | Shape.mk i ks => by
    rw [Shape.order_mk, Shape.ids_mk]
    exact List.Perm.cons i (orderList_perm ks)
theorem orderList_perm : ∀ ks : List Shape, (orderList ks).Perm (idsList ks)
  | [] => by simp [orderList, idsList]
  | k :: ks => by
    rw [orderList, idsList]
    exact List.perm_append_comm.trans (List.Perm.append (Shape.order_perm k) (orderList_perm ks))
end

mutual
theorem Shape.children_closed (d : Dom) : ∀ s : Shape, s.In d →
    ∀ m, m ∈ s.ids → ∀ x, x ∈ d.childNodes m → x ∈ idsList s.kids
  | Shape.mk i ks, h, m, hm, x, hx => by
    rw [Shape.in_mk] at h
    simp only [Shape.kids]
    rw [Shape.ids_mk] at hm
    rcases List.mem_cons.1 hm with rfl | hm1
    · rw [h.1] at hx
      exact roots_subset_idsList ks x hx
    · exact kids_children_closed d i ks h.2.2 m hm1 x hx
theorem kids_children_closed (d : Dom) (p : Nat) : ∀ ks : List Shape, KidsIn d p ks →
    ∀ m, m ∈ idsList ks → ∀ x, x ∈ d.childNodes m → x ∈ idsList ks
  | [], _, m, hm, _, _ => by simp [idsList] at hm
  | k :: ks, h, m, hm, x, hx => by
    rw [kidsIn_cons] at h
    rw [idsList] at hm ⊢
    rcases List.mem_append.1 hm with hm1 | hm1
    · have := Shape.children_closed d k h.1.2 m hm1 x hx
      refine List.mem_append_left _ ?_
      cases k with
      | mk i ck => simp only [Shape.kids] at this; simp [Shape.ids, this]
    · exact List.mem_append_right _ (kids_children_closed d p ks h.2 m hm1 x hx)
end

mutual
theorem Shape.descendant_of_mem (d : Dom) (r : Nat) : ∀ s : Shape, s.In d →
    Descendant d r s.id → ∀ m, m ∈ s.ids → Descendant d r m
  | Shape.mk i ks, h, hr, m, hm => by
    rw [Shape.in_mk] at h
    rw [Shape.ids_mk] at hm
    simp only [Shape.id] at hr
    rcases List.mem_cons.1 hm with rfl | hm1
    · exact hr
    · refine kids_descendant_of_mem d r i ks h.2.2 (fun x hx => ?_) m hm1
      exact Descendant.step hr (by rw [h.1]; exact hx)
theorem kids_descendant_of_mem (d : Dom) (r : Nat) (p : Nat) : ∀ ks : List Shape,
    KidsIn d p ks → (∀ x, x ∈ roots ks → Descendant d r x) →
    ∀ m, m ∈ idsList ks → Descendant d r m
  | [], _, _, m, hm => by simp [idsList] at hm
  | k :: ks, h, hr, m, hm => by
    rw [kidsIn_cons] at h
    rw [idsList] at hm
    rcases List.mem_append.1 hm with hm1 | hm1
    · exact Shape.descendant_of_mem d r k h.1.2 (hr k.id (by simp [roots])) m hm1
    · exact kids_descendant_of_mem d r p ks h.2 (fun x hx => hr x (by
        simp only [roots, List.map_cons, List.mem_cons]; exact Or.inr hx)) m hm1
end

/-- In a store that holds a forest below `i`, the descendants of `i` are the
nodes of the forest. -/
theorem descendant_iff (d : Dom) (i : Nat) (ks : List Shape) (h1 : d.childNodes i = roots ks)
    (h2 : KidsIn d i ks) (n : Nat) : Descendant d i n ↔ n ∈ idsList ks := by
  constructor
  · intro hd
    induction hd with
    | child hc => rw [h1] at hc; exact roots_subset_idsList ks _ hc
    | step _ hc ih => exact kids_children_closed d i ks h2 _ ih _ hc
  · intro hn
    exact kids_descendant_of_mem d i i ks h2
      (fun x hx => Descendant.child (by rw [h1]; exact hx)) n hn

/-! ## Attribute stripping -/

/-- The store `d1` differs from `d` at most in the attributes of node `e`. -/
theorem removeAttr_frame (d : Dom) (e : Nat) (name : String) :
    (removeAttr d e name).childNodes = d.childNodes
      ∧ (removeAttr d e name).parentNode = d.parentNode
      ∧ (removeAttr d e name).nodeType = d.nodeType
      ∧ (removeAttr d e name).nodeName = d.nodeName
      ∧ (removeAttr d e name).data = d.data
      ∧ (removeAttr d e name).size = d.size
      ∧ ∀ m, m ≠ e → (removeAttr d e name).attrs m = d.attrs m := by
  refine ⟨rfl, rfl, rfl, rfl, rfl, rfl, fun m hm => ?_⟩
  simp [removeAttr, Function.update_noteq hm]

theorem removeAttributesFrom_frame (k : Nat) (d : Dom) (e : Nat) :
    (removeAttributesFrom k d e).childNodes = d.childNodes
      ∧ (removeAttributesFrom k d e).parentNode = d.parentNode
      ∧ (removeAttributesFrom k d e).nodeType = d.nodeType
      ∧ (removeAttributesFrom k d e).nodeName = d.nodeName
      ∧ (removeAttributesFrom k d e).data = d.data
      ∧ (removeAttributesFrom k d e).size = d.size
      ∧ ∀ m, m ≠ e → (removeAttributesFrom k d e).attrs m = d.attrs m := by
  induction k generalizing d with
  | zero => exact ⟨rfl, rfl, rfl, rfl, rfl, rfl, fun _ _ => rfl⟩
  | succ k ih =>
    simp only [removeAttributesFrom]
    cases hk : (d.attrs e)[k]? with
    | none => exact ih d
    | some a =>
      simp only []
      by_cases hh : hasAttribute d e a.1 = true
      · rw [if_pos hh]
        obtain ⟨h1, h2, h3, h4, h5, h6, h7⟩ := ih (removeAttr d e a.1)
        obtain ⟨g1, g2, g3, g4, g5, g6, g7⟩ := removeAttr_frame d e a.1
        exact ⟨h1.trans g1, h2.trans g2, h3.trans g3, h4.trans g4, h5.trans g5, h6.trans g6,
          fun m hm => (h7 m hm).trans (g7 m hm)⟩
      · rw [if_neg hh]
        exact ih d

theorem removeAttributesFrom_clears (k : Nat) (d : Dom) (e : Nat)
    (h : (d.attrs e).length ≤ k) : (removeAttributesFrom k d e).attrs e = [] := by
  induction k generalizing d with
  | zero => simpa [removeAttributesFrom] using h
  | succ k ih =>
    simp only [removeAttributesFrom]
    cases hk : (d.attrs e)[k]? with
    | none =>
      simp only []
      exact ih d (by
        rcases Nat.lt_or_ge k (d.attrs e).length with hlt | hge
        · rw [List.getElem?_eq_getElem hlt] at hk; cases hk
        · exact hge)
    | some a =>
      simp only []
      have hmem : a ∈ d.attrs e := List.getElem?_mem hk
      have hh : hasAttribute d e a.1 = true := by
        simp only [hasAttribute, List.any_eq_true]
        exact ⟨a, hmem, by simp⟩
      rw [if_pos hh]
      refine ih (removeAttr d e a.1) ?_
      have hlt : ((d.attrs e).filter (fun b => !(b.1 == a.1))).length < (d.attrs e).length := by
        apply List.length_filter_lt_length_iff_exists.2
        exact ⟨a, hmem, by simp⟩
      simp only [removeAttr, Function.update_same]
      omega

/-- The effect of `removeAllAttributes`: an element loses all its attributes,
and nothing else changes. -/
theorem removeAllAttributes_eq (d : Dom) (e : Nat) :
    (removeAllAttributes d e).childNodes = d.childNodes
      ∧ (removeAllAttributes d e).parentNode = d.parentNode
      ∧ (removeAllAttributes d e).nodeType = d.nodeType
      ∧ (removeAllAttributes d e).nodeName = d.nodeName
      ∧ (removeAllAttributes d e).data = d.data
      ∧ (removeAllAttributes d e).size = d.size
      ∧ (∀ m, m ≠ e → (removeAllAttributes d e).attrs m = d.attrs m)
      ∧ (d.nodeType e = NodeType.element → (removeAllAttributes d e).attrs e = [])
      ∧ (d.nodeType e = NodeType.text → (removeAllAttributes d e).attrs e = d.attrs e) := by
  unfold removeAllAttributes attributes
  cases hty : d.nodeType e with
  | element =>
    simp only []
    obtain ⟨h1, h2, h3, h4, h5, h6, h7⟩ := removeAttributesFrom_frame (d.attrs e).length d e
    exact ⟨h1, h2, h3, h4, h5, h6, h7,
      fun _ => removeAttributesFrom_clears _ d e (le_refl _), fun h => by cases h⟩
  | text => simp

theorem removeAllAttributes_same (d : Dom) (e : Nat) :
    SameStructure d (removeAllAttributes d e) :=
  ⟨(removeAllAttributes_eq d e).1, (removeAllAttributes_eq d e).2.1,
    (removeAllAttributes_eq d e).2.2.1⟩

/-! ## Forests under structural changes -/

theorem isTree_forest (d : Dom) (i : Nat) (ks : List Shape) (h : IsTree d (Shape.mk i ks)) :
    Forest d i ks := by
  obtain ⟨h1, h2⟩ := h
  rw [Shape.in_mk] at h1
  rw [Shape.ids_mk] at h2
  exact ⟨h1.1, h1.2.2, h2⟩

theorem Touches.touch_refl (d : Dom) (p : Nat) (ks : List Shape) : Touches d d p ks :=
  ⟨rfl, rfl, rfl, rfl, rfl, fun _ _ _ => rfl, fun _ _ => rfl⟩

theorem Touches.touch_trans {d d1 d2 : Dom} {p : Nat} {ks ks1 : List Shape}
    (h1 : Touches d d1 p ks) (h2 : Touches d1 d2 p ks1)
    (hsub : ∀ m, m ∈ idsList ks1 → m ∈ idsList ks) : Touches d d2 p ks := by
  obtain ⟨a1, a2, a3, a4, a5, a6, a7⟩ := h1
  obtain ⟨b1, b2, b3, b4, b5, b6, b7⟩ := h2
  refine ⟨b1.trans a1, b2.trans a2, b3.trans a3, b4.trans a4, b5.trans a5, ?_, ?_⟩
  · intro m hp hm
    rw [b6 m hp (fun h => hm (hsub m h)), a6 m hp hm]
  · intro m hm
    rw [b7 m (fun h => hm (hsub m h)), a7 m hm]

/-- A change below a child `c` of `p` is a change below `p`. -/
theorem Touches.lift {d d1 : Dom} {c : Nat} {ck : List Shape} (p : Nat) (ks : List Shape)
    (h : Touches d d1 c ck) (hc : c ∈ idsList ks)
    (hsub : ∀ m, m ∈ idsList ck → m ∈ idsList ks) : Touches d d1 p ks := by
  obtain ⟨a1, a2, a3, a4, a5, a6, a7⟩ := h
  refine ⟨a1, a2, a3, a4, a5, ?_, ?_⟩
  · intro m _ hm
    exact a6 m (fun h => hm (h ▸ hc)) (fun h => hm (hsub m h))
  · intro m hm
    exact a7 m (fun h => hm (hsub m h))

theorem spliceAt_mid (pre post kids : List Nat) (c : Nat) (h : c ∉ pre) :
    spliceAt (pre ++ c :: post) c kids = pre ++ kids ++ post := by
  induction pre with
  | nil => simp [spliceAt]
  | cons x xs ih =>
    have hx : x ≠ c := fun e => h (by simp [e])
    have hxs : c ∉ xs := fun e => h (by simp [e])
    simp [spliceAt, hx, ih hxs]

theorem erase_mid (pre post : List Nat) (c : Nat) (h : c ∉ pre) :
    (pre ++ c :: post).erase c = pre ++ post := by
  induction pre with
  | nil => simp
  | cons x xs ih =>
    have hx : x ≠ c := fun e => h (by simp [e])
    have hxs : c ∉ xs := fun e => h (by simp [e])
    rw [List.cons_append, List.erase_cons_tail (by simpa using hx), ih hxs]
    rfl

theorem idsList_mid (A B : List Shape) (c : Nat) (ck : List Shape) :
    idsList (A ++ [Shape.mk c ck] ++ B) = idsList A ++ (c :: idsList ck) ++ idsList B := by
  simp [idsList_append, idsList, Shape.ids]

theorem roots_mid (A B : List Shape) (c : Nat) (ck : List Shape) :
    roots (A ++ [Shape.mk c ck] ++ B) = roots A ++ c :: roots B := by
  simp [roots, Shape.id]

/-- What the nodes of a forest have in common when no node occurs twice. -/
theorem nodup_mid (p : Nat) (A B : List Shape) (c : Nat) (ck : List Shape)
    (h : (p :: idsList (A ++ [Shape.mk c ck] ++ B)).Nodup) :
    p ≠ c ∧ p ∉ idsList A ∧ p ∉ idsList ck ∧ p ∉ idsList B
      ∧ c ∉ idsList A ∧ c ∉ idsList ck ∧ c ∉ idsList B
      ∧ (∀ m, m ∈ idsList A → m ∉ idsList ck) ∧ (∀ m, m ∈ idsList A → m ∉ idsList B)
      ∧ (∀ m, m ∈ idsList ck → m ∉ idsList B)
      ∧ (idsList A).Nodup ∧ (idsList ck).Nodup ∧ (idsList B).Nodup := by
  rw [idsList_mid] at h
  simp only [List.nodup_cons, List.nodup_append, List.mem_append, List.mem_cons,
    List.disjoint_left, not_or] at h
  obtain ⟨⟨⟨hpA, hpc, hpck⟩, hpB⟩, ⟨hA, ⟨hcck, hck⟩, hAc⟩, hB, hAB⟩ := h
  refine ⟨hpc, hpA, hpck, hpB, ?_, hcck, ?_, ?_, ?_, ?_, hA, hck, hB⟩
  · exact fun hm => (hAc hm).1 rfl
  · exact fun hm => hAB (Or.inr (Or.inl rfl)) hm
  · exact fun m hm h2 => (hAc hm).2 h2
  · exact fun m hm h2 => hAB (Or.inl hm) h2
  · exact fun m hm h2 => hAB (Or.inr (Or.inr hm)) h2

mutual
theorem Shape.parent_of_mem (d : Dom) : ∀ s : Shape, s.In d →
    ∀ m, m ∈ idsList s.kids → ∃ x, x ∈ s.ids ∧ d.parentNode m = some x
  | Shape.mk i ks, h, m, hm => by
    rw [Shape.in_mk] at h
    simp only [Shape.kids] at hm
    obtain ⟨x, hx, hp⟩ := kids_parent_of_mem d i ks h.2.2 m hm
    refine ⟨x, ?_, hp⟩
    rw [Shape.ids_mk]
    rcases hx with rfl | hx
    · simp
    · simp [hx]
theorem kids_parent_of_mem (d : Dom) (p : Nat) : ∀ ks : List Shape, KidsIn d p ks →
    ∀ m, m ∈ idsList ks → ∃ x, (x = p ∨ x ∈ idsList ks) ∧ d.parentNode m = some x
  | [], _, m, hm => by simp [idsList] at hm
  | k :: ks, h, m, hm => by
    rw [kidsIn_cons] at h
    rw [idsList] at hm
    rw [idsList]
    rcases List.mem_append.1 hm with hm1 | hm1
    · cases k with
      | mk i ck =>
        rw [Shape.ids_mk] at hm1
        rcases List.mem_cons.1 hm1 with rfl | hm2
        · exact ⟨p, Or.inl rfl, h.1.1⟩
        · obtain ⟨x, hx, hp⟩ := Shape.parent_of_mem d (Shape.mk i ck) h.1.2 m
            (by simpa [Shape.kids] using hm2)
          exact ⟨x, Or.inr (List.mem_append_left _ hx), hp⟩
    · obtain ⟨x, hx, hp⟩ := kids_parent_of_mem d p ks h.2 m hm1
      refine ⟨x, ?_, hp⟩
      rcases hx with rfl | hx
      · exact Or.inl rfl
      · exact Or.inr (List.mem_append_right _ hx)
end

theorem kidsIn_root_parent (d : Dom) (p : Nat) (ks : List Shape) (h : KidsIn d p ks) (m : Nat)
    (hm : m ∈ roots ks) : d.parentNode m = some p := by
  obtain ⟨k, hk, rfl⟩ := List.mem_map.1 hm
  exact ((kidsIn_iff d p ks).1 h k hk).1

/-- In a forest below `c`, a node below a root is not itself a root. -/
theorem not_root_of_below (d : Dom) (c : Nat) (ck : List Shape) (h : KidsIn d c ck)
    (hc : c ∉ idsList ck) (k : Shape) (hk : k ∈ ck) (m : Nat) (hm : m ∈ idsList k.kids) :
    m ∉ roots ck := by
  intro hr
  have h1 := kidsIn_root_parent d c ck h m hr
  obtain ⟨x, hx, h2⟩ := Shape.parent_of_mem d k ((kidsIn_iff d c ck).1 h k hk).2 m hm
  rw [h1] at h2
  have : c = x := Option.some.inj h2
  exact hc (this ▸ ids_subset_idsList ck k hk x hx)

theorem kids_mem_ids (k : Shape) (m : Nat) (hm : m ∈ idsList k.kids) : m ∈ k.ids := by
  cases k with
  | mk i ck => simp only [Shape.kids] at hm; simp [Shape.ids, hm]

theorem removeShallow_eq (d : Dom) (c p : Nat) (h : d.parentNode c = some p) :
    removeShallow d c = some { d with
      childNodes := Function.update
        (Function.update d.childNodes p (spliceAt (d.childNodes p) c (d.childNodes c))) c []
      parentNode := Function.update (reparent d.parentNode (d.childNodes c) p) c none } := by
  simp only [removeShallow, h]

/-- Unwrapping a child `c` of `p`: the subtrees of `c` take its place. -/
theorem removeShallow_forest (d : Dom) (p : Nat) (A B : List Shape) (c : Nat) (ck : List Shape)
    (h : Forest d p (A ++ [Shape.mk c ck] ++ B)) :
    ∃ d1, removeShallow d c = some d1 ∧ Forest d1 p (A ++ ck ++ B)
      ∧ d1.childNodes c = [] ∧ d1.parentNode c = none
      ∧ Touches d d1 p (A ++ [Shape.mk c ck] ++ B) := by
  obtain ⟨hch, hkin, hnd⟩ := h
  obtain ⟨hpc, hpA, hpck, hpB, hcA, hcck, hcB, hAck, hAB, hckB, hnA, hnck, hnB⟩ :=
    nodup_mid p A B c ck hnd
  rw [kidsIn_append, kidsIn_append, kidsIn_cons] at hkin
  obtain ⟨⟨hkA, ⟨hparc, hCin⟩, _⟩, hkB⟩ := hkin
  rw [Shape.in_mk] at hCin
  obtain ⟨hcch, _, hkck⟩ := hCin
  rw [roots_mid] at hch
  have hcrA : c ∉ roots A := fun hm => hcA (roots_subset_idsList A c hm)
  simp only [Shape.id] at hparc
  refine ⟨_, removeShallow_eq d c p hparc, ?_, ?_, ?_, ?_⟩
  · -- the forest
    have hcn : ∀ m, m ≠ p → m ≠ c →
        (Function.update (Function.update d.childNodes p
          (spliceAt (d.childNodes p) c (d.childNodes c))) c []) m = d.childNodes m := by
      intro m h1 h2
      rw [Function.update_noteq h2, Function.update_noteq h1]
    have hpn : ∀ m, m ≠ c → m ∉ roots ck →
        (Function.update (reparent d.parentNode (d.childNodes c) p) c none) m
          = d.parentNode m := by
      intro m h1 h2
      rw [Function.update_noteq h1]
      simp only [reparent, hcch, h2, if_false]
    refine ⟨?_, ?_, ?_⟩
    · show (Function.update (Function.update d.childNodes p
          (spliceAt (d.childNodes p) c (d.childNodes c))) c []) p = _
      rw [Function.update_noteq hpc, Function.update_same, hch, hcch,
        spliceAt_mid _ _ _ _ hcrA, roots_append, roots_append]
    · rw [kidsIn_append, kidsIn_append]
      refine ⟨⟨?_, ?_⟩, ?_⟩
      · refine kidsIn_frame d _ p A (fun m hm => ⟨?_, rfl⟩) (fun m hm => ?_) hkA
        · exact hcn m (fun e => hpA (e ▸ hm)) (fun e => hcA (e ▸ hm))
        · exact hpn m (fun e => hcA (e ▸ hm))
            (fun e => hAck m hm (roots_subset_idsList ck m e))
      · rw [kidsIn_iff]
        intro k hk
        have hkid : k.id ∈ idsList ck := ids_subset_idsList ck k hk _ k.id_mem_ids
        refine ⟨?_, ?_⟩
        · show (Function.update (reparent d.parentNode (d.childNodes c) p) c none) k.id = _
          have hne : k.id ≠ c := fun e => hcck (e ▸ hkid)
          rw [Function.update_noteq hne]
          have : k.id ∈ d.childNodes c := by rw [hcch]; exact List.mem_map.2 ⟨k, hk, rfl⟩
          simp only [reparent, this, if_true]
        · refine Shape.in_frame d _ k (fun m hm => ⟨?_, rfl⟩) (fun m hm => ?_)
            ((kidsIn_iff d c ck).1 hkck k hk).2
          · have hm1 := ids_subset_idsList ck k hk m hm
            exact hcn m (fun e => hpck (e ▸ hm1)) (fun e => hcck (e ▸ hm1))
          · have hm1 := ids_subset_idsList ck k hk m (kids_mem_ids k m hm)
            exact hpn m (fun e => hcck (e ▸ hm1)) (not_root_of_below d c ck hkck hcck k hk m hm)
      · refine kidsIn_frame d _ p B (fun m hm => ⟨?_, rfl⟩) (fun m hm => ?_) hkB
        · exact hcn m (fun e => hpB (e ▸ hm)) (fun e => hcB (e ▸ hm))
        · exact hpn m (fun e => hcB (e ▸ hm))
            (fun e => hckB m (roots_subset_idsList ck m e) hm)
    · refine List.Nodup.sublist ?_ hnd
      refine List.Sublist.cons₂ p ?_
      rw [idsList_mid, idsList_append, idsList_append]
      exact List.Sublist.append (List.Sublist.append (List.Sublist.refl _)
        (List.sublist_cons_self c _)) (List.Sublist.refl _)
  · show (Function.update (Function.update d.childNodes p
        (spliceAt (d.childNodes p) c (d.childNodes c))) c []) c = _
    rw [Function.update_same]
  · show (Function.update (reparent d.parentNode (d.childNodes c) p) c none) c = _
    rw [Function.update_same]
  · refine ⟨rfl, rfl, rfl, rfl, rfl, fun m h1 h2 => ?_, fun m h2 => ?_⟩
    · rw [idsList_mid] at h2
      show (Function.update (Function.update d.childNodes p
        (spliceAt (d.childNodes p) c (d.childNodes c))) c []) m = _
      have hne : m ≠ c := fun e => h2 (by simp [e])
      rw [Function.update_noteq hne, Function.update_noteq h1]
    · rw [idsList_mid] at h2
      show (Function.update (reparent d.parentNode (d.childNodes c) p) c none) m = _
      have hne : m ≠ c := fun e => h2 (by simp [e])
      rw [Function.update_noteq hne]
      have : m ∉ d.childNodes c := by
        rw [hcch]
        exact fun e => h2 (by simp [roots_subset_idsList ck m e])
      simp only [reparent, this, if_false]

theorem nodup_mid_of (p : Nat) (A B : List Shape) (c : Nat) (ck : List Shape)
    (h1 : p ≠ c) (h2 : p ∉ idsList A) (h3 : p ∉ idsList ck) (h4 : p ∉ idsList B)
    (h5 : c ∉ idsList A) (h6 : c ∉ idsList ck) (h7 : c ∉ idsList B)
    (h8 : ∀ m, m ∈ idsList A → m ∉ idsList ck) (h9 : ∀ m, m ∈ idsList A → m ∉ idsList B)
    (h10 : ∀ m, m ∈ idsList ck → m ∉ idsList B)
    (h11 : (idsList A).Nodup) (h12 : (idsList ck).Nodup) (h13 : (idsList B).Nodup) :
    (p :: idsList (A ++ [Shape.mk c ck] ++ B)).Nodup := by
  rw [idsList_mid]
  simp only [List.nodup_cons, List.nodup_append, List.mem_append, List.mem_cons,
    List.disjoint_left, not_or]
  refine ⟨⟨⟨h2, h1, h3⟩, h4⟩, ⟨h11, ⟨h6, h12⟩, ?_⟩, h13, ?_⟩
  · intro m hm
    exact ⟨fun e => h5 (e ▸ hm), h8 m hm⟩
  · intro m hm
    rcases hm with hm | rfl | hm
    · exact h9 m hm
    · exact h7
    · exact h10 m hm

theorem forest_child (d : Dom) (p : Nat) (A B : List Shape) (c : Nat) (ck : List Shape)
    (h : Forest d p (A ++ [Shape.mk c ck] ++ B)) :
    Forest d c ck ∧ d.parentNode c = some p ∧ (d.nodeType c = NodeType.text → ck.length = 0) := by
  obtain ⟨_, hkin, hnd⟩ := h
  obtain ⟨_, _, _, _, _, hcck, _, _, _, _, _, hnck, _⟩ := nodup_mid p A B c ck hnd
  rw [kidsIn_append, kidsIn_append, kidsIn_cons] at hkin
  obtain ⟨⟨_, ⟨hparc, hCin⟩, _⟩, _⟩ := hkin
  rw [Shape.in_mk] at hCin
  exact ⟨⟨hCin.1, hCin.2.2, List.nodup_cons.2 ⟨hcck, hnck⟩⟩, hparc, hCin.2.1⟩

/-- After a change below the child `c` of `p` that leaves a forest below `c`,
the store holds a forest below `p`. -/
theorem forest_replace (d d2 : Dom) (p : Nat) (A B : List Shape) (c : Nat) (ck ck1 : List Shape)
    (h : Forest d p (A ++ [Shape.mk c ck] ++ B)) (ht : Touches d d2 c ck)
    (h2 : Forest d2 c ck1) (hsub : ∀ m, m ∈ idsList ck1 → m ∈ idsList ck)
    (htext : d2.nodeType c = NodeType.text → ck1.length = 0) :
    Forest d2 p (A ++ [Shape.mk c ck1] ++ B) := by
  obtain ⟨hch, hkin, hnd⟩ := h
  obtain ⟨hpc, hpA, hpck, hpB, hcA, hcck, hcB, hAck, hAB, hckB, hnA, hnck, hnB⟩ :=
    nodup_mid p A B c ck hnd
  rw [kidsIn_append, kidsIn_append, kidsIn_cons] at hkin
  obtain ⟨⟨hkA, ⟨hparc, _⟩, _⟩, hkB⟩ := hkin
  simp only [Shape.id] at hparc
  obtain ⟨t1, _, _, _, _, t6, t7⟩ := ht
  obtain ⟨g1, g2, g3⟩ := h2
  refine ⟨?_, ?_, ?_⟩
  · rw [t6 p hpc hpck, hch, roots_mid, roots_mid]
  · rw [kidsIn_append, kidsIn_append, kidsIn_cons]
    refine ⟨⟨?_, ⟨?_, ?_⟩, by simp [KidsIn]⟩, ?_⟩
    · refine kidsIn_frame d d2 p A (fun m hm => ⟨?_, by rw [t1]⟩) (fun m hm => ?_) hkA
      · exact t6 m (fun e => hcA (e ▸ hm)) (hAck m hm)
      · exact t7 m (hAck m hm)
    · simp only [Shape.id]
      rw [t7 c hcck]; exact hparc
    · rw [Shape.in_mk]
      exact ⟨g1, htext, g2⟩
    · refine kidsIn_frame d d2 p B (fun m hm => ⟨?_, by rw [t1]⟩) (fun m hm => ?_) hkB
      · exact t6 m (fun e => hcB (e ▸ hm)) (fun e => hckB m e hm)
      · exact t7 m (fun e => hckB m e hm)
  · have g3a := List.nodup_cons.1 g3
    exact nodup_mid_of p A B c ck1 hpc hpA (fun e => hpck (hsub p e)) hpB hcA g3a.1 hcB
      (fun m hm e => hAck m hm (hsub m e)) hAB (fun m hm => hckB m (hsub m hm)) hnA g3a.2 hnB

theorem split_at_root (ks : List Shape) (k : Nat) (c : Nat) (h : (roots ks)[k]? = some c) :
    ∃ A ck B, ks = A ++ [Shape.mk c ck] ++ B ∧ A.length = k := by
  simp only [roots, List.getElem?_map, Option.map_eq_some'] at h
  obtain ⟨s, hs, hid⟩ := h
  obtain ⟨i, ck⟩ := s
  simp only [Shape.id] at hid
  subst hid
  have hlt : k < ks.length := by
    rcases Nat.lt_or_ge k ks.length with h1 | h1
    · exact h1
    · rw [List.getElem?_eq_none h1] at hs; cases hs
  refine ⟨ks.take k, ck, ks.drop (k + 1), ?_, by simp [List.length_take]; omega⟩
  have h1 : ks[k] = Shape.mk i ck := by
    rw [List.getElem?_eq_getElem hlt] at hs
    exact Option.some.inj hs
  rw [List.append_assoc, List.singleton_append, ← h1, List.getElem_cons_drop,
    List.take_append_drop]

/-! ## The unwrapping walker keeps the store a tree -/

theorem SameData.of_touches {d d1 : Dom} {p : Nat} {ks : List Shape} (h : Touches d d1 p ks) :
    SameData d d1 :=
  ⟨h.1, h.2.1, h.2.2.1, h.2.2.2.1⟩

theorem SameData.data_trans {d d1 d2 : Dom} (h1 : SameData d d1) (h2 : SameData d1 d2) :
    SameData d d2 :=
  ⟨h2.1.trans h1.1, h2.2.1.trans h1.2.1, h2.2.2.1.trans h1.2.2.1, h2.2.2.2.trans h1.2.2.2⟩

theorem SameData.data_refl (d : Dom) : SameData d d := ⟨rfl, rfl, rfl, rfl⟩

theorem sublist_mid (A B : List Shape) (c : Nat) (ck ck1 : List Shape)
    (h : (idsList ck1).Sublist (idsList ck)) :
    (idsList (A ++ [Shape.mk c ck1] ++ B)).Sublist (idsList (A ++ [Shape.mk c ck] ++ B)) := by
  rw [idsList_mid, idsList_mid]
  exact List.Sublist.append (List.Sublist.append (List.Sublist.refl _) (List.Sublist.cons₂ c h))
    (List.Sublist.refl _)

theorem sublist_splice (A B : List Shape) (c : Nat) (ck : List Shape) :
    (idsList (A ++ ck ++ B)).Sublist (idsList (A ++ [Shape.mk c ck] ++ B)) := by
  rw [idsList_mid, idsList_append, idsList_append]
  exact List.Sublist.append (List.Sublist.append (List.Sublist.refl _)
    (List.sublist_cons_self c _)) (List.Sublist.refl _)

theorem sizeList_mid (A B : List Shape) (c : Nat) (ck : List Shape) :
    sizeList (A ++ [Shape.mk c ck] ++ B) = sizeList A + sizeList ck + 1 + sizeList B := by
  simp [sizeList_append, sizeList, Shape.size]; omega

theorem sizeList_splice (A B ck : List Shape) :
    sizeList (A ++ ck ++ B) = sizeList A + sizeList ck + sizeList B := by
  simp [sizeList_append]; omega

theorem descendInto_empty (c : Cond) (a : Action) (ci : Nat) (d : Dom) (log : List Event)
    (h : d.childNodes ci = []) : Terminates (descendInto c a ci (d, log)) (d, log) := by
  refine ⟨1, fun fuel hf => ?_⟩
  obtain ⟨k, rfl⟩ : ∃ k, fuel = k + 1 := ⟨fuel - 1, by omega⟩
  simp only [descendInto, h, List.length_nil]
  split
  · exact walkFrom_neg c a ci _ (d, log) k (by simp)
  · rfl

theorem unwrapWalk_step (c : Cond) (n : Nat)
    (ih : ∀ ks, sizeList ks < n → UnwrapWalk c ks) :
    ∀ ks, sizeList ks ≤ n → UnwrapWalk c ks := by
  intro ks hsize k
  induction k generalizing ks with
  | zero =>
    intro p d log hf
    exact ⟨d, log, ks, terminates_neg c removeShallow p _ (d, log) (by simp), hf,
      List.Sublist.refl _, le_refl _, Touches.touch_refl d p ks, fun m hm hn => absurd hm hn⟩
  | succ k ihk =>
    intro p d log hf
    have hidx : (((k + 1 : Nat) : Int) - 1).toNat = k := by omega
    have hpos : (0 : Int) ≤ ((k + 1 : Nat) : Int) - 1 := by omega
    have hnext : (((k + 1 : Nat) : Int) - 1) - 1 = (k : Int) - 1 := by omega
    cases hget : (d.childNodes p)[k]? with
    | none =>
      obtain ⟨d1, log1, ks1, hT, h1, h2, h3, h4, h5⟩ := ihk ks hsize p d log hf
      refine ⟨d1, log1, ks1, ?_, h1, h2, h3, h4, h5⟩
      refine terminates_undef c removeShallow p _ d log _ hpos (by rw [hidx]; exact hget) ?_
      rw [hnext]; exact hT
    | some ci =>
      obtain ⟨A, ck, B, rfl, hA⟩ := split_at_root ks k ci (by rw [← hf.1]; exact hget)
      have hsz := sizeList_mid A B ci ck
      obtain ⟨hfc, hparc, htext⟩ := forest_child d p A B ci ck hf
      obtain ⟨hpc, hpA, hpck, hpB, hcA, hcck, hcB, hAck, hAB, hckB, hnA, hnck, hnB⟩ :=
        nodup_mid p A B ci ck hf.2.2
      by_cases hc : c d ci = true
      · -- the child is unwrapped, and the loop stays at its index
        obtain ⟨d1, hrs, hf1, hcn1, _, ht1⟩ := removeShallow_forest d p A B ci ck hf
        have hnotin : ci ∉ d1.childNodes p := by
          rw [hf1.1]
          intro hm
          have := roots_subset_idsList _ ci hm
          rw [idsList_append, idsList_append] at this
          simp only [List.mem_append] at this
          rcases this with (h | h) | h
          · exact hcA h
          · exact hcck h
          · exact hcB h
        have hh : handleChild c removeShallow p (((k + 1 : Nat) : Int) - 1) d log ci
            = some (d1, log ++ [Event.test ci true, Event.act ci], (((k + 1 : Nat) : Int) - 1) + 1) := by
          have hne : (d1.childNodes p)[k]? ≠ some ci := fun e => hnotin (List.getElem?_mem e)
          simp only [handleChild, hc, if_true, hrs, hidx]
          simp [hne]
        have hsz1 : sizeList (A ++ ck ++ B) < n := by
          have := sizeList_splice A B ck
          omega
        obtain ⟨d2, log2, ks2, hT, g1, g2, g3, g4, g5⟩ := ih (A ++ ck ++ B) hsz1 (k + 1) p d1
          (log ++ [Event.test ci true, Event.act ci]) hf1
        have hsub := sublist_splice A B ci ck
        refine ⟨d2, log2, ks2, ?_, g1, g2.trans hsub, ?_, ?_, ?_⟩
        · refine terminates_child c removeShallow p _ d log ci d1 _ _ _ (d2, log2) hpos
            (by rw [hidx]; exact hget) hh (descendInto_empty c removeShallow ci d1 _ hcn1) ?_
          have : (((k + 1 : Nat) : Int) - 1) + 1 - 1 = ((k + 1 : Nat) : Int) - 1 := by omega
          rw [this]; exact hT
        · have := sizeList_splice A B ck
          omega
        · exact ht1.touch_trans g4 (fun m hm => hsub.subset hm)
        · intro m hm hn
          by_cases hm1 : m ∈ idsList (A ++ ck ++ B)
          · obtain ⟨d3, h3, h4⟩ := g5 m hm1 hn
            exact ⟨d3, (SameData.of_touches ht1).data_trans h3, h4⟩
          · have hmc : m = ci := by
              rw [idsList_mid] at hm
              rw [idsList_append, idsList_append] at hm1
              simp only [List.mem_append, List.mem_cons, not_or] at hm hm1
              rcases hm with (h | h | h) | h
              · exact absurd h hm1.1.1
              · exact h
              · exact absurd h hm1.1.2
              · exact absurd h hm1.2
            exact ⟨d, SameData.data_refl d, hmc ▸ hc⟩
      · -- the child stays, and the walker goes into it
        have hh : handleChild c removeShallow p (((k + 1 : Nat) : Int) - 1) d log ci
            = some (d, log ++ [Event.test ci false], ((k + 1 : Nat) : Int) - 1) := by
          simp [handleChild, hc]
        obtain ⟨d2, log2, ck1, hT2, f1, f2, f3, f4, f5⟩ := ih ck (by omega) ck.length ci d
          (log ++ [Event.test ci false]) hfc
        have hdesc : ∃ d2 log2 ck1,
            Terminates (descendInto c removeShallow ci (d, log ++ [Event.test ci false])) (d2, log2)
            ∧ Forest d2 ci ck1 ∧ (idsList ck1).Sublist (idsList ck) ∧ sizeList ck1 ≤ sizeList ck
            ∧ Touches d d2 ci ck
            ∧ (∀ m, m ∈ idsList ck → m ∉ idsList ck1 → ∃ d3, SameData d d3 ∧ c d3 m = true)
            ∧ (d2.nodeType ci = NodeType.text → ck1.length = 0) := by
          by_cases hel : isElementNode d ci = true
          · refine ⟨d2, log2, ck1, ?_, f1, f2, f3, f4, f5, ?_⟩
            · obtain ⟨N, hN⟩ := hT2
              refine ⟨N, fun fuel hfu => ?_⟩
              have hlen : (d.childNodes ci).length = ck.length := by rw [hfc.1, roots_length]
              simp only [descendInto, hel, if_true, hlen]
              exact hN fuel hfu
            · intro ht
              rw [f4.1] at ht
              simp [isElementNode, ht] at hel
          · have hty : d.nodeType ci = NodeType.text := by
              cases hty : d.nodeType ci with
              | element => simp [isElementNode, hty] at hel
              | text => rfl
            refine ⟨d, log ++ [Event.test ci false], ck, ⟨0, fun fuel _ => ?_⟩, hfc, List.Sublist.refl _, le_refl _,
              Touches.touch_refl d ci ck, fun m hm hn => absurd hm hn, fun _ => htext hty⟩
            simp only [descendInto, hel]
            rfl
        obtain ⟨d3, log3, ck3, hT3, e1, e2, e3, e4, e5, e6⟩ := hdesc
        have hf3 : Forest d3 p (A ++ [Shape.mk ci ck3] ++ B) :=
          forest_replace d d3 p A B ci ck ck3 hf e4 e1 (fun m hm => e2.subset hm) e6
        have hsz3 : sizeList (A ++ [Shape.mk ci ck3] ++ B) ≤ n := by
          have := sizeList_mid A B ci ck3
          omega
        obtain ⟨d4, log4, ks4, hT4, g1, g2, g3, g4, g5⟩ :=
          ihk (A ++ [Shape.mk ci ck3] ++ B) hsz3 p d3 log3 hf3
        have hsub := sublist_mid A B ci ck ck3 e2
        have hcin : ci ∈ idsList (A ++ [Shape.mk ci ck] ++ B) := by
          rw [idsList_mid]; simp
        have hckin : ∀ m, m ∈ idsList ck → m ∈ idsList (A ++ [Shape.mk ci ck] ++ B) := by
          intro m hm; rw [idsList_mid]; simp [hm]
        have ht3 : Touches d d3 p (A ++ [Shape.mk ci ck] ++ B) := Touches.lift p _ e4 hcin hckin
        refine ⟨d4, log4, ks4, ?_, g1, g2.trans hsub, ?_, ?_, ?_⟩
        · refine terminates_child c removeShallow p _ d log ci d _ _ (d3, log3) (d4, log4) hpos
            (by rw [hidx]; exact hget) hh hT3 ?_
          rw [hnext]; exact hT4
        · have := sizeList_mid A B ci ck3
          omega
        · exact ht3.touch_trans g4 (fun m hm => hsub.subset hm)
        · intro m hm hn
          by_cases hm1 : m ∈ idsList (A ++ [Shape.mk ci ck3] ++ B)
          · obtain ⟨d5, h5, h6⟩ := g5 m hm1 hn
            exact ⟨d5, (SameData.of_touches ht3).data_trans h5, h6⟩
          · have hmck : m ∈ idsList ck ∧ m ∉ idsList ck3 := by
              rw [idsList_mid] at hm hm1
              simp only [List.mem_append, List.mem_cons, not_or] at hm hm1
              rcases hm with (h | h | h) | h
              · exact absurd h hm1.1.1
              · exact absurd h hm1.1.2.1
              · exact ⟨h, hm1.1.2.2⟩
              · exact absurd h hm1.2
            exact e5 m hmck.1 hmck.2

theorem unwrapWalk (c : Cond) (ks : List Shape) : UnwrapWalk c ks := by
  have h : ∀ n, ∀ ks, sizeList ks ≤ n → UnwrapWalk c ks := by
    intro n
    induction n using Nat.strong_induction_on with
    | _ n ih =>
      exact unwrapWalk_step c n (fun ks hks => ih (sizeList ks) hks ks (le_refl _))
  exact h (sizeList ks) ks (le_refl _)

/-! ## Text content -/

mutual
theorem Shape.getTextContent_eq (d : Dom) : ∀ (s : Shape), s.In d →
    ∀ fuel, s.size ≤ fuel → getTextContent fuel d s.id = some (s.text d.nodeType d.data)
  | Shape.mk i ks, h, fuel, hf => by
    rw [Shape.size_mk] at hf
    obtain ⟨k, rfl⟩ : ∃ k, fuel = k + 1 := ⟨fuel - 1, by omega⟩
    rw [Shape.in_mk] at h
    simp only [getTextContent, Shape.id, Shape.text]
    cases hty : d.nodeType i with
    | text => rfl
    | element =>
      simp only []
      rw [h.1]
      exact kids_concatText_eq d i ks h.2.2 k (by omega)
theorem kids_concatText_eq (d : Dom) (p : Nat) : ∀ (ks : List Shape), KidsIn d p ks →
    ∀ fuel, sizeList ks ≤ fuel →
      concatText (getTextContent fuel d) (roots ks) = some (textList d.nodeType d.data ks)
  | [], _, fuel, _ => by simp [roots, concatText, textList]
  | k :: ks, h, fuel, hf => by
    rw [kidsIn_cons] at h
    rw [sizeList] at hf
    have h1 := Shape.getTextContent_eq d k h.1.2 fuel (by omega)
    have h2 := kids_concatText_eq d p ks h.2 fuel (by omega)
    simp only [roots, List.map_cons, concatText, textList] at h2 ⊢
    rw [h1, h2]
end

theorem hasText_eq (d : Dom) (s : Shape) (h : s.In d) (fuel : Nat) (hf : s.size ≤ fuel) :
    hasText fuel d s.id = some (utf16Length (trim (s.text d.nodeType d.data).data)) := by
  simp [hasText, Shape.getTextContent_eq d s h fuel hf]

theorem shouldUnwrap_congr (P : Predicates) (d d1 : Dom) (s : Shape) (h : SameData d d1) :
    shouldUnwrap P d1 s = shouldUnwrap P d s := by
  simp only [shouldUnwrap, h.1, h.2.1, h.2.2.2]

/-! ## The loop over the direct children in `cleanElement` -/

theorem cleanChildren_none (P : Predicates) (fuel : Nat) (d : Dom) (p : Nat)
    (prev : Option Nat) : cleanChildren P (fuel + 1) d p none prev = some d := by
  simp [cleanChildren]

theorem cleanChildren_some (P : Predicates) (fuel : Nat) (d : Dom) (p : Nat) (prev : Option Nat)
    (C : Shape) (hC : C.In d) (hf : C.size ≤ fuel) :
    cleanChildren P (fuel + 1) d p (some C.id) prev =
      if shouldUnwrap P d C = true then
        match removeShallow d C.id with
        | none => none
        | some d1 =>
          cleanChildren P fuel d1 p (orNode prev (firstChild d1 p)) prev
      else cleanChildren P fuel d p (nextSibling d C.id) (some C.id) := by
  have ht := hasText_eq d C hC fuel hf
  simp only [cleanChildren, ht, shouldUnwrap]
  by_cases hn : (d.nodeName C.id == "SPAN" || d.nodeName C.id == "FONT") = true
  · simp [hn]
  · simp only [hn, Bool.false_eq_true, if_false, Option.map_some', Bool.false_or]
    cases hb : (utf16Length (trim (Shape.text d.nodeType d.data C).data) == 0
        && (P.isTextLevelSemanticNode (d.nodeName C.id) && !P.isVoidNode (d.nodeName C.id)))
    · simp
    · simp

theorem nextIn_mid (pre post : List Nat) (c : Nat) (h : c ∉ pre) :
    nextIn (pre ++ c :: post) c = post.head? := by
  induction pre with
  | nil => simp [nextIn]
  | cons x xs ih =>
    have hx : x ≠ c := fun e => h (by simp [e])
    have hxs : c ∉ xs := fun e => h (by simp [e])
    simp [nextIn, hx, ih hxs]

theorem mid_eq (A B : List Shape) (C : Shape) : A ++ C :: B = A ++ [C] ++ B := by simp

theorem cleanLoop_step (P : Predicates) (n : Nat)
    (ih : ∀ ks, sizeList ks < n → CleanLoop P ks) :
    ∀ ks, sizeList ks ≤ n → CleanLoop P ks := by
  intro ks hsize r
  have hdone : ∀ (A : List Shape) (p : Nat) (d : Dom) (prev : Option Nat),
      ks = A ++ [] → Forest d p ks → CleanState P d A [] none prev →
      ∃ d1 ks1, Terminates (fun fuel => cleanChildren P fuel d p none prev) d1
        ∧ Forest d1 p ks1 ∧ (idsList ks1).Sublist (idsList ks) ∧ Touches d d1 p ks
        ∧ (∀ s, s ∈ ks1 → shouldUnwrap P d1 s = false)
        ∧ (∀ m, m ∈ idsList ks → m ∉ idsList ks1 → Removable P d m) := by
    intro A p d prev hks hf hst
    refine ⟨d, ks, ⟨1, fun fuel hfu => ?_⟩, hf, List.Sublist.refl _, Touches.touch_refl d p ks, ?_,
      fun m hm hn => absurd hm hn⟩
    · obtain ⟨k, rfl⟩ : ∃ k, fuel = k + 1 := ⟨fuel - 1, by omega⟩
      exact cleanChildren_none P k d p prev
    · intro s hs
      rw [hks, List.append_nil] at hs
      exact hst.1 s hs
  induction r with
  | zero =>
    intro A R p d child prev hks hR hf hst
    have hRn : R = [] := List.length_eq_zero.1 (by omega)
    subst hRn
    have hch : child = none := by simpa using hst.2.1
    subst hch
    exact hdone A p d prev hks hf hst
  | succ r ihr =>
    intro A R p d child prev hks hR hf hst
    cases R with
    | nil =>
      have hch : child = none := by simpa using hst.2.1
      subst hch
      exact hdone A p d prev hks hf hst
    | cons C B =>
      obtain ⟨c, ck⟩ := C
      have hch : child = some c := by simpa [Shape.id] using hst.2.1
      subst hch
      rw [mid_eq] at hks
      subst hks
      obtain ⟨hfc, hparc, htext⟩ := forest_child d p A B c ck hf
      obtain ⟨hpc, hpA, hpck, hpB, hcA, hcck, hcB, hAck, hAB, hckB, hnA, hnck, hnB⟩ :=
        nodup_mid p A B c ck hf.2.2
      have hCin : (Shape.mk c ck).In d := by
        rw [Shape.in_mk]; exact ⟨hfc.1, htext, hfc.2.1⟩
      by_cases hu : shouldUnwrap P d (Shape.mk c ck) = true
      · -- the child is unwrapped and the scan resumes at `prev`
        obtain ⟨d1, hrs, hf1, _, _, ht1⟩ := removeShallow_forest d p A B c ck hf
        have hsd : SameData d d1 := SameData.of_touches ht1
        have hsz1 : sizeList (A ++ ck ++ B) < n := by
          have h1 := sizeList_splice A B ck
          have h2 := sizeList_mid A B c ck
          omega
        have hloop := ih (A ++ ck ++ B) hsz1
        have hnext : ∃ A1 R1, A ++ ck ++ B = A1 ++ R1
            ∧ CleanState P d1 A1 R1 (orNode prev (firstChild d1 p)) prev := by
          cases prev with
          | none =>
            refine ⟨[], A ++ ck ++ B, by simp, ?_⟩
            unfold CleanState
            refine ⟨fun s hs => (by cases hs), ?_, fun q hq => (by cases hq)⟩
            simp only [orNode, firstChild, hf1.1, roots, List.head?_map]
          | some q =>
            have hq := hst.2.2 q rfl
            have hqA : q ∈ roots A := by
              rcases hq with hq | ⟨C1, R1, h1, h2, h3⟩
              · exact hq
              · have hC1 : C1 = Shape.mk c ck := (List.cons.inj h1).1.symm
                rw [hC1, hu] at h3
                cases h3
            obtain ⟨Q, hQ, hQid⟩ := List.mem_map.1 hqA
            obtain ⟨A1, A2, hA12⟩ := List.append_of_mem hQ
            refine ⟨A1, Q :: (A2 ++ ck ++ B), by simp [hA12], ?_⟩
            unfold CleanState
            refine ⟨fun s hs => ?_, by simp [orNode, hQid],
              fun q1 hq1 => Or.inr ⟨Q, A2 ++ ck ++ B, rfl, ?_, ?_⟩⟩
            · rw [shouldUnwrap_congr P d d1 s hsd]
              exact hst.1 s (by rw [hA12]; simp [hs])
            · rw [hQid]; exact (Option.some.inj hq1)
            · rw [shouldUnwrap_congr P d d1 Q hsd]
              exact hst.1 Q hQ
        obtain ⟨A1, R1, hsplit, hst1⟩ := hnext
        obtain ⟨d2, ks2, hT, g1, g2, g3, g4, g5⟩ := hloop R1.length A1 R1 p d1 _ prev hsplit
          (le_refl _) hf1 hst1
        have hsub := sublist_splice A B c ck
        have hgone : ∀ m, m ∈ idsList (A ++ [Shape.mk c ck] ++ B) → m ∉ idsList ks2 →
            Removable P d m := by
          intro m hm hn
          by_cases hm1 : m ∈ idsList (A ++ ck ++ B)
          · have h5 := g5 m hm1 hn
            simpa [Removable, isSpanOrFont, hsd.2.1] using h5
          · have hmc : m = c := by
              rw [idsList_mid] at hm
              rw [idsList_append, idsList_append] at hm1
              simp only [List.mem_append, List.mem_cons, not_or] at hm hm1
              rcases hm with (h | h | h) | h
              · exact absurd h hm1.1.1
              · exact h
              · exact absurd h hm1.1.2
              · exact absurd h hm1.2
            subst hmc
            simp only [shouldUnwrap, Shape.id, Bool.or_eq_true, Bool.and_eq_true] at hu
            rcases hu with h | h
            · exact Or.inl (by simpa [isSpanOrFont] using h)
            · exact Or.inr (by simpa using h.2)
        refine ⟨d2, ks2, ?_, g1, g2.trans hsub, ht1.touch_trans g3 (fun m hm => hsub.subset hm), g4,
          hgone⟩
        obtain ⟨N, hN⟩ := hT
        refine ⟨max N (Shape.mk c ck).size + 1, fun fuel hfu => ?_⟩
        obtain ⟨k, rfl⟩ : ∃ k, fuel = k + 1 := ⟨fuel - 1, by omega⟩
        have := cleanChildren_some P k d p prev (Shape.mk c ck) hCin (by omega)
        simp only [Shape.id] at this
        show cleanChildren P (k + 1) d p (some c) prev = some d2
        rw [this, if_pos hu, hrs]
        exact hN k (by omega)
      · -- the child is kept and the scan moves on
        have hu1 : shouldUnwrap P d (Shape.mk c ck) = false := by simpa using hu
        have hns : nextSibling d c = B.head?.map Shape.id := by
          have hcr : c ∉ roots A := fun hm => hcA (roots_subset_idsList A c hm)
          simp only [nextSibling, hparc, hf.1, roots_mid]
          rw [nextIn_mid _ _ _ hcr]
          simp [roots, List.head?_map]
        have hst1 : CleanState P d (A ++ [Shape.mk c ck]) B (nextSibling d c) (some c) := by
          unfold CleanState
          refine ⟨fun s hs => ?_, hns, fun q hq => Or.inl ?_⟩
          · rcases List.mem_append.1 hs with h1 | h1
            · exact hst.1 s h1
            · rw [List.mem_singleton.1 h1]; exact hu1
          · rw [← Option.some.inj hq]; simp [roots, Shape.id]
        obtain ⟨d2, ks2, hT, g1, g2, g3, g4, g5⟩ := ihr (A ++ [Shape.mk c ck]) B p d
          (nextSibling d c) (some c) rfl (by simpa using hR) hf hst1
        refine ⟨d2, ks2, ?_, g1, g2, g3, g4, g5⟩
        obtain ⟨N, hN⟩ := hT
        refine ⟨max N (Shape.mk c ck).size + 1, fun fuel hfu => ?_⟩
        obtain ⟨k, rfl⟩ : ∃ k, fuel = k + 1 := ⟨fuel - 1, by omega⟩
        have := cleanChildren_some P k d p prev (Shape.mk c ck) hCin (by omega)
        simp only [Shape.id] at this
        show cleanChildren P (k + 1) d p (some c) prev = some d2
        rw [this, if_neg hu]
        exact hN k (by omega)

theorem cleanLoop (P : Predicates) (ks : List Shape) : CleanLoop P ks := by
  have h : ∀ n, ∀ ks, sizeList ks ≤ n → CleanLoop P ks := by
    intro n
    induction n using Nat.strong_induction_on with
    | _ n ih =>
      exact cleanLoop_step P n (fun ks hks => ih (sizeList ks) hks ks (le_refl _))
  exact h (sizeList ks) ks (le_refl _)

/-! ## The structural cleaner -/

theorem forest_same (d d1 : Dom) (p : Nat) (ks : List Shape) (hs : SameStructure d d1)
    (h : Forest d p ks) : Forest d1 p ks :=
  ⟨by rw [hs.1]; exact h.1, kidsIn_same d d1 p ks hs h.2.1, h.2.2⟩

theorem isNotImgOrA_congr (d d1 : Dom) (m : Nat) (h : d1.nodeName = d.nodeName) :
    isNotImgOrA d1 m = isNotImgOrA d m := by
  simp [isNotImgOrA, h]

theorem isSpanOrFont_congr (d d1 : Dom) (m : Nat) (h : d1.nodeName = d.nodeName) :
    isSpanOrFont d1 m = isSpanOrFont d m := by
  simp [isSpanOrFont, h]

theorem stableRun_strip (c : Cond) (ns : List Nat) (d : Dom) : StableRun c stripAction ns d :=
  stableRun_of_keeps c stripAction
    (fun d n => ⟨removeAllAttributes d n, rfl, removeAllAttributes_same d n⟩) ns d

/-- The attribute pass: the nodes it visits that are elements other than `IMG`
and `A` lose their attributes, and nothing else changes. -/
theorem visitAll_strip (ns : List Nat) (d : Dom) (log : List Event) (d1 : Dom)
    (log1 : List Event) (h : visitAll isNotImgOrA stripAction ns (d, log) = some (d1, log1)) :
    d1.nodeType = d.nodeType ∧ d1.nodeName = d.nodeName ∧ d1.data = d.data ∧ d1.size = d.size
      ∧ ∀ m, d1.attrs m =
        if m ∈ ns ∧ isNotImgOrA d m = true ∧ d.nodeType m = NodeType.element then []
        else d.attrs m := by
  induction ns generalizing d log with
  | nil =>
    simp only [visitAll, Option.some.injEq, Prod.mk.injEq] at h
    rw [← h.1]
    exact ⟨rfl, rfl, rfl, rfl, fun m => by simp⟩
  | cons x xs ih =>
    simp only [visitAll, visit, stripAction] at h
    by_cases hc : isNotImgOrA d x = true
    · simp only [hc, if_true] at h
      obtain ⟨e1, e2, e3, e4, e5⟩ := ih (removeAllAttributes d x) _ h
      obtain ⟨_, _, r3, r4, r5, r6, r7, r8, r9⟩ := removeAllAttributes_eq d x
      refine ⟨e1.trans r3, e2.trans r4, e3.trans r5, e4.trans r6, fun m => ?_⟩
      rw [e5 m, isNotImgOrA_congr d _ m r4, r3]
      by_cases hmx : m = x
      · subst hmx
        cases hty : d.nodeType m with
        | element => simp [hc, hty, r8 hty]
        | text => simp [hty, r9 hty]
      · rw [r7 m hmx]
        simp [hmx]
    · simp only [hc, Bool.false_eq_true, if_false] at h
      obtain ⟨e1, e2, e3, e4, e5⟩ := ih d _ h
      refine ⟨e1, e2, e3, e4, fun m => ?_⟩
      rw [e5 m]
      by_cases hmx : m = x
      · subst hmx
        simp [hc]
      · simp [hmx]

theorem unwrapDescendants_terminates (c : Cond) (e : Nat) (d d1 : Dom) (log1 : List Event)
    (n : Nat) (hlen : (d.childNodes e).length = n)
    (h : Terminates (fun fuel => walkFrom fuel c removeShallow e ((n : Int) - 1) (d, [])) (d1, log1)) :
    Terminates (fun fuel => unwrapDescendants fuel c e d) d1 := by
  obtain ⟨N, hN⟩ := h
  refine ⟨N, fun fuel hf => ?_⟩
  have h1 : walkFrom fuel c removeShallow e ((n : Int) - 1) (d, []) = some (d1, log1) :=
    hN fuel hf
  simp only [unwrapDescendants, walkDescendants, walkDescendantsLog, hlen]
  rw [h1]
  rfl

theorem walkDescendants_terminates (c : Cond) (a : Action) (e : Nat) (d d1 : Dom)
    (log1 : List Event) (h : Terminates (fun fuel => walkDescendantsLog fuel c a e d) (d1, log1)) :
    Terminates (fun fuel => walkDescendants fuel c a e d) d1 := by
  obtain ⟨N, hN⟩ := h
  refine ⟨N, fun fuel hf => ?_⟩
  have h1 : walkDescendantsLog fuel c a e d = some (d1, log1) := hN fuel hf
  simp only [walkDescendants]
  rw [h1]
  rfl

/-- What `cleanElement` does to a tree: it returns; the store then holds a
forest `ks4` below the element, made of nodes of the forest `ks2` left by the
unwrapping pass, itself made of nodes of the original forest; types, names and
text are unchanged; the element and the elements of `ks2` other than `IMG` and
`A` have lost their attributes, the other nodes have kept theirs; none of the
children of the element passes the test of the last loop; every node that the
unwrapping pass took out is a `SPAN` or a `FONT`; and every node that the last
loop took out is a `SPAN`, a `FONT` or a text-level semantic element that is not
void; and each of the three passes returns. -/
theorem cleanElement_spec (P : Predicates) (d : Dom) (e : Nat) (ks : List Shape)
    (h : IsTree d (Shape.mk e ks)) :
    ∃ d4 ks2 ks4, Terminates (fun fuel => cleanElement P fuel e d) d4
      ∧ Forest d4 e ks4 ∧ (idsList ks4).Sublist (idsList ks2)
      ∧ (idsList ks2).Sublist (idsList ks)
      ∧ d4.nodeType = d.nodeType ∧ d4.nodeName = d.nodeName ∧ d4.data = d.data
      ∧ (d.nodeType e = NodeType.element → d4.attrs e = [])
      ∧ (∀ m, m ≠ e → d4.attrs m =
          if m ∈ idsList ks2 ∧ isNotImgOrA d m = true ∧ d.nodeType m = NodeType.element then []
          else d.attrs m)
      ∧ (∀ s, s ∈ ks4 → shouldUnwrap P d4 s = false)
      ∧ (∀ m, m ∈ idsList ks → m ∉ idsList ks2 → isSpanOrFont d m = true)
      ∧ (∀ m, m ∈ idsList ks2 → m ∉ idsList ks4 → Removable P d m)
      ∧ (∃ d2 d3,
          Terminates
            (fun fuel => unwrapDescendants fuel isSpanOrFont e (removeAllAttributes d e)) d2
          ∧ Terminates (fun fuel => walkDescendants fuel isNotImgOrA stripAction e d2) d3
          ∧ Terminates (fun fuel => cleanChildren P fuel d3 e (firstChild d3 e) none) d4) := by
  have hf := isTree_forest d e ks h
  have hroot : d.nodeType e = NodeType.text → ks.length = 0 := by
    have := h.1; rw [Shape.in_mk] at this; exact this.2.1
  -- the attributes of the element
  obtain ⟨r1, r2, r3, r4, r5, r6, r7, r8, r9⟩ := removeAllAttributes_eq d e
  have hf1 : Forest (removeAllAttributes d e) e ks :=
    forest_same d _ e ks (removeAllAttributes_same d e) hf
  -- the unwrapping pass
  obtain ⟨d2, log2, ks2, hT2, hf2, hsub2, _, ht2, hgone⟩ :=
    unwrapWalk isSpanOrFont ks ks.length e (removeAllAttributes d e) [] hf1
  have hT2a := unwrapDescendants_terminates isSpanOrFont e (removeAllAttributes d e) d2 log2
    ks.length (by rw [hf1.1, roots_length]) hT2
  obtain ⟨t1, t2, t3, t4, t5, _, _⟩ := ht2
  -- the attribute pass
  have hin2 : (Shape.mk e ks2).In d2 := by
    rw [Shape.in_mk]
    refine ⟨hf2.1, fun hty => ?_, hf2.2.1⟩
    rw [t1, r3] at hty
    have hnil : ks = [] := List.length_eq_zero.1 (hroot hty)
    subst hnil
    have : idsList ks2 = [] := by simpa [idsList] using hsub2
    cases ks2 with
    | nil => rfl
    | cons k ks3 =>
      cases k with
      | mk i ck => simp [idsList, Shape.ids] at this
  obtain ⟨d3, log3, hv3, hs3, hT3⟩ := walkDescendantsLog_stable isNotImgOrA stripAction d2 e ks2
    hin2 (stableRun_strip isNotImgOrA _ d2)
  have hT3a := walkDescendants_terminates isNotImgOrA stripAction e d2 d3 log3 hT3
  obtain ⟨v1, v2, v3, v4, v5a⟩ := visitAll_strip _ d2 [] d3 log3 hv3
  have v5 : ∀ m, d3.attrs m =
      if m ∈ idsList ks2 ∧ isNotImgOrA d2 m = true ∧ d2.nodeType m = NodeType.element then []
      else d2.attrs m := fun m => by
    rw [v5a m]
    simp only [(orderList_perm ks2).mem_iff]
  have hf3 : Forest d3 e ks2 := forest_same d2 d3 e ks2 hs3 hf2
  -- the loop over the direct children
  have hst : CleanState P d3 [] ks2 (firstChild d3 e) none := by
    unfold CleanState
    refine ⟨fun s hs => (by cases hs), ?_, fun q hq => (by cases hq)⟩
    simp only [firstChild, hf3.1, roots, List.head?_map]
  obtain ⟨d4, ks4, hT4, hf4, hsub4, ht4, hkept, hout⟩ := cleanLoop P ks2 ks2.length [] ks2 e d3
    (firstChild d3 e) none rfl (le_refl _) hf3 hst
  obtain ⟨u1, u2, u3, u4, u5, _, _⟩ := ht4
  have he2 : e ∉ idsList ks2 := fun hm => (List.nodup_cons.1 hf2.2.2).1 hm
  refine ⟨d4, ks2, ks4, ?_, hf4, hsub4, hsub2, ?_, ?_, ?_, ?_, ?_, hkept, ?_, ?_,
    ⟨d2, d3, hT2a, hT3a, hT4⟩⟩
  · obtain ⟨N2, hN2⟩ := hT2a
    obtain ⟨N3, hN3⟩ := hT3a
    obtain ⟨N4, hN4⟩ := hT4
    refine ⟨max N2 (max N3 N4), fun fuel hfu => ?_⟩
    have h2 : unwrapDescendants fuel isSpanOrFont e (removeAllAttributes d e) = some d2 :=
      hN2 fuel (by omega)
    have h3 : walkDescendants fuel isNotImgOrA stripAction e d2 = some d3 := hN3 fuel (by omega)
    have h4 : cleanChildren P fuel d3 e (firstChild d3 e) none = some d4 := hN4 fuel (by omega)
    simp only [cleanElement, h2, h3, h4]
  · rw [u1, v1, t1, r3]
  · rw [u2, v2, t2, r4]
  · rw [u4, v3, t4, r5]
  · intro hty
    rw [u3, v5 e, if_neg (fun hc => he2 hc.1), t3]
    exact r8 hty
  · intro m hm
    rw [u3, v5 m, isNotImgOrA_congr d d2 m (t2.trans r4), t1, r3, t3, r7 m hm]
  · intro m hm hn
    obtain ⟨d5, hsd, hc⟩ := hgone m hm hn
    rw [← hc]
    exact (isSpanOrFont_congr d d5 m (hsd.2.1.trans r4)).symm
  · intro m hm hn
    have h := hout m hm hn
    simpa [Removable, isSpanOrFont, v2, t2, r4] using h

/-! ## What the walker records -/

theorem testCount_append (l1 l2 : List Event) (n : Nat) :
    testCount (l1 ++ l2) n = testCount l1 n + testCount l2 n := by
  simp [testCount, List.countP_append]

theorem heldCount_append (l1 l2 : List Event) (n : Nat) :
    heldCount (l1 ++ l2) n = heldCount l1 n + heldCount l2 n := by
  simp [heldCount, List.countP_append]

theorem actCount_append (l1 l2 : List Event) (n : Nat) :
    actCount (l1 ++ l2) n = actCount l1 n + actCount l2 n := by
  simp [actCount, List.countP_append]

theorem visit_counts (c : Cond) (a : Action) (x : Nat) (d : Dom) (log : List Event)
    (d1 : Dom) (log1 : List Event) (h : visit c a (d, log) x = some (d1, log1)) (n : Nat) :
    testCount log1 n = testCount log n + (if x = n then 1 else 0)
      ∧ actCount log1 n + heldCount log n = heldCount log1 n + actCount log n := by
  simp only [visit] at h
  by_cases hc : c d x = true
  · simp only [hc, if_true] at h
    cases ha : a d x with
    | none => simp [ha] at h
    | some d2 =>
      simp only [ha, Option.some.injEq, Prod.mk.injEq] at h
      rw [← h.2, testCount_append, heldCount_append, actCount_append]
      by_cases hx : x = n
      · simp [testCount, heldCount, actCount, hx]; omega
      · simp [testCount, heldCount, actCount, hx]; omega
  · simp only [hc, Bool.false_eq_true, if_false, Option.some.injEq, Prod.mk.injEq] at h
    rw [← h.2, testCount_append, heldCount_append, actCount_append]
    by_cases hx : x = n
    · simp [testCount, heldCount, actCount, hx]; omega
    · simp [testCount, heldCount, actCount, hx]; omega

theorem visitAll_counts (c : Cond) (a : Action) (ns : List Nat) (d : Dom) (log : List Event)
    (d1 : Dom) (log1 : List Event) (h : visitAll c a ns (d, log) = some (d1, log1)) (n : Nat) :
    testCount log1 n = testCount log n + ns.count n
      ∧ actCount log1 n + heldCount log n = heldCount log1 n + actCount log n := by
  induction ns generalizing d log with
  | nil =>
    simp only [visitAll, Option.some.injEq, Prod.mk.injEq] at h
    rw [← h.2]
    exact ⟨by simp, by omega⟩
  | cons x xs ih =>
    simp only [visitAll] at h
    cases hv : visit c a (d, log) x with
    | none => simp [hv] at h
    | some st1 =>
      obtain ⟨d2, log2⟩ := st1
      rw [hv] at h
      have h1 := visit_counts c a x d log d2 log2 hv n
      have h2 := ih d2 log2 h
      refine ⟨?_, by omega⟩
      rw [h2.1, h1.1, List.count_cons]
      by_cases hx : x = n
      · simp [hx]; omega
      · simp [hx]

/-- C6. For every tree and every action that does not change the structure of
the tree (it always succeeds and leaves child lists, parent references and node
types as they are), `walkDescendants(root, predicate, action)` returns, and it
evaluates the predicate exactly once on every descendant of the root, never on
a node that is not a descendant, in particular never on the root itself, and
it invokes the action on a node as often as the predicate was found to hold on
it: once on the descendants on which the predicate held, never on the
others.  The store and the record it leaves are those of the visits to the
descendants one after the other, in the order of the walker: at each visit the
given predicate is evaluated on the node in the store of that moment and,
when it holds, the given action runs on the node. -/
theorem walkDescendants_tests_each_descendant_once (conditionFn : Cond) (callBackFn : Action)
    (hkeep : ∀ d n, ∃ d1, callBackFn d n = some d1 ∧ SameStructure d d1)
    (d : Dom) (tree : Shape) (htree : IsTree d tree) :
    ∃ d1 log,
      Terminates (fun fuel => walkDescendantsLog fuel conditionFn callBackFn tree.id d) (d1, log)
      ∧ (∀ n, Descendant d tree.id n → testCount log n = 1)
      ∧ (∀ n, ¬ Descendant d tree.id n → testCount log n = 0)
      ∧ testCount log tree.id = 0
      ∧ (∀ n, actCount log n = heldCount log n)
      ∧ visitAll conditionFn callBackFn (orderList tree.kids) (d, []) = some (d1, log) := by
  obtain ⟨i, ks⟩ := tree
  obtain ⟨hin, hnd⟩ := htree
  obtain ⟨d1, log, hv, _, hT⟩ := walkDescendantsLog_stable conditionFn callBackFn d i ks hin
    (stableRun_of_keeps conditionFn callBackFn hkeep _ d)
  have hcount : ∀ n, testCount log n = (idsList ks).count n := fun n => by
    have := (visitAll_counts conditionFn callBackFn _ d [] d1 log hv n).1
    rw [this, (orderList_perm ks).count_eq]
    simp [testCount]
  rw [Shape.ids_mk] at hnd
  rw [Shape.in_mk] at hin
  have hnd1 : (idsList ks).Nodup := (List.nodup_cons.1 hnd).2
  have hroot : i ∉ idsList ks := (List.nodup_cons.1 hnd).1
  refine ⟨d1, log, hT, fun n hn => ?_, fun n hn => ?_, ?_, fun n => ?_, hv⟩
  · rw [hcount]
    exact List.count_eq_one_of_mem hnd1 ((descendant_iff d i ks hin.1 hin.2.2 n).1 hn)
  · rw [hcount]
    exact List.count_eq_zero_of_not_mem (fun h => hn ((descendant_iff d i ks hin.1 hin.2.2 n).2 h))
  · simp only [Shape.id]
    rw [hcount]
    exact List.count_eq_zero_of_not_mem hroot
  · have := (visitAll_counts conditionFn callBackFn _ d [] d1 log hv n).2
    simpa [heldCount, actCount] using this

/-- Witness of C6: the attribute pass of `cleanElement` on the document
`sampleLink`. -/
theorem walkDescendants_tests_each_descendant_once_witness :
    (∀ d n, ∃ d1, stripAction d n = some d1 ∧ SameStructure d d1)
      ∧ IsTree (document sampleLink) sampleLinkShape
      ∧ ∃ d1 log,
        Terminates (fun fuel => walkDescendantsLog fuel isNotImgOrA stripAction
          sampleLinkShape.id (document sampleLink)) (d1, log)
        ∧ (∀ n, Descendant (document sampleLink) sampleLinkShape.id n → testCount log n = 1)
        ∧ (∀ n, ¬ Descendant (document sampleLink) sampleLinkShape.id n → testCount log n = 0)
        ∧ testCount log sampleLinkShape.id = 0
        ∧ (∀ n, actCount log n = heldCount log n)
        ∧ visitAll isNotImgOrA stripAction (orderList sampleLinkShape.kids)
            (document sampleLink, []) = some (d1, log) :=
  ⟨fun d n => ⟨removeAllAttributes d n, rfl, removeAllAttributes_same d n⟩, by decide!,
    walkDescendants_tests_each_descendant_once isNotImgOrA stripAction
      (fun d n => ⟨removeAllAttributes d n, rfl, removeAllAttributes_same d n⟩)
      (document sampleLink) sampleLinkShape (by decide!)⟩

/-! ## The attribute policy of the cleaner -/

/-- C3. For every element tree, `cleanElement(element)` returns, and then the
element itself has no attributes, and every descendant element that remains in
its subtree and is named neither `IMG` nor `A` has an empty attribute set. -/
theorem cleanElement_strips_attributes (P : Predicates) (d : Dom) (tree : Shape)
    (htree : IsTree d tree) (helem : d.nodeType tree.id = NodeType.element) :
    ∃ d1, Terminates (fun fuel => cleanElement P fuel tree.id d) d1
      ∧ attributes d1 tree.id = some []
      ∧ ∀ n, Descendant d1 tree.id n → d1.nodeType n = NodeType.element →
          d1.nodeName n ≠ "IMG" → d1.nodeName n ≠ "A" → attributes d1 n = some [] := by
  obtain ⟨e, ks⟩ := tree
  simp only [Shape.id] at helem ⊢
  obtain ⟨d4, ks2, ks4, hT, hf4, hsub4, _, hty, hname, _, hroot, hattrs, _, _, _⟩ :=
    cleanElement_spec P d e ks htree
  refine ⟨d4, hT, ?_, fun n hn hel h1 h2 => ?_⟩
  · simp only [attributes, hty, helem, hroot helem]
  · have hmem : n ∈ idsList ks4 := (descendant_iff d4 e ks4 hf4.1 hf4.2.1 n).1 hn
    have hne : n ≠ e := fun h => (List.nodup_cons.1 hf4.2.2).1 (h ▸ hmem)
    have hcond : isNotImgOrA d n = true := by
      rw [hname] at h1 h2
      simp [isNotImgOrA, h1, h2]
    rw [hty] at hel
    have ha : d4.attrs n = [] := by
      rw [hattrs n hne, if_pos ⟨hsub4.subset hmem, hcond, hel⟩]
    simp only [attributes, hty, hel, ha]

/-- C4. For every element tree, `cleanElement(element)` returns, and every
descendant of the element named `IMG` or `A` that is in the subtree after the
call has the name and exactly the attributes, names and values, it had before
the call. -/
theorem cleanElement_keeps_img_and_a_attributes (P : Predicates) (d : Dom) (tree : Shape)
    (htree : IsTree d tree) :
    ∃ d1, Terminates (fun fuel => cleanElement P fuel tree.id d) d1
      ∧ ∀ n, Descendant d1 tree.id n → (d1.nodeName n = "IMG" ∨ d1.nodeName n = "A") →
          d1.attrs n = d.attrs n ∧ d1.nodeName n = d.nodeName n := by
  obtain ⟨e, ks⟩ := tree
  simp only [Shape.id]
  obtain ⟨d4, ks2, ks4, hT, hf4, hsub4, _, hty, hname, _, hroot, hattrs, _, _, _⟩ :=
    cleanElement_spec P d e ks htree
  refine ⟨d4, hT, fun n hn hnm => ⟨?_, by rw [hname]⟩⟩
  have hmem : n ∈ idsList ks4 := (descendant_iff d4 e ks4 hf4.1 hf4.2.1 n).1 hn
  have hne : n ≠ e := fun h => (List.nodup_cons.1 hf4.2.2).1 (h ▸ hmem)
  have hcond : ¬ isNotImgOrA d n = true := by
    rw [hname] at hnm
    rcases hnm with h | h <;> simp [isNotImgOrA, h]
  rw [hattrs n hne, if_neg (fun h => hcond h.2.1)]

/-- Witness of C3 on the document `sampleLink`. -/
theorem cleanElement_strips_attributes_witness :
    IsTree (document sampleLink) sampleLinkShape
      ∧ (document sampleLink).nodeType sampleLinkShape.id = NodeType.element
      ∧ ∃ d1, Terminates (fun fuel => cleanElement htmlPredicates fuel sampleLinkShape.id
            (document sampleLink)) d1
        ∧ attributes d1 sampleLinkShape.id = some []
        ∧ ∀ n, Descendant d1 sampleLinkShape.id n → d1.nodeType n = NodeType.element →
            d1.nodeName n ≠ "IMG" → d1.nodeName n ≠ "A" → attributes d1 n = some [] :=
  ⟨by decide!, by decide!,
    cleanElement_strips_attributes htmlPredicates (document sampleLink) sampleLinkShape
      (by decide!) (by decide!)⟩

/-- Witness of C4 on the document `sampleLink`. -/
theorem cleanElement_keeps_img_and_a_attributes_witness :
    IsTree (document sampleLink) sampleLinkShape
      ∧ ∃ d1, Terminates (fun fuel => cleanElement htmlPredicates fuel sampleLinkShape.id
            (document sampleLink)) d1
        ∧ ∀ n, Descendant d1 sampleLinkShape.id n →
            (d1.nodeName n = "IMG" ∨ d1.nodeName n = "A") →
            d1.attrs n = (document sampleLink).attrs n
              ∧ d1.nodeName n = (document sampleLink).nodeName n :=
  ⟨by decide!,
    cleanElement_keeps_img_and_a_attributes htmlPredicates (document sampleLink) sampleLinkShape
      (by decide!)⟩

/-! ## The walker after a replacement: the skipped siblings -/

/-- C8, the code at the failing input `<div><span>a<span>b</span></span>
</div>`: `unwrapDescendants` with the predicate "is a `SPAN` or a `FONT`"
unwraps the outer `SPAN`, examines the text `a` that now stands at its index
and goes on to the left; the inner `SPAN`, which now stands one place to the
right, is never examined and stays in the tree. -/
theorem unwrapDescendants_leaves_nested_span :
    (unwrapDescendants 20 isSpanOrFont 0 (document sampleSpans)).bind (fun d => toHtml 20 d 0)
      = some (Html.elem "DIV" [] [Html.text "a", Html.elem "SPAN" [] [Html.text "b"]]) := by
  decide!

/-- C2, the code at the failing input `<div class="x"><p id="q"><span
style="s">a<span>b</span></span></p></div>`: after `cleanElement` the
descendants of the element are, in document order, a `P`, a text, a `SPAN`
and a text: a `SPAN` is left two levels below the element. -/
theorem cleanElement_leaves_nested_span :
    (cleanElement htmlPredicates 20 0 (document sampleNested)).bind
        (fun d => (descendants 20 d 0).map (fun l => l.map d.nodeName))
      = some ["P", "#text", "SPAN", "#text"] := by
  decide!

/-- C1, the code at the failing input `<div class="x"><p id="q"><span
style="s">a<span>b</span></span></p></div>`: one run of `cleanElement` leaves
`<div><p>a<span>b</span></p></div>`, a second run on the result leaves
`<div><p>ab</p></div>`, a different tree. -/
theorem cleanElement_twice_differs :
    (cleanElement htmlPredicates 20 0 (document sampleNested)).bind (fun d => toHtml 20 d 0)
        = some (Html.elem "DIV" [] [Html.elem "P" []
            [Html.text "a", Html.elem "SPAN" [] [Html.text "b"]]])
      ∧ ((cleanElement htmlPredicates 20 0 (document sampleNested)).bind
          (cleanElement htmlPredicates 20 0)).bind (fun d => toHtml 20 d 0)
        = some (Html.elem "DIV" [] [Html.elem "P" [] [Html.text "a", Html.text "b"]])
      ∧ Html.elem "DIV" [] [Html.elem "P" [] [Html.text "a", Html.elem "SPAN" [] [Html.text "b"]]]
        ≠ Html.elem "DIV" [] [Html.elem "P" [] [Html.text "a", Html.text "b"]] := by
  decide!

/-! ## The walker where the predicate does not hold -/

theorem visitAll_quiet (c : Cond) (a : Action) (ns : List Nat) (d : Dom) (log : List Event)
    (h : ∀ n, n ∈ ns → c d n = false) :
    visitAll c a ns (d, log) = some (d, log ++ ns.map (fun n => Event.test n false)) := by
  induction ns generalizing log with
  | nil => simp [visitAll]
  | cons x xs ih =>
    have hx : c d x = false := h x (by simp)
    simp only [visitAll, visit, hx, Bool.false_eq_true, if_false]
    rw [ih _ (fun n hn => h n (by simp [hn]))]
    simp

theorem stableRun_quiet (c : Cond) (a : Action) (ns : List Nat) (d : Dom)
    (h : ∀ n, n ∈ ns → c d n = false) : StableRun c a ns d := by
  induction ns with
  | nil => simp [StableRun]
  | cons x xs ih =>
    have hx : c d x = false := h x (by simp)
    simp only [StableRun, hx, Bool.false_eq_true, if_false]
    exact ih (fun n hn => h n (by simp [hn]))

/-- A run of children on which, and below which, the predicate does not hold:
the walker tests every node of the run once, changes nothing, and goes on with
the loop at the node before the run. -/
theorem walk_quiet (c : Cond) (a : Action) (K : List Shape) (e : Nat) (d : Dom)
    (log : List Event) (pre post : List Nat) (hch : d.childNodes e = pre ++ roots K ++ post)
    (hin : ∀ k ∈ K, k.In d) (hq : ∀ n, n ∈ idsList K → c d n = false)
    (r : Dom × List Event)
    (hr : Terminates (fun fuel => walkFrom fuel c a e ((pre.length : Int) - 1)
      (d, log ++ (orderList K).map (fun n => Event.test n false))) r) :
    Terminates
      (fun fuel => walkFrom fuel c a e (((pre.length + K.length : Nat) : Int) - 1) (d, log)) r := by
  have hq1 : ∀ n, n ∈ orderList K → c d n = false :=
    fun n hn => hq n ((orderList_perm K).mem_iff.1 hn)
  obtain ⟨d1, log1, hv, _, hT⟩ := walksStable c a K e d log pre post hch hin
    (stableRun_quiet c a _ d hq1)
  rw [visitAll_quiet c a _ d log hq1] at hv
  simp only [Option.some.injEq, Prod.mk.injEq] at hv
  rw [← hv.1, ← hv.2] at hT
  exact hT r hr

/-- The descent into a child below which the predicate does not hold. -/
theorem descendInto_quiet (c : Cond) (a : Action) (ci : Nat) (ck : List Shape) (d : Dom)
    (log : List Event) (hin : (Shape.mk ci ck).In d) (hq : ∀ n, n ∈ idsList ck → c d n = false) :
    Terminates (descendInto c a ci (d, log))
      (d, log ++ (orderList ck).map (fun n => Event.test n false)) := by
  rw [Shape.in_mk] at hin
  by_cases hel : isElementNode d ci = true
  · have h := walk_quiet c a ck ci d log [] [] (by simp [hin.1])
      (fun k hk => ((kidsIn_iff d ci ck).1 hin.2.2 k hk).2) hq _
      (terminates_neg c a ci _ _ (by simp))
    obtain ⟨N, hN⟩ := h
    refine ⟨N, fun fuel hf => ?_⟩
    have hlen : (d.childNodes ci).length = ck.length := by rw [hin.1, roots_length]
    simp only [descendInto, hel, if_true, hlen]
    simpa using hN fuel hf
  · have hty : d.nodeType ci = NodeType.text := by
      cases hty : d.nodeType ci with
      | element => simp [isElementNode, hty] at hel
      | text => rfl
    have hnil : ck = [] := List.length_eq_zero.1 (hin.2.1 hty)
    subst hnil
    refine ⟨0, fun fuel _ => ?_⟩
    simp [descendInto, hel, orderList]

theorem testCount_tests (ns : List Nat) (m : Nat) :
    testCount (ns.map (fun n => Event.test n false)) m = ns.count m := by
  induction ns with
  | nil => simp [testCount]
  | cons x xs ih =>
    simp only [testCount] at ih
    simp only [List.map_cons, testCount, List.countP_cons, ih, List.count_cons]
    by_cases hx : x = m
    · simp [hx]
    · simp [hx]

/-! ## Detaching a child -/

theorem removeAction_eq (d : Dom) (c p : Nat) (h : d.parentNode c = some p) :
    removeAction d c = some (removeChild d p c) := by
  simp only [removeAction, h]

/-- A forest held by `d` is held by every store that agrees with `d` on the
structure at its nodes. -/
theorem forest_frame (d d1 : Dom) (p : Nat) (ks : List Shape) (h : Forest d p ks)
    (hp : d1.childNodes p = d.childNodes p)
    (h1 : ∀ m, m ∈ idsList ks → d1.childNodes m = d.childNodes m ∧ d1.nodeType m = d.nodeType m)
    (h2 : ∀ m, m ∈ idsList ks → d1.parentNode m = d.parentNode m) : Forest d1 p ks :=
  ⟨by rw [hp]; exact h.1, kidsIn_frame d d1 p ks h1 h2 h.2.1, h.2.2⟩

/-- Detaching a child `c` of `p`: the other children stay, and the subtree of
`c` is intact. -/
theorem removeAction_forest (d : Dom) (p : Nat) (A B : List Shape) (c : Nat) (ck : List Shape)
    (h : Forest d p (A ++ [Shape.mk c ck] ++ B)) :
    ∃ d1, removeAction d c = some d1 ∧ Forest d1 p (A ++ B) ∧ Forest d1 c ck
      ∧ (d1.nodeType c = NodeType.text → ck.length = 0)
      ∧ Touches d d1 p (A ++ [Shape.mk c ck] ++ B)
      ∧ (∀ m, m ≠ p → d1.childNodes m = d.childNodes m)
      ∧ (∀ m, m ≠ c → d1.parentNode m = d.parentNode m) := by
  obtain ⟨hfc, hparc, htext⟩ := forest_child d p A B c ck h
  obtain ⟨hch, hkin, hnd⟩ := h
  obtain ⟨hpc, hpA, hpck, hpB, hcA, hcck, hcB, hAck, hAB, hckB, hnA, hnck, hnB⟩ :=
    nodup_mid p A B c ck hnd
  rw [kidsIn_append, kidsIn_append] at hkin
  obtain ⟨⟨hkA, _⟩, hkB⟩ := hkin
  rw [roots_mid] at hch
  have hcrA : c ∉ roots A := fun hm => hcA (roots_subset_idsList A c hm)
  have hcn : ∀ m, m ≠ p → (removeChild d p c).childNodes m = d.childNodes m := by
    intro m hm
    show Function.update _ _ _ _ = _
    rw [Function.update_noteq hm]
  have hpn : ∀ m, m ≠ c → (removeChild d p c).parentNode m = d.parentNode m := by
    intro m hm
    show Function.update _ _ _ _ = _
    rw [Function.update_noteq hm]
  refine ⟨removeChild d p c, removeAction_eq d c p hparc, ⟨?_, ?_, ?_⟩, ?_, htext, ?_, hcn, hpn⟩
  · show Function.update _ _ _ _ = _
    rw [Function.update_same, hch, erase_mid _ _ _ hcrA, roots_append]
  · rw [kidsIn_append]
    refine ⟨?_, ?_⟩
    · exact kidsIn_frame d _ p A (fun m hm => ⟨hcn m (fun e => hpA (e ▸ hm)), rfl⟩)
        (fun m hm => hpn m (fun e => hcA (e ▸ hm))) hkA
    · exact kidsIn_frame d _ p B (fun m hm => ⟨hcn m (fun e => hpB (e ▸ hm)), rfl⟩)
        (fun m hm => hpn m (fun e => hcB (e ▸ hm))) hkB
  · refine List.Nodup.sublist ?_ hnd
    refine List.Sublist.cons₂ p ?_
    rw [idsList_mid, idsList_append]
    exact List.Sublist.append (List.sublist_append_left _ _) (List.Sublist.refl _)
  · exact forest_frame d _ c ck hfc (hcn c hpc.symm)
      (fun m hm => ⟨hcn m (fun e => hpck (e ▸ hm)), rfl⟩)
      (fun m hm => hpn m (fun e => hcck (e ▸ hm)))
  · refine ⟨rfl, rfl, rfl, rfl, rfl, fun m h1 _ => hcn m h1, fun m h2 => hpn m ?_⟩
    intro e
    rw [idsList_mid] at h2
    exact h2 (by simp [e])

/-! ## The walker when the action detaches the node -/

/-- C5, counterexample: on the parent with the children X, Y, Z (the nodes 1,
2, 3 of `sampleXYZ`), with a predicate that holds exactly on Y and the action
of `removeDescendants`, the walker evaluates the predicate once on X and twice
on Z. -/
theorem walkDescendants_tests_z_twice :
    (walkDescendantsLog 20 isNodeY removeAction 0 (document sampleXYZ)).map
        (fun r => (testCount r.2 1, testCount r.2 3, r.1.childNodes 0))
      = some (1, 2, [1, 3]) := by
  decide!

/-- C5, amended. For every parent whose children are X, Y, Z, with a predicate
that holds exactly on Y and the action that detaches the node from its parent,
`walkDescendants` returns, Y is detached, and the walker evaluates the
predicate exactly once on X and exactly twice on Z (after Y is detached the
loop index is held, and the node now at that index, Z, is examined again): no
descendant is skipped, and Z is visited a second time. -/
theorem walkDescendants_revisits_after_removal (conditionFn : Cond) (d : Dom)
    (parent x y z : Nat) (kx ky kz : List Shape)
    (htree : IsTree d (Shape.mk parent [Shape.mk x kx, Shape.mk y ky, Shape.mk z kz]))
    (hcond : ∀ s n, conditionFn s n = true ↔ n = y) :
    ∃ d1 log,
      Terminates (fun fuel => walkDescendantsLog fuel conditionFn removeAction parent d) (d1, log)
      ∧ d1.childNodes parent = [x, z]
      ∧ testCount log x = 1 ∧ testCount log z = 2
      ∧ (∀ n, Descendant d parent n → 1 ≤ testCount log n) := by
  have hf : Forest d parent ([Shape.mk x kx] ++ [Shape.mk y ky] ++ [Shape.mk z kz]) :=
    isTree_forest d parent _ htree
  have hfalse : ∀ s n, n ≠ y → conditionFn s n = false := fun s n hn => by
    cases hc : conditionFn s n with
    | false => rfl
    | true => exact absurd ((hcond s n).1 hc) hn
  obtain ⟨hpc, hpA, hpck, hpB, hcA, hcck, hcB, hAck, hAB, hckB, hnA, hnck, hnB⟩ :=
    nodup_mid parent [Shape.mk x kx] [Shape.mk z kz] y ky hf.2.2
  have hkin := hf.2.1
  rw [kidsIn_append, kidsIn_append] at hkin
  obtain ⟨⟨hkX, _⟩, hkZ⟩ := hkin
  have hch : d.childNodes parent = [x, y, z] := by rw [hf.1]; rfl
  -- the store after the removal of Y
  obtain ⟨d1, hrm, hf1, hfy, hty, _, _, _⟩ :=
    removeAction_forest d parent [Shape.mk x kx] [Shape.mk z kz] y ky hf
  have hch1 : d1.childNodes parent = [x, z] := by rw [hf1.1]; rfl
  -- the records
  let log1 : List Event := [] ++ (orderList [Shape.mk z kz]).map (fun n => Event.test n false)
  let log2 : List Event := log1 ++ [Event.test y true, Event.act y]
  let log3 : List Event := log2 ++ (orderList ky).map (fun n => Event.test n false)
  let log4 : List Event :=
    log3 ++ (orderList ([Shape.mk x kx] ++ [Shape.mk z kz])).map (fun n => Event.test n false)
  have hT : Terminates
      (fun fuel => walkFrom fuel conditionFn removeAction parent (((2 + 1 : Nat) : Int) - 1) (d, []))
      (d1, log4) := by
    -- Z is tested, nothing happens
    refine walk_quiet conditionFn removeAction [Shape.mk z kz] parent d [] [x, y] []
      (by rw [hch]; rfl) (fun k hk => ((kidsIn_iff d parent _).1 hkZ k hk).2)
      (fun n hn => hfalse d n (fun e => hcB (e ▸ hn))) (d1, log4) ?_
    -- Y is tested and detached, and the index is held
    have hh : handleChild conditionFn removeAction parent ((([x, y].length : Nat) : Int) - 1) d
        log1 y = some (d1, log2, ((([x, y].length : Nat) : Int) - 1) + 1) := by
      have hcy : conditionFn d y = true := (hcond d y).2 rfl
      have hzy : z ≠ y := fun e => hcB (by rw [← e]; simp [idsList, Shape.ids])
      simp only [handleChild, hcy, if_true, hrm, hch1]
      simp [hzy]
    refine terminates_child conditionFn removeAction parent _ d log1 y d1 log2 _ (d1, log3)
      (d1, log4) (by simp) (by rw [hch]; rfl) hh ?_ ?_
    · exact descendInto_quiet conditionFn removeAction y ky d1 log2
        (by rw [Shape.in_mk]; exact ⟨hfy.1, hty, hfy.2.1⟩)
        (fun n hn => hfalse d1 n (fun e => hcck (e ▸ hn)))
    -- Z is tested again, then X
    · have h := walk_quiet conditionFn removeAction ([Shape.mk x kx] ++ [Shape.mk z kz]) parent
        d1 log3 [] [] (by rw [hch1]; rfl)
        (fun k hk => ((kidsIn_iff d1 parent _).1 hf1.2.1 k hk).2)
        (fun n hn => hfalse d1 n (fun e => by
          rw [idsList_append] at hn
          rcases List.mem_append.1 hn with h1 | h1
          · exact hcA (e ▸ h1)
          · exact hcB (e ▸ h1)))
        (d1, log4) (terminates_neg conditionFn removeAction parent _ _ (by simp))
      simpa using h
  have hcount : ∀ n, testCount log4 n =
      (idsList [Shape.mk z kz]).count n + (if y = n then 1 else 0) + (idsList ky).count n
        + (idsList ([Shape.mk x kx] ++ [Shape.mk z kz])).count n := by
    intro n
    simp only [log4, log3, log2, log1, testCount_append, testCount_tests, List.nil_append]
    rw [(orderList_perm _).count_eq, (orderList_perm ky).count_eq, (orderList_perm _).count_eq]
    by_cases hy : y = n
    · simp [testCount, hy]
    · simp [testCount, hy]
  have hxin : x ∈ idsList [Shape.mk x kx] := by simp [idsList, Shape.ids]
  have hzin : z ∈ idsList [Shape.mk z kz] := by simp [idsList, Shape.ids]
  have hnd1 : (idsList ([Shape.mk x kx] ++ [Shape.mk z kz])).Nodup :=
    (List.nodup_cons.1 hf1.2.2).2
  refine ⟨d1, log4, ?_, hch1, ?_, ?_, fun n hn => ?_⟩
  · obtain ⟨N, hN⟩ := hT
    refine ⟨N, fun fuel hfu => ?_⟩
    simp only [walkDescendantsLog, hch]
    exact hN fuel hfu
  · rw [hcount x, List.count_eq_zero_of_not_mem (hAB x hxin),
      List.count_eq_zero_of_not_mem (hAck x hxin),
      List.count_eq_one_of_mem hnd1 (by rw [idsList_append]; simp [hxin])]
    have : y ≠ x := fun e => hcA (e ▸ hxin)
    simp [this]
  · rw [hcount z, List.count_eq_one_of_mem hnB hzin,
      List.count_eq_zero_of_not_mem (fun h => hckB z h hzin),
      List.count_eq_one_of_mem hnd1 (by rw [idsList_append]; simp [hzin])]
    have : y ≠ z := fun e => hcB (e ▸ hzin)
    simp [this]
  · have hmem : n ∈ idsList ([Shape.mk x kx] ++ [Shape.mk y ky] ++ [Shape.mk z kz]) :=
      (descendant_iff d parent _ hf.1 hf.2.1 n).1 hn
    rw [hcount n]
    rw [idsList_mid] at hmem
    simp only [List.mem_append, List.mem_cons] at hmem
    rcases hmem with (h | h | h) | h
    · have : 1 ≤ (idsList ([Shape.mk x kx] ++ [Shape.mk z kz])).count n :=
        List.one_le_count_iff.2 (by rw [idsList_append]; simp [h])
      omega
    · have : (if y = n then 1 else 0) = 1 := by simp [h]
      omega
    · have : 1 ≤ (idsList ky).count n := List.one_le_count_iff.2 h
      omega
    · have : 1 ≤ (idsList [Shape.mk z kz]).count n := List.one_le_count_iff.2 h
      omega

/-- Witness of C5, amended, on the document `sampleXYZ`. -/
theorem walkDescendants_revisits_after_removal_witness :
    IsTree (document sampleXYZ) sampleXYZShape
      ∧ (∀ s n, isNodeY s n = true ↔ n = 2)
      ∧ ∃ d1 log,
        Terminates (fun fuel => walkDescendantsLog fuel isNodeY removeAction 0
          (document sampleXYZ)) (d1, log)
        ∧ d1.childNodes 0 = [1, 3]
        ∧ testCount log 1 = 1 ∧ testCount log 3 = 2
        ∧ (∀ n, Descendant (document sampleXYZ) 0 n → 1 ≤ testCount log n) :=
  ⟨by decide!, fun _ n => by simp [isNodeY],
    walkDescendants_revisits_after_removal isNodeY (document sampleXYZ) 0 1 2 3 [] [] []
      (by decide!) (fun _ n => by simp [isNodeY])⟩

/-! ## Unwrapping one wrapper -/

theorem removeShallow_frame (d d1 : Dom) (c p : Nat) (h : d.parentNode c = some p)
    (h1 : removeShallow d c = some d1) :
    (∀ m, m ≠ p → m ≠ c → d1.childNodes m = d.childNodes m)
      ∧ (∀ m, m ≠ c → m ∉ d.childNodes c → d1.parentNode m = d.parentNode m)
      ∧ (∀ m, m ≠ c → m ∈ d.childNodes c → d1.parentNode m = some p)
      ∧ SameData d d1 := by
  rw [removeShallow_eq d c p h] at h1
  have h2 := Option.some.inj h1
  subst h2
  refine ⟨fun m hp hc => ?_, fun m hc hk => ?_, fun m hc hk => ?_, ⟨rfl, rfl, rfl, rfl⟩⟩
  · show Function.update (Function.update _ _ _) _ _ _ = _
    rw [Function.update_noteq hc, Function.update_noteq hp]
  · show Function.update _ _ _ _ = _
    rw [Function.update_noteq hc]
    simp only [reparent, hk, if_false]
  · show Function.update _ _ _ _ = _
    rw [Function.update_noteq hc]
    simp only [reparent, hk, if_true]

/-- C9. For every parent with a child W at index `i` whose children are `a`,
`b`, `c`, and every predicate that holds on W only, `unwrapDescendants`
returns; the children of the parent are then the former children with W
replaced at index `i` by `a`, `b`, `c` in that order; `a`, `b` and `c` have
the parent as their parent; and the subtrees are untouched: the child list of
every node other than the parent and W, the parent of every node other than W,
`a`, `b`, `c`, and the type, name, attributes and text of every node are what
they were. -/
theorem unwrapDescendants_splices_children (conditionFn : Cond) (d : Dom) (tree : Shape)
    (i w a b c : Nat) (htree : IsTree d tree) (hw : (d.childNodes tree.id)[i]? = some w)
    (hkids : d.childNodes w = [a, b, c]) (hcond : ∀ s n, conditionFn s n = true ↔ n = w) :
    ∃ d1, Terminates (fun fuel => unwrapDescendants fuel conditionFn tree.id d) d1
      ∧ d1.childNodes tree.id
        = (d.childNodes tree.id).take i ++ [a, b, c] ++ (d.childNodes tree.id).drop (i + 1)
      ∧ d1.parentNode a = some tree.id ∧ d1.parentNode b = some tree.id
      ∧ d1.parentNode c = some tree.id
      ∧ (∀ m, m ≠ tree.id → m ≠ w → d1.childNodes m = d.childNodes m)
      ∧ (∀ m, m ∉ [w, a, b, c] → d1.parentNode m = d.parentNode m)
      ∧ SameData d d1 := by
  obtain ⟨p, ks⟩ := tree
  simp only [Shape.id] at hw ⊢
  have hf := isTree_forest d p ks htree
  obtain ⟨A, ck, B, rfl, hA⟩ := split_at_root ks i w (by rw [← hf.1]; exact hw)
  have hfalse : ∀ s n, n ≠ w → conditionFn s n = false := fun s n hn => by
    cases hc : conditionFn s n with
    | false => rfl
    | true => exact absurd ((hcond s n).1 hc) hn
  obtain ⟨hfc, hparc, _⟩ := forest_child d p A B w ck hf
  obtain ⟨hpc, hpA, hpck, hpB, hcA, hcck, hcB, hAck, hAB, hckB, hnA, hnck, hnB⟩ :=
    nodup_mid p A B w ck hf.2.2
  have hkin := hf.2.1
  rw [kidsIn_append, kidsIn_append] at hkin
  obtain ⟨⟨hkA, _⟩, hkB⟩ := hkin
  have hroots : roots ck = [a, b, c] := by rw [← hfc.1]; exact hkids
  obtain ⟨d1, hrs, hf1, hcn1, _, _⟩ := removeShallow_forest d p A B w ck hf
  obtain ⟨fr1, fr2, fr3, fr4⟩ := removeShallow_frame d d1 w p hparc hrs
  have hch : d.childNodes p = roots A ++ w :: roots B := by rw [hf.1, roots_mid]
  have hch1 : d1.childNodes p = roots A ++ [a, b, c] ++ roots B := by
    rw [hf1.1, roots_append, roots_append, hroots]
  -- the first child of W with its subtree
  obtain ⟨Sa, rest, hck⟩ : ∃ Sa rest, ck = Sa :: rest := by
    cases ck with
    | nil => simp [roots] at hroots
    | cons k ks1 => exact ⟨k, ks1, rfl⟩
  let log1 : List Event := [] ++ (orderList B).map (fun n => Event.test n false)
  let log2 : List Event := log1 ++ [Event.test w true, Event.act w]
  let log3 : List Event := log2 ++ (orderList (A ++ [Sa])).map (fun n => Event.test n false)
  have hT : Terminates (fun fuel => walkFrom fuel conditionFn removeShallow p
      ((((roots A ++ [w]).length + B.length : Nat) : Int) - 1) (d, [])) (d1, log3) := by
    -- the children after W are tested, nothing happens
    refine walk_quiet conditionFn removeShallow B p d [] (roots A ++ [w]) []
      (by rw [hch]; simp) (fun k hk => ((kidsIn_iff d p _).1 hkB k hk).2)
      (fun n hn => hfalse d n (fun e => hcB (e ▸ hn))) (d1, log3) ?_
    -- W is tested and unwrapped, and the index is held
    have hidx : (((roots A ++ [w]).length : Int) - 1).toNat = A.length := by
      simp [roots_length]
    have hnotin : w ∉ d1.childNodes p := by
      rw [hf1.1]
      intro hm
      have := roots_subset_idsList _ w hm
      rw [idsList_append, idsList_append] at this
      simp only [List.mem_append] at this
      rcases this with (h | h) | h
      · exact hcA h
      · exact hcck h
      · exact hcB h
    have hh : handleChild conditionFn removeShallow p (((roots A ++ [w]).length : Int) - 1) d
        log1 w = some (d1, log2, (((roots A ++ [w]).length : Int) - 1) + 1) := by
      have hcw : conditionFn d w = true := (hcond d w).2 rfl
      have hne : (d1.childNodes p)[A.length]? ≠ some w := fun e => hnotin (List.getElem?_mem e)
      simp only [handleChild, hcw, if_true, hrs, hidx]
      simp [hne]
    have hget : (d.childNodes p)[(((roots A ++ [w]).length : Int) - 1).toNat]? = some w := by
      rw [hidx, hch]
      have := getElem?_mid (roots A) [] (roots B) w
      simpa [roots_length] using this
    refine terminates_child conditionFn removeShallow p _ d log1 w d1 log2 _ (d1, log2)
      (d1, log3) (by simp) hget hh (descendInto_empty conditionFn removeShallow w d1 log2 hcn1) ?_
    -- the first child of W and the children before W are tested, nothing happens
    have hkin1 := hf1.2.1
    rw [hck] at hkin1
    have hin1 : ∀ k ∈ A ++ [Sa], k.In d1 := fun k hk =>
      ((kidsIn_iff d1 p _).1 hkin1 k (by
        rcases List.mem_append.1 hk with h | h
        · simp [h]
        · simp [List.mem_singleton.1 h])).2
    have h := walk_quiet conditionFn removeShallow (A ++ [Sa]) p d1 log2 [] (roots (rest ++ B))
      (by rw [hf1.1, hck]; simp [roots]) hin1
      (fun n hn => hfalse d1 n (fun e => by
        rw [idsList_append, idsList_single] at hn
        rcases List.mem_append.1 hn with h1 | h1
        · exact hcA (e ▸ h1)
        · refine hcck (e ▸ ?_)
          rw [hck, idsList]
          exact List.mem_append_left _ h1))
      (d1, log3) (terminates_neg conditionFn removeShallow p _ _ (by simp))
    have hcast : (((roots A ++ [w]).length : Int) - 1) + 1 - 1
        = ((([] : List Nat).length + (A ++ [Sa]).length : Nat) : Int) - 1 := by
      simp [roots_length]
    rw [hcast]
    exact h
  have hain : a ∈ d.childNodes w := by rw [hkids]; simp
  have hbin : b ∈ d.childNodes w := by rw [hkids]; simp
  have hcin : c ∈ d.childNodes w := by rw [hkids]; simp
  have hnew : ∀ m, m ∈ d.childNodes w → m ≠ w := fun m hm e =>
    hcck (by rw [← e]; exact roots_subset_idsList ck m (by rw [← hfc.1]; exact hm))
  refine ⟨d1, ?_, ?_, fr3 a (hnew a hain) hain, fr3 b (hnew b hbin) hbin,
    fr3 c (hnew c hcin) hcin, fr1, fun m hm => ?_, fr4⟩
  · refine unwrapDescendants_terminates conditionFn p d d1 log3
      ((roots A ++ [w]).length + B.length) ?_ hT
    rw [hch]; simp [roots_length]; omega
  · rw [hch1, hch]
    have h1 : (roots A ++ w :: roots B).take i = roots A := by
      rw [← hA, ← roots_length A]; simp
    have h2 : (roots A ++ w :: roots B).drop (i + 1) = roots B := by
      rw [← hA, ← roots_length A]; simp
    rw [h1, h2]
  · simp only [List.mem_cons, List.mem_singleton, not_or, List.not_mem_nil, or_false] at hm
    refine fr2 m hm.1 ?_
    rw [hkids]
    simp [hm.2.1, hm.2.2.1, hm.2.2.2]

/-- Witness of C9 on the document `sampleWrapper`. -/
theorem unwrapDescendants_splices_children_witness :
    IsTree (document sampleWrapper) sampleWrapperShape
      ∧ ((document sampleWrapper).childNodes sampleWrapperShape.id)[1]? = some 3
      ∧ (document sampleWrapper).childNodes 3 = [4, 6, 7]
      ∧ (∀ s n, isNodeW s n = true ↔ n = 3)
      ∧ ∃ d1, Terminates (fun fuel => unwrapDescendants fuel isNodeW sampleWrapperShape.id
            (document sampleWrapper)) d1
        ∧ d1.childNodes sampleWrapperShape.id
          = ((document sampleWrapper).childNodes sampleWrapperShape.id).take 1 ++ [4, 6, 7]
            ++ ((document sampleWrapper).childNodes sampleWrapperShape.id).drop (1 + 1)
        ∧ d1.parentNode 4 = some sampleWrapperShape.id
        ∧ d1.parentNode 6 = some sampleWrapperShape.id
        ∧ d1.parentNode 7 = some sampleWrapperShape.id
        ∧ (∀ m, m ≠ sampleWrapperShape.id → m ≠ 3 →
            d1.childNodes m = (document sampleWrapper).childNodes m)
        ∧ (∀ m, m ∉ [3, 4, 6, 7] → d1.parentNode m = (document sampleWrapper).parentNode m)
        ∧ SameData (document sampleWrapper) d1 :=
  ⟨by decide!, by decide!, by decide!, fun _ n => by simp [isNodeW],
    unwrapDescendants_splices_children isNodeW (document sampleWrapper) sampleWrapperShape
      1 3 4 6 7 (by decide!) (by decide!) (by decide!) (fun _ n => by simp [isNodeW])⟩

/-! ## Pruned forests -/

theorem pruneList_cons_true (q : Nat → Bool) (k : Shape) (ks : List Shape) (h : q k.id = true) :
    pruneList q (k :: ks) = pruneList q ks := by
  simp [pruneList, h]

theorem pruneList_cons_false (q : Nat → Bool) (k : Shape) (ks : List Shape)
    (h : q k.id = false) : pruneList q (k :: ks) = k.prune q :: pruneList q ks := by
  simp [pruneList, h]

theorem pruneList_append (q : Nat → Bool) (a b : List Shape) :
    pruneList q (a ++ b) = pruneList q a ++ pruneList q b := by
  induction a with
  | nil => simp [pruneList]
  | cons k ks ih =>
    cases hq : q k.id with
    | true => simp [pruneList, hq, ih]
    | false => simp [pruneList, hq, ih]

theorem pruneList_single_true (q : Nat → Bool) (i : Nat) (ck : List Shape) (h : q i = true) :
    pruneList q [Shape.mk i ck] = [] := by
  simp [pruneList, Shape.id, h]

theorem pruneList_single_false (q : Nat → Bool) (i : Nat) (ck : List Shape) (h : q i = false) :
    pruneList q [Shape.mk i ck] = [Shape.mk i (pruneList q ck)] := by
  simp [pruneList, Shape.id, Shape.prune, h]

theorem Shape.prune_id (q : Nat → Bool) (s : Shape) : (s.prune q).id = s.id := by
  cases s with
  | mk i ks => simp [Shape.prune, Shape.id]

mutual
theorem Shape.prune_sublist (q : Nat → Bool) : ∀ s : Shape, (s.prune q).ids.Sublist s.ids
  | Shape.mk i ks => by
    simp only [Shape.prune, Shape.ids]
    exact List.Sublist.cons₂ i (pruneList_sublist q ks)
theorem pruneList_sublist (q : Nat → Bool) :
    ∀ ks : List Shape, (idsList (pruneList q ks)).Sublist (idsList ks)
  | [] => by simp [pruneList, idsList]
  | k :: ks => by
    cases hq : q k.id with
    | true =>
      rw [pruneList_cons_true q k ks hq, idsList]
      exact (pruneList_sublist q ks).trans (List.sublist_append_right _ _)
    | false =>
      rw [pruneList_cons_false q k ks hq, idsList, idsList]
      exact List.Sublist.append (Shape.prune_sublist q k) (pruneList_sublist q ks)
end

mutual
theorem Shape.prune_kids_false (q : Nat → Bool) : ∀ s : Shape,
    ∀ n, n ∈ idsList (s.prune q).kids → q n = false
  | Shape.mk i ks, n, hn => by
    simp only [Shape.prune, Shape.kids] at hn
    exact pruneList_false q ks n hn
theorem pruneList_false (q : Nat → Bool) : ∀ ks : List Shape,
    ∀ n, n ∈ idsList (pruneList q ks) → q n = false
  | [], n, hn => by simp [pruneList, idsList] at hn
  | k :: ks, n, hn => by
    cases hq : q k.id with
    | true =>
      rw [pruneList_cons_true q k ks hq] at hn
      exact pruneList_false q ks n hn
    | false =>
      rw [pruneList_cons_false q k ks hq, idsList] at hn
      rcases List.mem_append.1 hn with h | h
      · cases k with
        | mk i ck =>
          simp only [Shape.prune, Shape.ids, List.mem_cons] at h
          rcases h with rfl | h
          · simpa [Shape.id] using hq
          · exact Shape.prune_kids_false q (Shape.mk i ck) n (by simpa [Shape.prune, Shape.kids] using h)
      · exact pruneList_false q ks n h
end

/-! ## The removing walker -/

/-- A forest below `p` is untouched by a change below a node `c` outside it. -/
theorem forest_untouched (d d1 : Dom) (p : Nat) (ks : List Shape) (c : Nat) (ck : List Shape)
    (h : Forest d p ks) (ht : Touches d d1 c ck) (hpc : p ≠ c) (hp : p ∉ idsList ck)
    (hc : c ∉ idsList ks) (hdis : ∀ m, m ∈ idsList ks → m ∉ idsList ck) : Forest d1 p ks := by
  obtain ⟨t1, _, _, _, _, t6, t7⟩ := ht
  exact forest_frame d d1 p ks h (t6 p hpc hp)
    (fun m hm => ⟨t6 m (fun e => hc (e ▸ hm)) (hdis m hm), by rw [t1]⟩)
    (fun m hm => t7 m (hdis m hm))

theorem removeWalk_step (c : Cond) (q : Nat → Bool) (d0 : Dom)
    (hq : ∀ s, SameData d0 s → ∀ n, c s n = q n) (n : Nat)
    (ih : ∀ A, sizeList A < n → RemoveWalk c q d0 A) :
    ∀ A, sizeList A ≤ n → RemoveWalk c q d0 A := by
  intro A
  induction A using List.reverseRecOn with
  | nil =>
    intro _ B p d log hf _ _
    exact ⟨d, log, terminates_neg c removeAction p _ (d, log) (by simp),
      by simpa [pruneList] using hf, Touches.touch_refl d p _⟩
  | append_singleton A1 C ihA =>
    intro hsize B p d log hf hB hsd
    obtain ⟨ci, ck⟩ := C
    have hsz : sizeList (A1 ++ [Shape.mk ci ck]) = sizeList A1 + sizeList ck + 1 := by
      simp [sizeList_append, sizeList, Shape.size]; omega
    obtain ⟨hfc, hparc, htext⟩ := forest_child d p A1 B ci ck hf
    obtain ⟨hpc, hpA, hpck, hpB, hcA, hcck, hcB, hAck, hAB, hckB, hnA, hnck, hnB⟩ :=
      nodup_mid p A1 B ci ck hf.2.2
    have hch : d.childNodes p = roots A1 ++ ci :: roots B := by rw [hf.1, roots_mid]
    have hidx : ((((A1 ++ [Shape.mk ci ck]).length : Nat) : Int) - 1).toNat = A1.length := by
      simp
    have hpos : (0 : Int) ≤ (((A1 ++ [Shape.mk ci ck]).length : Nat) : Int) - 1 := by simp
    have hget : (d.childNodes p)[((((A1 ++ [Shape.mk ci ck]).length : Nat) : Int) - 1).toNat]?
        = some ci := by
      rw [hidx, hch]
      have := getElem?_mid (roots A1) [] (roots B) ci
      simpa [roots_length] using this
    have hcin : ci ∈ idsList (A1 ++ [Shape.mk ci ck] ++ B) := by rw [idsList_mid]; simp
    have hckin : ∀ m, m ∈ idsList ck → m ∈ idsList (A1 ++ [Shape.mk ci ck] ++ B) := by
      intro m hm; rw [idsList_mid]; simp [hm]
    cases hqc : q ci with
    | true =>
      -- the child is detached, and the index is held
      have hcc : c d ci = true := by rw [hq d hsd ci]; exact hqc
      obtain ⟨d1, hrm, hf1, hfy, hty, ht1, _, _⟩ := removeAction_forest d p A1 B ci ck hf
      have hsd1 : SameData d0 d1 := hsd.data_trans (SameData.of_touches ht1)
      have hnotin : ci ∉ d1.childNodes p := by
        rw [hf1.1]
        intro hm
        have := roots_subset_idsList _ ci hm
        rw [idsList_append] at this
        rcases List.mem_append.1 this with h | h
        · exact hcA h
        · exact hcB h
      have hh : handleChild c removeAction p ((((A1 ++ [Shape.mk ci ck]).length : Nat) : Int) - 1)
          d log ci = some (d1, log ++ [Event.test ci true, Event.act ci],
            ((((A1 ++ [Shape.mk ci ck]).length : Nat) : Int) - 1) + 1) := by
        have hne : (d1.childNodes p)[A1.length]? ≠ some ci := fun e => hnotin (List.getElem?_mem e)
        simp only [handleChild, hcc, if_true, hrm, hidx]
        simp [hne]
      -- the walker goes into the detached child
      have hdesc : ∃ d2 log2,
          Terminates (descendInto c removeAction ci (d1, log ++ [Event.test ci true, Event.act ci]))
            (d2, log2) ∧ Touches d1 d2 ci ck := by
        by_cases hel : isElementNode d1 ci = true
        · obtain ⟨d2, log2, hT2, _, ht2⟩ := ih ck (by omega) [] ci d1
            (log ++ [Event.test ci true, Event.act ci]) (by simpa using hfy)
            (fun n hn => by simp [idsList] at hn) hsd1
          refine ⟨d2, log2, ?_, by simpa using ht2⟩
          obtain ⟨N, hN⟩ := hT2
          refine ⟨N, fun fuel hfu => ?_⟩
          have hlen : (d1.childNodes ci).length = ck.length := by rw [hfy.1, roots_length]
          simp only [descendInto, hel, if_true, hlen]
          exact hN fuel hfu
        · refine ⟨d1, log ++ [Event.test ci true, Event.act ci], ⟨0, fun fuel _ => ?_⟩,
            Touches.touch_refl d1 ci ck⟩
          simp only [descendInto, hel]
          rfl
      obtain ⟨d2, log2, hT2, ht2⟩ := hdesc
      have hsd2 : SameData d0 d2 := hsd1.data_trans (SameData.of_touches ht2)
      have hf2 : Forest d2 p (A1 ++ B) := by
        refine forest_untouched d1 d2 p (A1 ++ B) ci ck hf1 ht2 hpc hpck ?_ ?_
        · rw [idsList_append]
          intro hm
          rcases List.mem_append.1 hm with h | h
          · exact hcA h
          · exact hcB h
        · intro m hm
          rw [idsList_append] at hm
          rcases List.mem_append.1 hm with h | h
          · exact hAck m h
          · exact fun e => hckB m e h
      -- the node now at the index, already visited, is visited again
      obtain ⟨d3, log3, hT3, hf3, ht3⟩ := ihA (by omega) B p d2
        (log2 ++ (orderList (B.take 1)).map (fun n => Event.test n false)) hf2 hB hsd2
      have hrev : Terminates (fun fuel => walkFrom fuel c removeAction p
          (((((A1 ++ [Shape.mk ci ck]).length : Nat) : Int) - 1) + 1 - 1) (d2, log2))
          (d3, log3) := by
        have hcast : ((((A1 ++ [Shape.mk ci ck]).length : Nat) : Int) - 1) + 1 - 1
            = (A1.length : Int) := by simp
        rw [hcast]
        cases B with
        | nil =>
          refine terminates_undef c removeAction p _ d2 log2 _ (by simp) ?_ ?_
          · rw [hf2.1]; simp [roots]
          · simpa [orderList] using hT3
        | cons b B2 =>
          have h := walk_quiet c removeAction [b] p d2 log2 (roots A1) (roots B2)
            (by rw [hf2.1]; simp [roots])
            (fun k hk => ((kidsIn_iff d2 p _).1 hf2.2.1 k (by
              rw [List.mem_singleton.1 hk]; simp)).2)
            (fun m hm => by
              rw [hq d2 hsd2 m]
              exact hB m (by rw [idsList]; exact List.mem_append_left _ (by simpa [idsList] using hm)))
            (d3, log3) (by simpa [roots_length] using hT3)
          simpa [roots_length] using h
      refine ⟨d3, log3, ?_, ?_, ?_⟩
      · exact terminates_child c removeAction p _ d log ci d1 _ _ (d2, log2) (d3, log3) hpos hget
          hh hT2 hrev
      · rw [pruneList_append, pruneList_single_true q ci ck hqc]
        simpa using hf3
      · have hsub : ∀ m, m ∈ idsList (A1 ++ B) → m ∈ idsList (A1 ++ [Shape.mk ci ck] ++ B) := by
          intro m hm
          rw [idsList_append] at hm
          rw [idsList_mid]
          rcases List.mem_append.1 hm with h | h
          · simp [h]
          · simp [h]
        have ht12 : Touches d d2 p (A1 ++ [Shape.mk ci ck] ++ B) :=
          ht1.touch_trans (Touches.lift p _ ht2 hcin hckin) (fun m hm => hm)
        exact ht12.touch_trans ht3 hsub
    | false =>
      -- the child stays, and the walker goes into it
      have hcc : ¬ c d ci = true := by rw [hq d hsd ci, hqc]; simp
      have hh : handleChild c removeAction p ((((A1 ++ [Shape.mk ci ck]).length : Nat) : Int) - 1)
          d log ci = some (d, log ++ [Event.test ci false],
            (((A1 ++ [Shape.mk ci ck]).length : Nat) : Int) - 1) := by
        simp [handleChild, hcc]
      have hdesc : ∃ d2 log2,
          Terminates (descendInto c removeAction ci (d, log ++ [Event.test ci false])) (d2, log2)
            ∧ Forest d2 ci (pruneList q ck) ∧ Touches d d2 ci ck
            ∧ (d2.nodeType ci = NodeType.text → (pruneList q ck).length = 0) := by
        by_cases hel : isElementNode d ci = true
        · obtain ⟨d2, log2, hT2, hf2, ht2⟩ := ih ck (by omega) [] ci d
            (log ++ [Event.test ci false]) (by simpa using hfc)
            (fun n hn => by simp [idsList] at hn) hsd
          refine ⟨d2, log2, ?_, by simpa using hf2, by simpa using ht2, ?_⟩
          · obtain ⟨N, hN⟩ := hT2
            refine ⟨N, fun fuel hfu => ?_⟩
            have hlen : (d.childNodes ci).length = ck.length := by rw [hfc.1, roots_length]
            simp only [descendInto, hel, if_true, hlen]
            exact hN fuel hfu
          · intro hty
            have ht2a : Touches d d2 ci ck := by simpa using ht2
            rw [ht2a.1] at hty
            simp [isElementNode, hty] at hel
        · have hty : d.nodeType ci = NodeType.text := by
            cases hty : d.nodeType ci with
            | element => simp [isElementNode, hty] at hel
            | text => rfl
          have hnil : ck = [] := List.length_eq_zero.1 (htext hty)
          subst hnil
          refine ⟨d, log ++ [Event.test ci false], ⟨0, fun fuel _ => ?_⟩,
            by simpa [pruneList] using hfc,
            Touches.touch_refl d ci [], fun _ => by simp [pruneList]⟩
          simp only [descendInto, hel]
          rfl
      obtain ⟨d2, log2, hT2, hf2c, ht2, htext2⟩ := hdesc
      have hsd2 : SameData d0 d2 := hsd.data_trans (SameData.of_touches ht2)
      have hsubck : ∀ m, m ∈ idsList (pruneList q ck) → m ∈ idsList ck :=
        fun m hm => (pruneList_sublist q ck).subset hm
      have hf2 : Forest d2 p (A1 ++ [Shape.mk ci (pruneList q ck)] ++ B) :=
        forest_replace d d2 p A1 B ci ck (pruneList q ck) hf ht2 hf2c hsubck htext2
      have hB1 : ∀ m, m ∈ idsList ([Shape.mk ci (pruneList q ck)] ++ B) → q m = false := by
        intro m hm
        rw [idsList_append, idsList_single, Shape.ids_mk] at hm
        simp only [List.mem_append, List.mem_cons] at hm
        rcases hm with (h | h) | h
        · rw [h]; exact hqc
        · exact pruneList_false q ck m h
        · exact hB m h
      obtain ⟨d3, log3, hT3, hf3, ht3⟩ := ihA (by omega) ([Shape.mk ci (pruneList q ck)] ++ B) p
        d2 log2 (by simpa using hf2) hB1 hsd2
      refine ⟨d3, log3, ?_, ?_, ?_⟩
      · refine terminates_child c removeAction p _ d log ci d _ _ (d2, log2) (d3, log3) hpos hget
          hh hT2 ?_
        have hcast : ((((A1 ++ [Shape.mk ci ck]).length : Nat) : Int) - 1) - 1
            = (A1.length : Int) - 1 := by simp
        rw [hcast]; exact hT3
      · rw [pruneList_append, pruneList_single_false q ci ck hqc]
        simpa using hf3
      · have hsub : ∀ m, m ∈ idsList (A1 ++ ([Shape.mk ci (pruneList q ck)] ++ B)) →
            m ∈ idsList (A1 ++ [Shape.mk ci ck] ++ B) := by
          intro m hm
          rw [← List.append_assoc, idsList_mid] at hm
          rw [idsList_mid]
          simp only [List.mem_append, List.mem_cons] at hm ⊢
          rcases hm with (h | h | h) | h
          · exact Or.inl (Or.inl h)
          · exact Or.inl (Or.inr (Or.inl h))
          · exact Or.inl (Or.inr (Or.inr (hsubck m h)))
          · exact Or.inr h
        exact (Touches.lift p _ ht2 hcin hckin).touch_trans ht3 hsub

theorem removeWalk (c : Cond) (q : Nat → Bool) (d0 : Dom)
    (hq : ∀ s, SameData d0 s → ∀ n, c s n = q n) (A : List Shape) : RemoveWalk c q d0 A := by
  have h : ∀ n, ∀ A, sizeList A ≤ n → RemoveWalk c q d0 A := by
    intro n
    induction n using Nat.strong_induction_on with
    | _ n ih =>
      exact removeWalk_step c q d0 hq n (fun A hA => ih (sizeList A) hA A (le_refl _))
  exact h (sizeList A) A (le_refl _)

/-! ## What `removeDescendants` leaves -/

theorem flatten_ids (ks : List Shape) : (ks.map Shape.ids).flatten = idsList ks := by
  induction ks with
  | nil => simp [idsList]
  | cons k ks ih => simp [idsList, ih]

mutual
theorem Shape.descendants_eq (d : Dom) : ∀ (s : Shape), s.In d →
    ∀ fuel, s.size ≤ fuel → descendants fuel d s.id = some (idsList s.kids)
  | Shape.mk i ks, h, fuel, hf => by
    rw [Shape.size_mk] at hf
    obtain ⟨k, rfl⟩ : ∃ k, fuel = k + 1 := ⟨fuel - 1, by omega⟩
    rw [Shape.in_mk] at h
    simp only [descendants, Shape.id, Shape.kids]
    rw [h.1, kids_descendants_eq d i ks h.2.2 k (by omega)]
    simp [flatten_ids]
theorem kids_descendants_eq (d : Dom) (p : Nat) : ∀ (ks : List Shape), KidsIn d p ks →
    ∀ fuel, sizeList ks ≤ fuel →
      collect (fun c => (descendants fuel d c).map (fun l => c :: l)) (roots ks)
        = some (ks.map Shape.ids)
  | [], _, fuel, _ => by simp [roots, collect]
  | k :: ks, h, fuel, hf => by
    rw [kidsIn_cons] at h
    rw [sizeList] at hf
    have h1 := Shape.descendants_eq d k h.1.2 fuel (by omega)
    have h2 := kids_descendants_eq d p ks h.2 fuel (by omega)
    simp only [roots, List.map_cons, collect] at h2 ⊢
    rw [h1, h2]
    cases k with
    | mk i ck => simp [Shape.ids, Shape.id, Shape.kids]
end

/-- The descendants of the root of a forest, in document order. -/
theorem forest_descendants (d : Dom) (p : Nat) (ks : List Shape) (h : Forest d p ks) :
    Terminates (fun fuel => descendants fuel d p) (idsList ks) := by
  refine ⟨sizeList ks + 1, fun fuel hf => ?_⟩
  obtain ⟨k, rfl⟩ : ∃ k, fuel = k + 1 := ⟨fuel - 1, by omega⟩
  simp only [descendants]
  rw [h.1, kids_descendants_eq d p ks h.2.1 k (by omega)]
  simp [flatten_ids]

theorem roots_prune (q : Nat → Bool) (ks : List Shape) (x : Nat) (hx : x ∈ roots ks)
    (hq : q x = false) : x ∈ roots (pruneList q ks) := by
  induction ks with
  | nil => simp [roots] at hx
  | cons k ks ih =>
    simp only [roots, List.map_cons, List.mem_cons] at hx
    cases hk : q k.id with
    | true =>
      rw [pruneList_cons_true q k ks hk]
      rcases hx with rfl | hx
      · rw [hk] at hq; cases hq
      · exact ih hx
    | false =>
      rw [pruneList_cons_false q k ks hk]
      simp only [roots, List.map_cons, List.mem_cons, Shape.prune_id]
      rcases hx with rfl | hx
      · exact Or.inl rfl
      · exact Or.inr (ih hx)

mutual
theorem Shape.prune_closed (q : Nat → Bool) (d : Dom) : ∀ s : Shape, s.In d →
    ∀ m, m ∈ (s.prune q).ids → ∀ x, x ∈ d.childNodes m → q x = false →
      x ∈ idsList (s.prune q).kids
  | Shape.mk i ks, h, m, hm, x, hx, hq => by
    rw [Shape.in_mk] at h
    simp only [Shape.prune, Shape.kids, Shape.ids, List.mem_cons] at hm ⊢
    rcases hm with rfl | hm1
    · rw [h.1] at hx
      exact roots_subset_idsList _ x (roots_prune q ks x hx hq)
    · exact pruneList_closed q d i ks h.2.2 m hm1 x hx hq
theorem pruneList_closed (q : Nat → Bool) (d : Dom) (p : Nat) : ∀ ks : List Shape,
    KidsIn d p ks → ∀ m, m ∈ idsList (pruneList q ks) → ∀ x, x ∈ d.childNodes m →
      q x = false → x ∈ idsList (pruneList q ks)
  | [], _, m, hm, _, _, _ => by simp [pruneList, idsList] at hm
  | k :: ks, h, m, hm, x, hx, hq => by
    rw [kidsIn_cons] at h
    cases hk : q k.id with
    | true =>
      rw [pruneList_cons_true q k ks hk] at hm ⊢
      exact pruneList_closed q d p ks h.2 m hm x hx hq
    | false =>
      rw [pruneList_cons_false q k ks hk, idsList] at hm ⊢
      rcases List.mem_append.1 hm with hm1 | hm1
      · exact List.mem_append_left _
          (kids_mem_ids _ x (Shape.prune_closed q d k h.1.2 m hm1 x hx hq))
      · exact List.mem_append_right _ (pruneList_closed q d p ks h.2 m hm1 x hx hq)
end

mutual
theorem Shape.kept_of_mem (c : Cond) (q : Nat → Bool) (d : Dom) (r : Nat)
    (hcq : ∀ n, c d n = q n) : ∀ s : Shape, s.In d → KeptDescendant c d r s.id →
    ∀ m, m ∈ (s.prune q).ids → KeptDescendant c d r m
  | Shape.mk i ks, h, hr, m, hm => by
    rw [Shape.in_mk] at h
    simp only [Shape.prune, Shape.ids, List.mem_cons] at hm
    simp only [Shape.id] at hr
    rcases hm with rfl | hm1
    · exact hr
    · refine kids_kept_of_mem c q d r hcq i ks h.2.2 (fun x hx hqx => ?_) m hm1
      exact KeptDescendant.step hr (by rw [h.1]; exact hx) (by rw [hcq]; exact hqx)
theorem kids_kept_of_mem (c : Cond) (q : Nat → Bool) (d : Dom) (r : Nat)
    (hcq : ∀ n, c d n = q n) (p : Nat) : ∀ ks : List Shape, KidsIn d p ks →
    (∀ x, x ∈ roots ks → q x = false → KeptDescendant c d r x) →
    ∀ m, m ∈ idsList (pruneList q ks) → KeptDescendant c d r m
  | [], _, _, m, hm => by simp [pruneList, idsList] at hm
  | k :: ks, h, hr, m, hm => by
    rw [kidsIn_cons] at h
    have hr2 : ∀ x, x ∈ roots ks → q x = false → KeptDescendant c d r x :=
      fun x hx hqx => hr x (by simp [roots] at hx ⊢; exact Or.inr hx) hqx
    cases hk : q k.id with
    | true =>
      rw [pruneList_cons_true q k ks hk] at hm
      exact kids_kept_of_mem c q d r hcq p ks h.2 hr2 m hm
    | false =>
      rw [pruneList_cons_false q k ks hk, idsList] at hm
      rcases List.mem_append.1 hm with hm1 | hm1
      · exact Shape.kept_of_mem c q d r hcq k h.1.2 (hr k.id (by simp [roots]) hk) m hm1
      · exact kids_kept_of_mem c q d r hcq p ks h.2 hr2 m hm1
end

/-- In a store that holds a forest below `p`, the descendants of `p` without a
matching node on their path are the nodes of the pruned forest. -/
theorem kept_iff (c : Cond) (q : Nat → Bool) (d : Dom) (p : Nat) (ks : List Shape)
    (hcq : ∀ n, c d n = q n) (h1 : d.childNodes p = roots ks) (h2 : KidsIn d p ks) (n : Nat) :
    KeptDescendant c d p n ↔ n ∈ idsList (pruneList q ks) := by
  constructor
  · intro hk
    induction hk with
    | child hc hq =>
      rw [h1] at hc
      rw [hcq] at hq
      exact roots_subset_idsList _ _ (roots_prune q ks _ hc hq)
    | step _ hc hq ih =>
      rw [hcq] at hq
      exact pruneList_closed q d p ks h2 _ ih _ hc hq
  · intro hn
    exact kids_kept_of_mem c q d p hcq p ks h2
      (fun x hx hqx => KeptDescendant.child (by rw [h1]; exact hx) (by rw [hcq]; exact hqx)) n hn

theorem removeDescendants_terminates (c : Cond) (e : Nat) (d d1 : Dom) (log1 : List Event)
    (n : Nat) (hlen : (d.childNodes e).length = n)
    (h : Terminates (fun fuel => walkFrom fuel c removeAction e ((n : Int) - 1) (d, [])) (d1, log1)) :
    Terminates (fun fuel => removeDescendants fuel c e d) d1 := by
  obtain ⟨N, hN⟩ := h
  refine ⟨N, fun fuel hf => ?_⟩
  have h1 : walkFrom fuel c removeAction e ((n : Int) - 1) (d, []) = some (d1, log1) :=
    hN fuel hf
  simp only [removeDescendants, walkDescendants, walkDescendantsLog, hlen]
  rw [h1]
  rfl

/-- C7. For every tree and every predicate that depends only on the node
itself (its type, name and attributes), `removeDescendants(root, predicate)`
returns, and then no descendant of the root satisfies the predicate, and the
descendants that remain (`after`, in document order) are exactly the original
descendants that had no matching node on their path below the root,
themselves included, in their original relative order: `after` is a sublist of
`before`, the original descendants in document order. -/
theorem removeDescendants_removes_matching (conditionFn : Cond)
    (hlocal : ∀ s s1 n, s1.nodeType n = s.nodeType n → s1.nodeName n = s.nodeName n →
      s1.attrs n = s.attrs n → conditionFn s1 n = conditionFn s n)
    (d : Dom) (tree : Shape) (htree : IsTree d tree) :
    ∃ d1 before after,
      Terminates (fun fuel => removeDescendants fuel conditionFn tree.id d) d1
      ∧ Terminates (fun fuel => descendants fuel d tree.id) before
      ∧ Terminates (fun fuel => descendants fuel d1 tree.id) after
      ∧ (∀ n, Descendant d1 tree.id n ↔ n ∈ after)
      ∧ (∀ n, Descendant d1 tree.id n → conditionFn d1 n = false)
      ∧ (∀ n, n ∈ after ↔ KeptDescendant conditionFn d tree.id n)
      ∧ after.Sublist before := by
  obtain ⟨p, ks⟩ := tree
  simp only [Shape.id]
  have hf := isTree_forest d p ks htree
  have hq : ∀ s, SameData d s → ∀ n, conditionFn s n = conditionFn d n := fun s hs n =>
    hlocal d s n (by rw [hs.1]) (by rw [hs.2.1]) (by rw [hs.2.2.1])
  obtain ⟨d1, log1, hT, hf1, ht1⟩ := removeWalk conditionFn (fun n => conditionFn d n) d hq ks []
    p d [] (by simpa using hf) (fun n hn => by simp [idsList] at hn) (SameData.data_refl d)
  rw [List.append_nil] at hf1
  have hdesc : ∀ n, Descendant d1 p n ↔ n ∈ idsList (pruneList (fun n => conditionFn d n) ks) :=
    descendant_iff d1 p _ hf1.1 hf1.2.1
  refine ⟨d1, idsList ks, idsList (pruneList (fun n => conditionFn d n) ks), ?_,
    forest_descendants d p ks hf, forest_descendants d1 p _ hf1, hdesc, fun n hn => ?_,
    fun n => ?_, pruneList_sublist _ ks⟩
  · exact removeDescendants_terminates conditionFn p d d1 log1 ks.length
      (by rw [hf.1, roots_length]) hT
  · rw [hq d1 (SameData.of_touches ht1) n]
    exact pruneList_false (fun n => conditionFn d n) ks n ((hdesc n).1 hn)
  · exact (kept_iff conditionFn (fun n => conditionFn d n) d p ks (fun _ => rfl) hf.1 hf.2.1 n).symm

/-- Witness of C7: the removal of the `B` elements of the document
`sampleBold`. -/
theorem removeDescendants_removes_matching_witness :
    (∀ s s1 n, s1.nodeType n = s.nodeType n → s1.nodeName n = s.nodeName n →
        s1.attrs n = s.attrs n → isBold s1 n = isBold s n)
      ∧ IsTree (document sampleBold) sampleBoldShape
      ∧ ∃ d1 before after,
        Terminates (fun fuel => removeDescendants fuel isBold sampleBoldShape.id
          (document sampleBold)) d1
        ∧ Terminates (fun fuel => descendants fuel (document sampleBold) sampleBoldShape.id)
          before
        ∧ Terminates (fun fuel => descendants fuel d1 sampleBoldShape.id) after
        ∧ (∀ n, Descendant d1 sampleBoldShape.id n ↔ n ∈ after)
        ∧ (∀ n, Descendant d1 sampleBoldShape.id n → isBold d1 n = false)
        ∧ (∀ n, n ∈ after ↔ KeptDescendant isBold (document sampleBold) sampleBoldShape.id n)
        ∧ after.Sublist before :=
  ⟨fun s s1 n _ h _ => by simp [isBold, h], by decide!,
    removeDescendants_removes_matching isBold (fun s s1 n _ h _ => by simp [isBold, h])
      (document sampleBold) sampleBoldShape (by decide!)⟩

/-! ## Levels, and the checks of the host -/

theorem ulpFrom_small (n : Nat) (h : n < 9007199254740992) : ulpFrom 1024 n 1 = 1 := by
  have h2 : (2 : Nat) ^ 53 * 1 = 9007199254740992 := by norm_num
  have h1 : n < 2 ^ 53 * 1 := by rw [h2]; exact h
  show ulpFrom (1023 + 1) n 1 = 1
  unfold ulpFrom
  rw [if_pos h1]

theorem roundNat_exact (n : Nat) (h : n < 9007199254740992) : roundNat n = n := by
  unfold roundNat
  simp only [ulpFrom_small n h, Nat.div_one, Nat.mod_one]
  simp

/-- The arithmetic on doubles is exact on the safe integers. -/
theorem roundDouble_exact (x : Int) (h : SafeLevel x) : roundDouble x = x := by
  obtain ⟨h1, h2⟩ := h
  unfold roundDouble
  by_cases hx : x < 0
  · rw [if_pos hx, roundNat_exact x.natAbs (by omega)]
    omega
  · rw [if_neg hx, roundNat_exact x.toNat (by omega)]
    omega

theorem incDouble_exact (x : Int) (h : SafeLevel (x + 1)) : incDouble x = x + 1 :=
  roundDouble_exact (x + 1) h

theorem decDouble_exact (x : Int) (h : SafeLevel (x - 1)) : decDouble x = x - 1 :=
  roundDouble_exact (x - 1) h

/-- The double `2 ^ 53` is reached exactly, and `lastLevel++` makes no progress
from there: `2 ^ 53 + 1` is not a double and rounds back to `2 ^ 53`. -/
theorem incDouble_stalls :
    roundDouble 9007199254740992 = 9007199254740992
      ∧ incDouble 9007199254740992 = 9007199254740992 := by
  decide!

/-- In the same way `lastLevel--` makes no progress from `2 ^ 53 + 4`. -/
theorem decDouble_stalls : decDouble 9007199254740996 = 9007199254740996 := by
  decide!

theorem isInclusiveAncestor_parentless (d : Dom) (x t : Nat) (hp : d.parentNode x = none)
    (hne : x ≠ t) : ∀ n, isInclusiveAncestor d n x t = false := by
  intro n
  cases n with
  | zero => simpa [isInclusiveAncestor] using hne
  | succ n => simp [isInclusiveAncestor, hp, hne]

/-- Two stores whose parent references differ at most at `z` give a node that
has not `z` among its inclusive ancestors the same ancestors. -/
theorem isInclusiveAncestor_congr (d d1 : Dom) (z : Nat)
    (hagree : ∀ m, m ≠ z → d1.parentNode m = d.parentNode m) :
    ∀ (n x t : Nat), (∀ k, isInclusiveAncestor d k x z = false) →
      isInclusiveAncestor d1 n x t = isInclusiveAncestor d n x t := by
  intro n
  induction n with
  | zero => intro x t _; rfl
  | succ n ih =>
    intro x t hz
    have hxz : x ≠ z := by
      have := hz 0
      simpa [isInclusiveAncestor] using this
    simp only [isInclusiveAncestor, hagree x hxz]
    cases hp : d.parentNode x with
    | none => rfl
    | some p =>
      have hzp : ∀ k, isInclusiveAncestor d k p z = false := by
        intro k
        have := hz (k + 1)
        simp only [isInclusiveAncestor, hp, Bool.or_eq_false_iff] at this
        exact this.2
      simp only []
      rw [ih p t hzp]

theorem clear_of_grounded (d : Dom) (x : Nat) (hg : Grounded d) (hx : x < d.size) :
    Clear d x := by
  intro t ht n
  induction n generalizing x with
  | zero =>
    have : x ≠ t := by omega
    simpa [isInclusiveAncestor] using this
  | succ n ih =>
    have hxt : x ≠ t := by omega
    simp only [isInclusiveAncestor]
    cases hp : d.parentNode x with
    | none => simp [hxt]
    | some p => simp [hxt, ih p (hg x p hp)]

theorem appendChild_ok (d : Dom) (parent node : Nat) (h : canInsert d parent node = true) :
    appendChild d parent node = some (insertLast d parent node) := by
  simp [appendChild, h]

theorem insertLast_parentless (d : Dom) (parent node : Nat) (h : d.parentNode node = none) :
    insertLast d parent node =
      { d with
        childNodes := Function.update d.childNodes parent (d.childNodes parent ++ [node])
        parentNode := Function.update d.parentNode node (some parent) } := by
  simp only [insertLast, h]

theorem insertLast_parent (d : Dom) (parent node : Nat) :
    (insertLast d parent node).parentNode node = some parent := by
  simp [insertLast]

/-! ## The nested list rebuilder, going down -/

theorem descend_done (f : Factory) (actualLevel : Int) (fuel : Nat) (s : ListState)
    (h : ¬ actualLevel > s.lastLevel) : descend f actualLevel (fuel + 1) s = some s := by
  simp [descend, h]

theorem descend_unfold (f : Factory) (actualLevel : Int) (fuel : Nat) (s : ListState)
    (h : actualLevel > s.lastLevel) :
    descend f actualLevel (fuel + 1) s =
      match appendChild (f s.dom).2 s.listHTML (f s.dom).1 with
      | none => none
      | some d2 =>
        descend f actualLevel fuel
          { dom := d2
            listHTML := (f s.dom).1
            lastLevel := incDouble s.lastLevel
            calls := s.calls + 1 } := by
  simp only [descend, h, if_true]

theorem descend_step (f : Factory) (actualLevel : Int) (fuel : Nat) (s : ListState)
    (h : actualLevel > s.lastLevel)
    (hcheck : canInsert (f s.dom).2 s.listHTML (f s.dom).1 = true)
    (hexact : incDouble s.lastLevel = s.lastLevel + 1) :
    descend f actualLevel (fuel + 1) s =
      descend f actualLevel fuel
        { dom := insertLast (f s.dom).2 s.listHTML (f s.dom).1
          listHTML := (f s.dom).1
          lastLevel := s.lastLevel + 1
          calls := s.calls + 1 } := by
  rw [descend_unfold f actualLevel fuel s h, appendChild_ok _ _ _ hcheck, hexact]

theorem descend_mono (f : Factory) (a : Int) :
    ∀ (n : Nat) (s r : ListState), descend f a n s = some r →
      ∀ m, n ≤ m → descend f a m s = some r := by
  intro n
  induction n with
  | zero => intro s r h; simp [descend] at h
  | succ n ih =>
    intro s r h m hm
    obtain ⟨m1, rfl⟩ : ∃ m1, m = m1 + 1 := ⟨m - 1, by omega⟩
    by_cases hc : a > s.lastLevel
    · rw [descend_unfold f a n s hc] at h
      rw [descend_unfold f a m1 s hc]
      cases hd : appendChild (f s.dom).2 s.listHTML (f s.dom).1 with
      | none => rw [hd] at h; cases h
      | some d2 =>
        rw [hd] at h
        exact ih _ r h m1 (by omega)
    · rw [descend_done f a n s hc] at h
      rw [descend_done f a m1 s hc]
      exact h

/-- The first loop of `createNestedList` never reaches a level above `2 ^ 53`
from a level between 0 and `2 ^ 53`: the counter stops at `2 ^ 53`. -/
theorem descend_stalls (f : Factory) (a : Int) (ha : 9007199254740992 < a) :
    ∀ (fuel : Nat) (s : ListState), 0 ≤ s.lastLevel → s.lastLevel ≤ 9007199254740992 →
      descend f a fuel s = none := by
  intro fuel
  induction fuel with
  | zero => intro s _ _; rfl
  | succ n ih =>
    intro s h0 h1
    rw [descend_unfold f a n s (by omega)]
    cases hd : appendChild (f s.dom).2 s.listHTML (f s.dom).1 with
    | none => rfl
    | some d2 =>
      simp only []
      have hnext : 0 ≤ incDouble s.lastLevel ∧ incDouble s.lastLevel ≤ 9007199254740992 := by
        by_cases hlt : s.lastLevel + 1 < 9007199254740992
        · rw [incDouble_exact s.lastLevel ⟨by omega, hlt⟩]; omega
        · by_cases hlt1 : s.lastLevel < 9007199254740992
          · have he : s.lastLevel + 1 = 9007199254740992 := by omega
            unfold incDouble
            rw [he, incDouble_stalls.1]
            omega
          · have he : s.lastLevel = 9007199254740992 := by omega
            rw [he, incDouble_stalls.2]
            omega
      exact ih _ hnext.1 hnext.2

/-- The first loop of `createNestedList`, `k` levels above a target in the
safe range: it creates `k` containers, the nodes `size`, `size + 1`, and so on,
each the only child of the one before and the first the last child of
`listHTML`; the host accepts every insertion. -/
theorem descend_spec (f : Factory) (hf : FreshFactory f) (actualLevel : Int)
    (hsafe : actualLevel < 9007199254740992) :
    ∀ (k : Nat) (s : ListState) (fuel : Nat), actualLevel - s.lastLevel = (k : Int) → k < fuel →
      s.listHTML < s.dom.size → -9007199254740992 < s.lastLevel →
      s.dom.nodeType s.listHTML = NodeType.element → Clear s.dom s.listHTML →
      ∃ s1, descend f actualLevel fuel s = some s1 ∧ s1.lastLevel = actualLevel
        ∧ s1.calls = s.calls + k ∧ s1.dom.size = s.dom.size + k
        ∧ (k = 0 → s1 = s)
        ∧ (0 < k → s1.dom.childNodes s.listHTML = s.dom.childNodes s.listHTML ++ [s.dom.size]
            ∧ s1.dom.parentNode s.dom.size = some s.listHTML
            ∧ s1.listHTML = s.dom.size + (k - 1) ∧ s1.dom.childNodes s1.listHTML = [])
        ∧ (∀ j, j + 1 < k → s1.dom.childNodes (s.dom.size + j) = [s.dom.size + j + 1]
            ∧ s1.dom.parentNode (s.dom.size + j + 1) = some (s.dom.size + j))
        ∧ (∀ m, m < s.dom.size → m ≠ s.listHTML → s1.dom.childNodes m = s.dom.childNodes m)
        ∧ (∀ m, m < s.dom.size → s1.dom.parentNode m = s.dom.parentNode m)
        ∧ (∀ m, m < s.dom.size → s1.dom.nodeType m = s.dom.nodeType m)
        ∧ s1.dom.nodeType s1.listHTML = NodeType.element
        ∧ Clear s1.dom s1.listHTML
        ∧ (∀ j, j < k → s1.dom.nodeType (s.dom.size + j) = NodeType.element) := by
  intro k
  induction k with
  | zero =>
    intro s fuel hk hfuel _ _ helem hclear
    obtain ⟨n, rfl⟩ : ∃ n, fuel = n + 1 := ⟨fuel - 1, by omega⟩
    refine ⟨s, descend_done f actualLevel n s (by omega), by omega, rfl, rfl, fun _ => rfl,
      fun h => absurd h (by omega), fun j hj => absurd hj (by omega), fun _ _ _ => rfl,
      fun _ _ => rfl, fun _ _ => rfl, helem, hclear, fun j hj => absurd hj (by omega)⟩
  | succ k ih =>
    intro s fuel hk hfuel hnode hlow helem hclear
    obtain ⟨n, rfl⟩ : ∃ n, fuel = n + 1 := ⟨fuel - 1, by omega⟩
    obtain ⟨f1, f2, f3, f4, f5⟩ := hf s.dom
    have hne : s.listHTML ≠ s.dom.size := by omega
    have hpar : (f s.dom).2.parentNode (f s.dom).1 = none := by
      rw [f4, f1, Function.update_same]
    have hagree0 : ∀ m, m ≠ s.dom.size → (f s.dom).2.parentNode m = s.dom.parentNode m := by
      intro m hm
      rw [f4, Function.update_noteq hm]
    have hz : ∀ k, isInclusiveAncestor s.dom k s.listHTML s.dom.size = false :=
      hclear s.dom.size (le_refl _)
    have hcheck : canInsert (f s.dom).2 s.listHTML (f s.dom).1 = true := by
      have h1 : (f s.dom).2.nodeType s.listHTML = NodeType.element := by
        rw [f5, Function.update_noteq hne]; exact helem
      have h2 : isInclusiveAncestor (f s.dom).2 (f s.dom).2.size s.listHTML (f s.dom).1
          = false := by
        rw [f1, isInclusiveAncestor_congr s.dom (f s.dom).2 s.dom.size hagree0 _ _ _ hz]
        exact hz _
      simp [canInsert, h1, h2]
    have hexact : incDouble s.lastLevel = s.lastLevel + 1 :=
      incDouble_exact s.lastLevel ⟨by omega, by omega⟩
    have hdom := insertLast_parentless (f s.dom).2 s.listHTML (f s.dom).1 hpar
    have hsz : (insertLast (f s.dom).2 s.listHTML (f s.dom).1).size = s.dom.size + 1 := by
      rw [hdom]; exact f2
    have hcn1 : (insertLast (f s.dom).2 s.listHTML (f s.dom).1).childNodes s.listHTML
        = s.dom.childNodes s.listHTML ++ [s.dom.size] := by
      rw [hdom]
      show Function.update _ _ _ _ = _
      rw [Function.update_same, f3, f1, Function.update_noteq hne]
    have hcn2 : (insertLast (f s.dom).2 s.listHTML (f s.dom).1).childNodes s.dom.size = [] := by
      rw [hdom]
      show Function.update _ _ _ _ = _
      rw [Function.update_noteq hne.symm, f3, Function.update_same]
    have hcn3 : ∀ m, m ≠ s.listHTML → m ≠ s.dom.size →
        (insertLast (f s.dom).2 s.listHTML (f s.dom).1).childNodes m = s.dom.childNodes m := by
      intro m h1 h2
      rw [hdom]
      show Function.update _ _ _ _ = _
      rw [Function.update_noteq h1, f3, Function.update_noteq h2]
    have hpn1 : (insertLast (f s.dom).2 s.listHTML (f s.dom).1).parentNode s.dom.size
        = some s.listHTML := by
      rw [hdom]
      show Function.update _ _ _ _ = _
      rw [f1, Function.update_same]
    have hpn3 : ∀ m, m ≠ s.dom.size →
        (insertLast (f s.dom).2 s.listHTML (f s.dom).1).parentNode m = s.dom.parentNode m := by
      intro m h2
      rw [hdom]
      show Function.update _ _ _ _ = _
      rw [f1, Function.update_noteq h2, f4, Function.update_noteq h2]
    have hty1 : (insertLast (f s.dom).2 s.listHTML (f s.dom).1).nodeType s.dom.size
        = NodeType.element := by
      rw [hdom]
      show (f s.dom).2.nodeType _ = _
      rw [f5, Function.update_same]
    have hty3 : ∀ m, m ≠ s.dom.size →
        (insertLast (f s.dom).2 s.listHTML (f s.dom).1).nodeType m = s.dom.nodeType m := by
      intro m h2
      rw [hdom]
      show (f s.dom).2.nodeType _ = _
      rw [f5, Function.update_noteq h2]
    rw [descend_step f actualLevel n s (by omega) hcheck hexact]
    generalize insertLast (f s.dom).2 s.listHTML (f s.dom).1 = D
      at hsz hcn1 hcn2 hcn3 hpn1 hpn3 hty1 hty3 ⊢
    rw [f1]
    have hclearD : Clear D s.dom.size := by
      intro t ht m
      have hst : s.dom.size ≠ t := by omega
      cases m with
      | zero => simpa [isInclusiveAncestor] using hst
      | succ m =>
        simp only [isInclusiveAncestor, hpn1, hst, beq_iff_eq, Bool.false_or, decide_False]
        rw [isInclusiveAncestor_congr s.dom D s.dom.size hpn3 _ _ _ hz, hclear t (by omega) m]
        simpa using hst
    obtain ⟨s1, h1, h2, h3, h4, h5, h6, h7, h8, h9, h10, h11, h12, h13⟩ := ih
      { dom := D, listHTML := s.dom.size, lastLevel := s.lastLevel + 1, calls := s.calls + 1 }
      n (by simp only []; omega) (by omega) (by simp only [hsz]; omega) (by simp only []; omega)
      hty1 hclearD
    simp only [hsz] at h4 h6 h7 h8 h9 h10 h13
    simp only [] at h3 h5 h6 h8 h9
    have hcn : s1.dom.childNodes s.listHTML = s.dom.childNodes s.listHTML ++ [s.dom.size] := by
      rw [h8 s.listHTML (by omega) hne, hcn1]
    have hpn : s1.dom.parentNode s.dom.size = some s.listHTML := by
      rw [h9 s.dom.size (by omega), hpn1]
    refine ⟨s1, h1, h2, by rw [h3]; omega, by rw [h4]; omega,
      fun h => absurd h (by omega), fun _ => ⟨hcn, hpn, ?_, ?_⟩, fun j hj => ?_,
      fun m hm hml => ?_, fun m hm => ?_, fun m hm => ?_, h11, h12, fun j hj => ?_⟩
    · rcases Nat.eq_zero_or_pos k with hk0 | hk0
      · rw [h5 hk0, hk0]; rfl
      · rw [(h6 hk0).2.2.1]; omega
    · rcases Nat.eq_zero_or_pos k with hk0 | hk0
      · rw [h5 hk0]; exact hcn2
      · exact (h6 hk0).2.2.2
    · rcases Nat.eq_zero_or_pos j with hj0 | hj0
      · subst hj0
        have hk0 : 0 < k := by omega
        obtain ⟨g1, g2, _, _⟩ := h6 hk0
        rw [hcn2] at g1
        exact ⟨by simpa using g1, by simpa using g2⟩
      · obtain ⟨g1, g2⟩ := h7 (j - 1) (by omega)
        have e1 : s.dom.size + 1 + (j - 1) = s.dom.size + j := by omega
        rw [e1] at g1 g2
        exact ⟨g1, g2⟩
    · have hm1 : m ≠ s.dom.size := by omega
      rw [h8 m (by omega) hm1, hcn3 m hml hm1]
    · have hm1 : m ≠ s.dom.size := by omega
      rw [h9 m (by omega), hpn3 m hm1]
    · have hm1 : m ≠ s.dom.size := by omega
      rw [h10 m (by omega), hty3 m hm1]
    · rcases Nat.eq_zero_or_pos j with hj0 | hj0
      · subst hj0
        rw [Nat.add_zero, h10 s.dom.size (by omega), hty1]
      · have := h13 (j - 1) (by omega)
        rw [show s.dom.size + 1 + (j - 1) = s.dom.size + j by omega] at this
        exact this

theorem ancestorAt_chain (d : Dom) (base top : Nat) (k : Nat)
    (h0 : d.parentNode base = some top)
    (h : ∀ j, j + 1 < k → d.parentNode (base + j + 1) = some (base + j)) :
    ∀ i, i < k → ancestorAt d (i + 1) (base + i) = some top := by
  intro i
  induction i with
  | zero =>
    intro _
    simp [ancestorAt, h0]
  | succ i ih =>
    intro hi
    have hp := h i (by omega)
    have hrec := ih (by omega)
    rw [ancestorAt]
    have e : base + (i + 1) = base + i + 1 := by omega
    rw [e, hp]
    exact hrec

theorem createElement_fresh (name : String) : FreshFactory (createElement name) :=
  fun _ => ⟨rfl, rfl, rfl, rfl, rfl⟩

/-- The first loop of `createNestedList`, with a result that does not depend
on the fuel. -/
theorem descend_total (f : Factory) (hf : FreshFactory f) (actualLevel : Int)
    (hsafe : actualLevel < 9007199254740992) (k : Nat) (s : ListState)
    (hk : actualLevel - s.lastLevel = (k : Int)) (hnode : s.listHTML < s.dom.size)
    (hlow : -9007199254740992 < s.lastLevel)
    (helem : s.dom.nodeType s.listHTML = NodeType.element) (hclear : Clear s.dom s.listHTML) :
    ∃ s1, (∀ fuel, k < fuel → descend f actualLevel fuel s = some s1)
      ∧ s1.lastLevel = actualLevel
      ∧ s1.calls = s.calls + k ∧ s1.dom.size = s.dom.size + k
      ∧ (k = 0 → s1 = s)
      ∧ (0 < k → s1.dom.childNodes s.listHTML = s.dom.childNodes s.listHTML ++ [s.dom.size]
          ∧ s1.dom.parentNode s.dom.size = some s.listHTML
          ∧ s1.listHTML = s.dom.size + (k - 1) ∧ s1.dom.childNodes s1.listHTML = [])
      ∧ (∀ j, j + 1 < k → s1.dom.childNodes (s.dom.size + j) = [s.dom.size + j + 1]
          ∧ s1.dom.parentNode (s.dom.size + j + 1) = some (s.dom.size + j))
      ∧ (∀ m, m < s.dom.size → m ≠ s.listHTML → s1.dom.childNodes m = s.dom.childNodes m)
      ∧ (∀ m, m < s.dom.size → s1.dom.parentNode m = s.dom.parentNode m)
      ∧ (∀ m, m < s.dom.size → s1.dom.nodeType m = s.dom.nodeType m)
      ∧ s1.dom.nodeType s1.listHTML = NodeType.element
      ∧ Clear s1.dom s1.listHTML
      ∧ (∀ j, j < k → s1.dom.nodeType (s.dom.size + j) = NodeType.element) := by
  obtain ⟨s1, h1, h2, h3, h4, h5, h6, h7, h8, h9, h10, h11, h12, h13⟩ :=
    descend_spec f hf actualLevel hsafe k s (k + 1) hk (by omega) hnode hlow helem hclear
  exact ⟨s1, fun fuel hfuel => descend_mono f actualLevel (k + 1) s s1 h1 fuel (by omega),
    h2, h3, h4, h5, h6, h7, h8, h9, h10, h11, h12, h13⟩

/-! ## The nested list rebuilder, going up -/

theorem ascend_done (f : Factory) (actualLevel : Int) (fuel : Nat) (s : ListState)
    (h : ¬ actualLevel < s.lastLevel) : ascend f actualLevel (fuel + 1) s = some s := by
  simp [ascend, h]

theorem ascend_unfold (f : Factory) (a : Int) (fuel : Nat) (s : ListState)
    (h : a < s.lastLevel) :
    ascend f a (fuel + 1) s =
      match wrapRoot f s with
      | none => none
      | some s1 =>
        match s1.dom.parentNode s1.listHTML with
        | none => none
        | some p => ascend f a fuel { s1 with listHTML := p, lastLevel := decDouble s1.lastLevel } := by
  simp only [ascend, h, if_true]

theorem wrapRoot_level (f : Factory) (s s1 : ListState) (h : wrapRoot f s = some s1) :
    s1.lastLevel = s.lastLevel := by
  unfold wrapRoot at h
  cases hp : s.dom.parentNode s.listHTML with
  | some p =>
    rw [hp] at h
    rw [← Option.some.inj h]
  | none =>
    rw [hp] at h
    simp only [] at h
    cases hd : appendChild (f s.dom).2 (f s.dom).1 s.listHTML with
    | none => rw [hd] at h; cases h
    | some d2 =>
      rw [hd] at h
      rw [← Option.some.inj h]

theorem ascend_step_up (f : Factory) (a : Int) (fuel : Nat) (s : ListState) (p : Nat)
    (h : a < s.lastLevel) (hp : s.dom.parentNode s.listHTML = some p)
    (hexact : decDouble s.lastLevel = s.lastLevel - 1) :
    ascend f a (fuel + 1) s =
      ascend f a fuel { s with listHTML := p, lastLevel := s.lastLevel - 1 } := by
  simp [ascend, h, wrapRoot, hp, hexact]

theorem ascend_step_wrap (f : Factory) (a : Int) (fuel : Nat) (s : ListState)
    (h : a < s.lastLevel) (hp : s.dom.parentNode s.listHTML = none)
    (hcheck : canInsert (f s.dom).2 (f s.dom).1 s.listHTML = true)
    (hexact : decDouble s.lastLevel = s.lastLevel - 1) :
    ascend f a (fuel + 1) s =
      ascend f a fuel
        { dom := insertLast (f s.dom).2 (f s.dom).1 s.listHTML
          listHTML := (f s.dom).1
          lastLevel := s.lastLevel - 1
          calls := s.calls + 1 } := by
  simp [ascend, h, wrapRoot, hp, appendChild_ok _ _ _ hcheck, insertLast_parent, hexact]

/-- The second loop of `createNestedList` makes no progress from the level
`2 ^ 53 + 4` towards the level `2 ^ 53 + 2`: it never returns. -/
theorem ascend_stalls (f : Factory) :
    ∀ (fuel : Nat) (s : ListState), s.lastLevel = 9007199254740996 →
      ascend f 9007199254740994 fuel s = none := by
  intro fuel
  induction fuel with
  | zero => intro s _; rfl
  | succ n ih =>
    intro s hs
    rw [ascend_unfold f _ n s (by rw [hs]; decide)]
    cases hw : wrapRoot f s with
    | none => rfl
    | some s1 =>
      simp only []
      have hl := wrapRoot_level f s s1 hw
      cases hp : s1.dom.parentNode s1.listHTML with
      | none => rfl
      | some p =>
        simp only []
        exact ih _ (by simp only []; rw [hl, hs, decDouble_stalls])

/-- The second loop of `createNestedList` on a container that has its
ancestors, between levels in the safe range: it goes up to the ancestor `k`
levels above, makes no call of the factory and leaves the store as it is. -/
theorem ascend_up (f : Factory) (a : Int) (ha : -9007199254740992 < a) :
    ∀ (k : Nat) (s : ListState) (top : Nat), s.lastLevel - a = (k : Int) →
      s.lastLevel < 9007199254740992 →
      ancestorAt s.dom k s.listHTML = some top →
      ∀ fuel, k < fuel → ascend f a fuel s = some { s with listHTML := top, lastLevel := a } := by
  intro k
  induction k with
  | zero =>
    intro s top hk _ hanc fuel hfuel
    obtain ⟨n, rfl⟩ : ∃ n, fuel = n + 1 := ⟨fuel - 1, by omega⟩
    rw [ascend_done f a n s (by omega)]
    simp only [ancestorAt, Option.some.injEq] at hanc
    have ha : a = s.lastLevel := by omega
    rw [← hanc, ha]
  | succ k ih =>
    intro s top hk hhigh hanc fuel hfuel
    obtain ⟨n, rfl⟩ : ∃ n, fuel = n + 1 := ⟨fuel - 1, by omega⟩
    rw [ancestorAt] at hanc
    cases hp : s.dom.parentNode s.listHTML with
    | none => rw [hp] at hanc; cases hanc
    | some p =>
      rw [hp] at hanc
      rw [ascend_step_up f a n s p (by omega) hp
        (decDouble_exact s.lastLevel ⟨by omega, by omega⟩)]
      exact ih { s with listHTML := p, lastLevel := s.lastLevel - 1 } top
        (by simp only []; omega) (by simp only []; omega) hanc n (by omega)

/-- The second loop of `createNestedList` on a container without parent, `k`
levels below a target, between levels in the safe range: it creates `k`
containers, the nodes `size`, `size + 1`, and so on, puts `listHTML` into the
first, each into the next, and ends at the last, which has no parent; the host
accepts every insertion. -/
theorem ascend_wrap (f : Factory) (hf : FreshFactory f) (a : Int)
    (ha : -9007199254740992 < a) :
    ∀ (k : Nat) (s : ListState), s.lastLevel - a = (k : Int) →
      s.lastLevel < 9007199254740992 →
      s.dom.parentNode s.listHTML = none → s.listHTML < s.dom.size →
      ∃ s1, (∀ fuel, k < fuel → ascend f a fuel s = some s1) ∧ s1.lastLevel = a
        ∧ s1.calls = s.calls + k ∧ s1.dom.size = s.dom.size + k
        ∧ (k = 0 → s1 = s)
        ∧ (0 < k → s1.listHTML = s.dom.size + (k - 1)
            ∧ s1.dom.parentNode s.listHTML = some s.dom.size
            ∧ s1.dom.childNodes s.dom.size = [s.listHTML])
        ∧ s1.dom.parentNode s1.listHTML = none
        ∧ (∀ j, j + 1 < k → s1.dom.parentNode (s.dom.size + j) = some (s.dom.size + j + 1)
            ∧ s1.dom.childNodes (s.dom.size + j + 1) = [s.dom.size + j])
        ∧ (∀ m, m < s.dom.size → s1.dom.childNodes m = s.dom.childNodes m)
        ∧ (∀ m, m < s.dom.size → m ≠ s.listHTML → s1.dom.parentNode m = s.dom.parentNode m) := by
  intro k
  induction k with
  | zero =>
    intro s hk _ hpar _
    refine ⟨s, fun fuel hfuel => ?_, by omega, rfl, rfl, fun _ => rfl,
      fun h => absurd h (by omega), hpar, fun j hj => absurd hj (by omega), fun _ _ => rfl,
      fun _ _ _ => rfl⟩
    obtain ⟨n, rfl⟩ : ∃ n, fuel = n + 1 := ⟨fuel - 1, by omega⟩
    exact ascend_done f a n s (by omega)
  | succ k ih =>
    intro s hk hhigh hpar hnode
    obtain ⟨f1, f2, f3, f4, f5⟩ := hf s.dom
    have hne : s.listHTML ≠ s.dom.size := by omega
    have hpar1 : (f s.dom).2.parentNode s.listHTML = none := by
      rw [f4, Function.update_noteq hne]; exact hpar
    have hcheck : canInsert (f s.dom).2 (f s.dom).1 s.listHTML = true := by
      have h1 : (f s.dom).2.nodeType (f s.dom).1 = NodeType.element := by
        rw [f5, f1, Function.update_same]
      have h2 := isInclusiveAncestor_parentless (f s.dom).2 (f s.dom).1 s.listHTML
        (by rw [f4, f1, Function.update_same]) (by rw [f1]; exact hne.symm) (f s.dom).2.size
      simp [canInsert, h1, h2]
    have hdom := insertLast_parentless (f s.dom).2 (f s.dom).1 s.listHTML hpar1
    have hsz : (insertLast (f s.dom).2 (f s.dom).1 s.listHTML).size = s.dom.size + 1 := by
      rw [hdom]; exact f2
    have hcn1 : (insertLast (f s.dom).2 (f s.dom).1 s.listHTML).childNodes s.dom.size
        = [s.listHTML] := by
      rw [hdom]
      show Function.update _ _ _ _ = _
      rw [f1, Function.update_same, f3, Function.update_same]
      rfl
    have hcn3 : ∀ m, m ≠ s.dom.size →
        (insertLast (f s.dom).2 (f s.dom).1 s.listHTML).childNodes m = s.dom.childNodes m := by
      intro m h2
      rw [hdom]
      show Function.update _ _ _ _ = _
      rw [f1, Function.update_noteq h2, f3, Function.update_noteq h2]
    have hpn1 : (insertLast (f s.dom).2 (f s.dom).1 s.listHTML).parentNode s.listHTML
        = some s.dom.size := by
      rw [insertLast_parent, f1]
    have hpn2 : (insertLast (f s.dom).2 (f s.dom).1 s.listHTML).parentNode s.dom.size
        = none := by
      rw [hdom]
      show Function.update _ _ _ _ = _
      rw [Function.update_noteq hne.symm, f4, Function.update_same]
    have hpn3 : ∀ m, m ≠ s.dom.size → m ≠ s.listHTML →
        (insertLast (f s.dom).2 (f s.dom).1 s.listHTML).parentNode m = s.dom.parentNode m := by
      intro m h1 h2
      rw [hdom]
      show Function.update _ _ _ _ = _
      rw [Function.update_noteq h2, f4, Function.update_noteq h1]
    have hstep : ∀ n, ascend f a (n + 1) s =
        ascend f a n
          { dom := insertLast (f s.dom).2 (f s.dom).1 s.listHTML
            listHTML := s.dom.size
            lastLevel := s.lastLevel - 1
            calls := s.calls + 1 } := by
      intro n
      rw [ascend_step_wrap f a n s (by omega) hpar hcheck
        (decDouble_exact s.lastLevel ⟨by omega, by omega⟩), f1]
    generalize insertLast (f s.dom).2 (f s.dom).1 s.listHTML = D
      at hsz hcn1 hcn3 hpn1 hpn2 hpn3 hstep
    obtain ⟨s1, h1, h2, h3, h4, h5, h6, h7, h8, h9, h10⟩ := ih
      { dom := D, listHTML := s.dom.size, lastLevel := s.lastLevel - 1, calls := s.calls + 1 }
      (by simp only []; omega) (by simp only []; omega) hpn2 (by simp only [hsz]; omega)
    simp only [hsz] at h4 h6 h8 h9 h10
    simp only [] at h3 h5 h6 h10
    have hp : s1.dom.parentNode s.listHTML = some s.dom.size := by
      rw [h10 s.listHTML (by omega) hne, hpn1]
    have hc : s1.dom.childNodes s.dom.size = [s.listHTML] := by
      rw [h9 s.dom.size (by omega), hcn1]
    refine ⟨s1, fun fuel hfuel => ?_, h2, by rw [h3]; omega, by rw [h4]; omega,
      fun h => absurd h (by omega), fun _ => ⟨?_, hp, hc⟩, h7, fun j hj => ?_,
      fun m hm => ?_, fun m hm hml => ?_⟩
    · obtain ⟨n, rfl⟩ : ∃ n, fuel = n + 1 := ⟨fuel - 1, by omega⟩
      rw [hstep n]
      exact h1 n (by omega)
    · rcases Nat.eq_zero_or_pos k with hk0 | hk0
      · rw [h5 hk0, hk0]; rfl
      · rw [(h6 hk0).1]; omega
    · rcases Nat.eq_zero_or_pos j with hj0 | hj0
      · subst hj0
        obtain ⟨_, g2, g3⟩ := h6 (by omega)
        exact ⟨g2, g3⟩
      · obtain ⟨g1, g2⟩ := h8 (j - 1) (by omega)
        have e1 : s.dom.size + 1 + (j - 1) = s.dom.size + j := by omega
        rw [e1] at g1 g2
        exact ⟨g1, g2⟩
    · rw [h9 m (by omega), hcn3 m (by omega)]
    · rw [h10 m (by omega) (by omega), hpn3 m (by omega) hml]

theorem ancestorAt_rising (d : Dom) (base k : Nat)
    (h : ∀ j, j + 1 < k → d.parentNode (base + j) = some (base + j + 1)) :
    ∀ i j, j + i < k → ancestorAt d i (base + j) = some (base + j + i) := by
  intro i
  induction i with
  | zero => intro j _; rfl
  | succ i ih =>
    intro j hj
    rw [ancestorAt, h j (by omega)]
    show ancestorAt d i (base + (j + 1)) = _
    rw [ih (j + 1) (by omega)]
    congr 1
    omega

theorem createNestedList_no_descent (f : Factory) (d : Dom) (c : Nat) (a l : Int) (h : a ≤ l)
    (fuel : Nat) :
    createNestedList (fuel + 1) a l c f d =
      ascend f a (fuel + 1) { dom := d, listHTML := c, lastLevel := l, calls := 0 } := by
  simp only [createNestedList]
  rw [descend_done f a fuel _ (by simp only []; omega)]

/-- C13, the counterexample: on the document with the single container `L0`,
which has no parent, `createNestedList(2 ^ 53 + 2, 2 ^ 53 + 4, L0, f)` never
returns, whatever the fuel: the levels are doubles, `lastLevel--` gives
`2 ^ 53 + 4` again, and the loop wraps without end, where levels two apart
ask for two calls of the factory. -/
theorem createNestedList_wraps_forever :
    decDouble 9007199254740996 = 9007199254740996
      ∧ ¬ ∃ s, Terminates
          (fun fuel => createNestedList fuel 9007199254740994 9007199254740996 0
            (createElement "UL") sampleList) s := by
  refine ⟨decDouble_stalls, ?_⟩
  rintro ⟨s, N, hN⟩
  have h := hN (N + 1) (by omega)
  simp only [] at h
  rw [createNestedList_no_descent _ _ _ _ _ (by decide) N,
    ascend_stalls (createElement "UL") (N + 1) _ rfl] at h
  cases h

/-- C13, amended. For every container `c` of the document that has no parent,
all integer levels in the safe range (of absolute value below `2 ^ 53`) with
`actualLevel < lastLevel` and every factory returning fresh empty parentless
containers, `createNestedList(actualLevel, lastLevel, c, createListFn)` returns
as soon as the fuel exceeds `lastLevel - actualLevel`, it does not fail; it
calls the factory exactly `lastLevel - actualLevel` times (the new containers
are the nodes `d.size`, `d.size + 1`, and so on); `c` becomes the only child of
the first new container and each new container the only child of the next; the
returned container is the last, outermost new container, which has no parent;
`c` lies exactly `lastLevel - actualLevel` levels below the returned container;
and the children of `c` are unchanged. -/
theorem createNestedList_wraps (createListFn : Factory) (hfresh : FreshFactory createListFn)
    (d : Dom) (c : Nat) (hnode : c < d.size) (hpar : d.parentNode c = none)
    (actualLevel lastLevel : Int) (hlt : actualLevel < lastLevel)
    (hsafe1 : SafeLevel actualLevel) (hsafe2 : SafeLevel lastLevel) :
    ∃ s : ListState,
      (∀ fuel, (lastLevel - actualLevel).toNat < fuel →
        createNestedList fuel actualLevel lastLevel c createListFn d = some s)
      ∧ s.calls = (lastLevel - actualLevel).toNat
      ∧ s.dom.size = d.size + (lastLevel - actualLevel).toNat
      ∧ s.listHTML = d.size + ((lastLevel - actualLevel).toNat - 1)
      ∧ s.dom.parentNode s.listHTML = none
      ∧ s.dom.parentNode c = some d.size
      ∧ s.dom.childNodes d.size = [c]
      ∧ (∀ j, j + 1 < (lastLevel - actualLevel).toNat →
          s.dom.parentNode (d.size + j) = some (d.size + j + 1)
          ∧ s.dom.childNodes (d.size + j + 1) = [d.size + j])
      ∧ ancestorAt s.dom (lastLevel - actualLevel).toNat c = some s.listHTML
      ∧ s.dom.childNodes c = d.childNodes c := by
  have hk : lastLevel - actualLevel = (((lastLevel - actualLevel).toNat : Nat) : Int) := by omega
  have hpos : 0 < (lastLevel - actualLevel).toNat := by omega
  generalize (lastLevel - actualLevel).toNat = k at hk hpos
  obtain ⟨s1, h1, _, h3, h4, _, h6, h7, h8, h9, _⟩ := ascend_wrap createListFn hfresh actualLevel
    hsafe1.1 k { dom := d, listHTML := c, lastLevel := lastLevel, calls := 0 } hk hsafe2.2 hpar
    hnode
  obtain ⟨g1, g2, g3⟩ := h6 hpos
  simp only [] at h3 h4 g1 g2 g3 h8 h9
  refine ⟨s1, fun fuel hfuel => ?_, by omega, h4, g1, h7, g2, g3, h8, ?_, h9 c hnode⟩
  · obtain ⟨n, rfl⟩ : ∃ n, fuel = n + 1 := ⟨fuel - 1, by omega⟩
    rw [createNestedList_no_descent createListFn d c actualLevel lastLevel (by omega) n]
    exact h1 (n + 1) hfuel
  · obtain ⟨k1, rfl⟩ : ∃ k1, k = k1 + 1 := ⟨k - 1, by omega⟩
    rw [ancestorAt, g2, g1]
    have := ancestorAt_rising s1.dom d.size (k1 + 1) (fun j hj => (h8 j hj).1) k1 0 (by omega)
    simpa using this

/-- Witness of the amended C13: levels 0 and 2 on the document with the single
container `L0`, which has no parent. -/
theorem createNestedList_wraps_witness :
    FreshFactory (createElement "UL") ∧ 0 < sampleList.size ∧ sampleList.parentNode 0 = none
      ∧ (0 : Int) < 2 ∧ SafeLevel 0 ∧ SafeLevel 2
      ∧ ∃ s : ListState,
        (∀ fuel, ((2 : Int) - 0).toNat < fuel →
          createNestedList fuel 0 2 0 (createElement "UL") sampleList = some s)
        ∧ s.calls = ((2 : Int) - 0).toNat
        ∧ s.dom.size = sampleList.size + ((2 : Int) - 0).toNat
        ∧ s.listHTML = sampleList.size + (((2 : Int) - 0).toNat - 1)
        ∧ s.dom.parentNode s.listHTML = none
        ∧ s.dom.parentNode 0 = some sampleList.size
        ∧ s.dom.childNodes sampleList.size = [0]
        ∧ (∀ j, j + 1 < ((2 : Int) - 0).toNat →
            s.dom.parentNode (sampleList.size + j) = some (sampleList.size + j + 1)
            ∧ s.dom.childNodes (sampleList.size + j + 1) = [sampleList.size + j])
        ∧ ancestorAt s.dom ((2 : Int) - 0).toNat 0 = some s.listHTML
        ∧ s.dom.childNodes 0 = sampleList.childNodes 0 :=
  ⟨createElement_fresh "UL", by decide, by decide, by decide, by decide, by decide,
    createNestedList_wraps (createElement "UL") (createElement_fresh "UL") sampleList 0
      (by decide) (by decide) 0 2 (by decide) (by decide) (by decide)⟩

/-! ## The nested list rebuilder, one descending call -/

/-- A call of `createNestedList` that does not go up, between levels in the
safe range: it makes `actualLevel - lastLevel` calls of the factory and returns
a container that many levels below `c`. -/
theorem createNestedList_down (f : Factory) (hf : FreshFactory f) (d : Dom) (c : Nat)
    (hnode : c < d.size) (helem : d.nodeType c = NodeType.element) (hclear : Clear d c)
    (a l : Int) (ha : a < 9007199254740992) (hl : -9007199254740992 < l) (k : Nat)
    (hk : a - l = (k : Int)) :
    ∃ s : ListState, (∀ fuel, k < fuel → createNestedList fuel a l c f d = some s)
      ∧ s.calls = k ∧ s.dom.size = d.size + k
      ∧ ancestorAt s.dom k s.listHTML = some c
      ∧ (k = 0 → s = { dom := d, listHTML := c, lastLevel := l, calls := 0 })
      ∧ (0 < k → s.dom.childNodes c = d.childNodes c ++ [d.size]
          ∧ s.dom.parentNode d.size = some c
          ∧ s.listHTML = d.size + (k - 1) ∧ s.dom.childNodes s.listHTML = [])
      ∧ (∀ j, j + 1 < k → s.dom.childNodes (d.size + j) = [d.size + j + 1]
          ∧ s.dom.parentNode (d.size + j + 1) = some (d.size + j))
      ∧ (∀ m, m < d.size → m ≠ c → s.dom.childNodes m = d.childNodes m)
      ∧ (∀ m, m < d.size → s.dom.parentNode m = d.parentNode m)
      ∧ (∀ m, m < d.size → s.dom.nodeType m = d.nodeType m)
      ∧ s.dom.nodeType s.listHTML = NodeType.element
      ∧ Clear s.dom s.listHTML
      ∧ (∀ j, j < k → s.dom.nodeType (d.size + j) = NodeType.element) := by
  obtain ⟨s1, h1, h2, h3, h4, h5, h6, h7, h8, h9, h10, h11, h12, h13⟩ := descend_total f hf a ha k
    { dom := d, listHTML := c, lastLevel := l, calls := 0 } hk hnode hl helem hclear
  simp only [] at h3 h4 h5 h6 h7 h8 h9 h10 h13
  refine ⟨s1, fun fuel hfuel => ?_, by omega, h4, ?_, h5, h6, h7, h8, h9, h10, h11, h12, h13⟩
  · obtain ⟨n, rfl⟩ : ∃ n, fuel = n + 1 := ⟨fuel - 1, by omega⟩
    simp only [createNestedList, h1 (n + 1) hfuel]
    exact ascend_done f a n s1 (by omega)
  · rcases Nat.eq_zero_or_pos k with hk0 | hk0
    · rw [h5 hk0, hk0]; rfl
    · obtain ⟨_, g2, g3, _⟩ := h6 hk0
      have := ancestorAt_chain s1.dom d.size c k g2 (fun j hj => (h7 j hj).2) (k - 1) (by omega)
      rw [g3]
      rw [show k - 1 + 1 = k by omega] at this
      exact this

theorem createNestedList_stalls (f : Factory) (a l : Int) (c : Nat) (d : Dom)
    (ha : 9007199254740992 < a) (h0 : 0 ≤ l) (h1 : l ≤ 9007199254740992) (fuel : Nat) :
    createNestedList fuel a l c f d = none := by
  simp only [createNestedList]
  rw [descend_stalls f a ha fuel _ h0 h1]

/-- C10, the counterexample: on the document with the single container `L0`,
`createNestedList(2 ^ 53 + 2, 2 ^ 53, L0, f)` never returns, whatever the
fuel: the levels are doubles, `lastLevel++` gives `2 ^ 53` again, and the loop
goes on creating containers, where levels two apart ask for two calls of the
factory. -/
theorem createNestedList_descends_forever :
    incDouble 9007199254740992 = 9007199254740992
      ∧ ¬ ∃ s, Terminates
          (fun fuel => createNestedList fuel 9007199254740994 9007199254740992 0
            (createElement "UL") sampleList) s := by
  refine ⟨incDouble_stalls.2, ?_⟩
  rintro ⟨s, N, hN⟩
  have h := hN N (le_refl _)
  simp only [] at h
  rw [createNestedList_stalls _ _ _ _ _ (by decide) (by decide) (by decide)] at h
  cases h

/-- C10, amended. For all integer levels in the safe range (of absolute value
below `2 ^ 53`) with `actualLevel > lastLevel`, every factory returning fresh
empty parentless containers and every container `listHTML` of a document whose
parent references lead to nodes of the document, `createNestedList(actualLevel,
lastLevel, listHTML, createListFn)` returns as soon as the fuel exceeds
`actualLevel - lastLevel`; it calls the factory exactly `actualLevel -
lastLevel` times (the new containers are the nodes `d.size`, `d.size + 1`, and
so on); the first new container is appended as the last child of `listHTML`,
each further one is the only child of the one before; and the returned
container is the innermost new one, which has no children and lies exactly
`actualLevel - lastLevel` levels below `listHTML`. -/
theorem createNestedList_descends (createListFn : Factory) (hfresh : FreshFactory createListFn)
    (d : Dom) (hgrounded : Grounded d) (listHTML : Nat) (hnode : listHTML < d.size)
    (helem : d.nodeType listHTML = NodeType.element) (actualLevel lastLevel : Int)
    (hlt : actualLevel > lastLevel) (hsafe1 : SafeLevel actualLevel)
    (hsafe2 : SafeLevel lastLevel) :
    ∃ s : ListState,
      (∀ fuel, (actualLevel - lastLevel).toNat < fuel →
        createNestedList fuel actualLevel lastLevel listHTML createListFn d = some s)
      ∧ s.calls = (actualLevel - lastLevel).toNat
      ∧ s.dom.size = d.size + (actualLevel - lastLevel).toNat
      ∧ s.dom.childNodes listHTML = d.childNodes listHTML ++ [d.size]
      ∧ s.dom.parentNode d.size = some listHTML
      ∧ (∀ j, j + 1 < (actualLevel - lastLevel).toNat →
          s.dom.childNodes (d.size + j) = [d.size + j + 1]
          ∧ s.dom.parentNode (d.size + j + 1) = some (d.size + j))
      ∧ s.listHTML = d.size + ((actualLevel - lastLevel).toNat - 1)
      ∧ s.dom.childNodes s.listHTML = []
      ∧ ancestorAt s.dom (actualLevel - lastLevel).toNat s.listHTML = some listHTML := by
  have hk : actualLevel - lastLevel = (((actualLevel - lastLevel).toNat : Nat) : Int) := by omega
  have hpos : 0 < (actualLevel - lastLevel).toNat := by omega
  generalize (actualLevel - lastLevel).toNat = k at hk hpos
  obtain ⟨s, h1, h2, h3, h4, _, h6, h7, _⟩ := createNestedList_down createListFn hfresh d listHTML
    hnode helem (clear_of_grounded d listHTML hgrounded hnode) actualLevel lastLevel hsafe1.2
    hsafe2.1 k hk
  obtain ⟨g1, g2, g3, g4⟩ := h6 hpos
  exact ⟨s, h1, h2, h3, g1, g2, h7, g3, g4, h4⟩

theorem sampleList_grounded : Grounded sampleList := by
  intro m p h
  have : sampleList.parentNode m = none := by
    show Function.update _ _ _ _ = _
    by_cases hm : m = 0
    · subst hm; rfl
    · rw [Function.update_noteq (by simpa [Dom.empty] using hm)]; rfl
  rw [this] at h
  cases h

/-- Witness of the amended C10: levels 2 and 0 on the document with the single
container `L0`. -/
theorem createNestedList_descends_witness :
    FreshFactory (createElement "UL") ∧ Grounded sampleList ∧ 0 < sampleList.size
      ∧ sampleList.nodeType 0 = NodeType.element ∧ (2 : Int) > 0
      ∧ SafeLevel 2 ∧ SafeLevel 0
      ∧ ∃ s : ListState,
        (∀ fuel, ((2 : Int) - 0).toNat < fuel →
          createNestedList fuel 2 0 0 (createElement "UL") sampleList = some s)
        ∧ s.calls = ((2 : Int) - 0).toNat
        ∧ s.dom.size = sampleList.size + ((2 : Int) - 0).toNat
        ∧ s.dom.childNodes 0 = sampleList.childNodes 0 ++ [sampleList.size]
        ∧ s.dom.parentNode sampleList.size = some 0
        ∧ (∀ j, j + 1 < ((2 : Int) - 0).toNat →
            s.dom.childNodes (sampleList.size + j) = [sampleList.size + j + 1]
            ∧ s.dom.parentNode (sampleList.size + j + 1) = some (sampleList.size + j))
        ∧ s.listHTML = sampleList.size + (((2 : Int) - 0).toNat - 1)
        ∧ s.dom.childNodes s.listHTML = []
        ∧ ancestorAt s.dom ((2 : Int) - 0).toNat s.listHTML = some 0 :=
  ⟨createElement_fresh "UL", sampleList_grounded, by decide, by decide, by decide, by decide,
    by decide,
    createNestedList_descends (createElement "UL") (createElement_fresh "UL") sampleList
      sampleList_grounded 0 (by decide) (by decide) 2 0 (by decide) (by decide) (by decide)⟩

/-! ## The nested list rebuilder, call after call -/

theorem chainIn_lt (d : Dom) (root : Nat) : ∀ (k c : Nat), ChainIn d root k c → c < d.size
  | 0, _, h => h.2.1
  | _ + 1, _, h => h.1

theorem chainIn_element (d : Dom) (root : Nat) :
    ∀ (k c : Nat), ChainIn d root k c → d.nodeType c = NodeType.element
  | 0, _, h => h.2.2
  | _ + 1, _, h => h.2.1

theorem chainIn_root_lt (d : Dom) (root : Nat) :
    ∀ (k c : Nat), ChainIn d root k c → root < d.size := by
  intro k
  induction k with
  | zero => intro c h; exact h.1 ▸ h.2.1
  | succ k ih =>
    intro c h
    obtain ⟨_, _, p, _, hp⟩ := h
    exact ih p hp

theorem chainIn_ancestor (d : Dom) (root : Nat) :
    ∀ (k c : Nat), ChainIn d root k c → ancestorAt d k c = some root := by
  intro k
  induction k with
  | zero => intro c h; rw [ancestorAt, h.1]
  | succ k ih =>
    intro c h
    obtain ⟨_, _, p, hp, hch⟩ := h
    rw [ancestorAt, hp]
    exact ih p hch

theorem chainIn_mono (d d1 : Dom) (root : Nat) (hsz : d.size ≤ d1.size)
    (hpar : ∀ m, m < d.size → d1.parentNode m = d.parentNode m)
    (hty : ∀ m, m < d.size → d1.nodeType m = d.nodeType m) :
    ∀ (k c : Nat), ChainIn d root k c → ChainIn d1 root k c := by
  intro k
  induction k with
  | zero =>
    intro c h
    exact ⟨h.1, by have := h.2.1; omega, by rw [hty c h.2.1]; exact h.2.2⟩
  | succ k ih =>
    intro c h
    obtain ⟨hc, he, p, hp, hch⟩ := h
    exact ⟨by omega, by rw [hty c hc]; exact he, p, by rw [hpar c hc]; exact hp, ih p hch⟩

/-- Going up `j` levels from a container `l` levels below the root leads to
a container `l - j` levels below the root. -/
theorem chainIn_up (d : Dom) (root : Nat) :
    ∀ (j l c : Nat), j ≤ l → ChainIn d root l c →
      ∃ top, ancestorAt d j c = some top ∧ ChainIn d root (l - j) top := by
  intro j
  induction j with
  | zero => intro l c _ h; exact ⟨c, rfl, h⟩
  | succ j ih =>
    intro l c hjl h
    obtain ⟨l1, rfl⟩ : ∃ l1, l = l1 + 1 := ⟨l - 1, by omega⟩
    obtain ⟨_, _, p, hp, hch⟩ := h
    obtain ⟨top, h1, h2⟩ := ih l1 p (by omega) hch
    refine ⟨top, ?_, ?_⟩
    · rw [ancestorAt, hp]; exact h1
    · rw [show l1 + 1 - (j + 1) = l1 - j by omega]; exact h2

/-- The new containers of a descent lie below the root, one level deeper each. -/
theorem chainIn_down (d d1 : Dom) (root l c k : Nat) (hch : ChainIn d root l c)
    (hsz : d1.size = d.size + k)
    (hpar : ∀ m, m < d.size → d1.parentNode m = d.parentNode m)
    (hty : ∀ m, m < d.size → d1.nodeType m = d.nodeType m)
    (hnew : ∀ j, j < k → d1.nodeType (d.size + j) = NodeType.element)
    (h0 : d1.parentNode d.size = some c)
    (h : ∀ j, j + 1 < k → d1.parentNode (d.size + j + 1) = some (d.size + j)) :
    ∀ j, j < k → ChainIn d1 root (l + j + 1) (d.size + j) := by
  intro j
  induction j with
  | zero =>
    intro hj
    exact ⟨by omega, hnew 0 hj, c, h0, chainIn_mono d d1 root (by omega) hpar hty l c hch⟩
  | succ j ih =>
    intro hj
    exact ⟨by omega, hnew (j + 1) hj, d.size + j, h j (by omega), ih (by omega)⟩

/-- Below a root without parent, no node that is yet to be created is among
the ancestors of a container of the chain. -/
theorem chainIn_clear (d : Dom) (root : Nat) (hroot : d.parentNode root = none) :
    ∀ (l c : Nat), ChainIn d root l c → Clear d c := by
  intro l
  induction l with
  | zero =>
    intro c h t ht n
    obtain ⟨rfl, hc, _⟩ := h
    exact isInclusiveAncestor_parentless d c t hroot (by omega) n
  | succ l ih =>
    intro c h t ht n
    obtain ⟨hc, _, p, hp, hch⟩ := h
    have hct : c ≠ t := by omega
    cases n with
    | zero => simpa [isInclusiveAncestor] using hct
    | succ n => simp [isInclusiveAncestor, hp, hct, ih p hch t ht n]

/-- One call of `createNestedList` from a container `l` levels below the
root to level `a`, both in the safe range: it returns a container `a` levels
below the root, and the parent references of the nodes that were there before
are unchanged. -/
theorem createNestedList_level (f : Factory) (hf : FreshFactory f) (root : Nat) (d : Dom)
    (c l a : Nat) (hch : ChainIn d root l c) (hroot : d.parentNode root = none)
    (hl : l < 9007199254740992) (ha : a < 9007199254740992) :
    ∃ s : ListState,
      (∀ fuel, a + l < fuel → createNestedList fuel (a : Int) (l : Int) c f d = some s)
      ∧ ChainIn s.dom root a s.listHTML
      ∧ (∀ m, m < d.size → s.dom.parentNode m = d.parentNode m) := by
  rcases Nat.lt_or_ge l a with hlt | hge
  · obtain ⟨s1, h1, _, h3, _, _, h6, h7, _, h9, h10, _, _, h13⟩ := createNestedList_down f hf d c
      (chainIn_lt d root l c hch) (chainIn_element d root l c hch)
      (chainIn_clear d root hroot l c hch) (a : Int) (l : Int) (by omega) (by omega) (a - l)
      (by omega)
    obtain ⟨_, g2, g3, _⟩ := h6 (by omega)
    refine ⟨s1, fun fuel hfuel => h1 fuel (by omega), ?_, h9⟩
    have := chainIn_down d s1.dom root l c (a - l) hch h3 h9 h10 h13 g2 (fun j hj => (h7 j hj).2)
      (a - l - 1) (by omega)
    rw [g3]
    rw [show l + (a - l - 1) + 1 = a by omega] at this
    exact this
  · obtain ⟨top, h1, h2⟩ := chainIn_up d root (l - a) l c (by omega) hch
    rw [show l - (l - a) = a by omega] at h2
    refine ⟨{ dom := d, listHTML := top, lastLevel := (a : Int), calls := 0 },
      fun fuel hfuel => ?_, h2, fun _ _ => rfl⟩
    obtain ⟨n, rfl⟩ : ∃ n, fuel = n + 1 := ⟨fuel - 1, by omega⟩
    rw [createNestedList_no_descent f d c (a : Int) (l : Int) (by omega) n]
    exact ascend_up f (a : Int) (by omega) (l - a)
      { dom := d, listHTML := c, lastLevel := (l : Int), calls := 0 } top
      (by simp only []; omega) (by simp only []; omega) h1 (n + 1) (by omega)

/-- The calls for a sequence of levels in the safe range, started at a
container `l` levels below a root without parent: every call returns a
container at the depth of its level below the root, and the root keeps being
without parent. -/
theorem applyLevels_depth (f : Factory) (hf : FreshFactory f) (root : Nat) :
    ∀ (levels : List Nat) (l c : Nat) (d : Dom), ChainIn d root l c →
      d.parentNode root = none → l < 9007199254740992 →
      (∀ level, level ∈ levels → level < 9007199254740992) →
      ∃ states, Terminates
          (fun fuel => applyLevels f fuel (levels.map (fun n => (n : Int))) (l : Int) c d) states
        ∧ List.Forall₂ (fun (level : Nat) (s : ListState) =>
            ancestorAt s.dom level s.listHTML = some root ∧ s.dom.parentNode root = none)
          levels states := by
  intro levels
  induction levels with
  | nil =>
    intro l c d _ _ _ _
    exact ⟨[], ⟨0, fun fuel _ => rfl⟩, List.Forall₂.nil⟩
  | cons a as ih =>
    intro l c d hch hpar hl hsafe
    have ha := hsafe a (List.mem_cons_self a as)
    obtain ⟨s, h1, h2, h3⟩ := createNestedList_level f hf root d c l a hch hpar hl ha
    have hroot : s.dom.parentNode root = none := by
      rw [h3 root (chainIn_root_lt d root l c hch)]; exact hpar
    obtain ⟨rest, ⟨N, hN⟩, hall⟩ := ih a s.listHTML s.dom h2 hroot ha
      (fun x hx => hsafe x (List.mem_cons_of_mem a hx))
    refine ⟨s :: rest, ⟨max (a + l + 1) N, fun fuel hfuel => ?_⟩,
      List.Forall₂.cons ⟨chainIn_ancestor s.dom root a s.listHTML h2, hroot⟩ hall⟩
    have e1 := h1 fuel (by omega)
    have e2 : applyLevels f fuel (as.map (fun n => (n : Int))) (a : Int) s.listHTML s.dom
        = some rest := hN fuel (by omega)
    show applyLevels f fuel ((a : Int) :: as.map (fun n => (n : Int))) (l : Int) c d
      = some (s :: rest)
    simp only [applyLevels, e1, e2]

/-- C11, the counterexample: on the document with the single container `L0`,
a root without parent, the first call for the sequence of levels that consists
of `2 ^ 53 + 2` never returns, whatever the fuel: the levels are doubles and
the counter `lastLevel` of the first loop stops at `2 ^ 53`. -/
theorem applyLevels_never_returns :
    sampleList.parentNode 0 = none
      ∧ ¬ ∃ states, Terminates
          (fun fuel => applyLevels (createElement "UL") fuel [9007199254740994] 0 0 sampleList)
          states := by
  refine ⟨by decide, ?_⟩
  rintro ⟨states, N, hN⟩
  have h := hN N (le_refl _)
  simp only [applyLevels] at h
  rw [createNestedList_stalls _ _ _ _ _ (by decide) (by decide) (by decide)] at h
  cases h

/-- C11, amended. For every factory returning fresh empty parentless
containers, every root container of the document without parent and every
finite sequence of non-negative levels in the safe range (below `2 ^ 53`): the
calls of `createNestedList` for the sequence, started at the root with level 0,
each entered with the level and the returned container of the call before, all
return; the container returned by each call lies at a depth below the original
root equal to the level of that call (going up that many times along the parent
references leads to the root); and after each call the root still has no
parent, no wrapper has been created around it. -/
theorem createNestedList_keeps_depth (createListFn : Factory)
    (hfresh : FreshFactory createListFn) (d : Dom) (root : Nat) (hnode : root < d.size)
    (helem : d.nodeType root = NodeType.element) (hpar : d.parentNode root = none)
    (levels : List Nat) (hsafe : ∀ level, level ∈ levels → level < 9007199254740992) :
    ∃ states : List ListState,
      Terminates
        (fun fuel => applyLevels createListFn fuel (levels.map (fun n => (n : Int))) 0 root d)
        states
      ∧ List.Forall₂ (fun (level : Nat) (s : ListState) =>
          ancestorAt s.dom level s.listHTML = some root ∧ s.dom.parentNode root = none)
        levels states :=
  applyLevels_depth createListFn hfresh root levels 0 root d ⟨rfl, hnode, helem⟩ hpar
    (by decide) hsafe

/-- Witness of the amended C11: the levels 1, 3, 0, 2 on the document with the
single container `L0`. -/
theorem createNestedList_keeps_depth_witness :
    FreshFactory (createElement "UL") ∧ 0 < sampleList.size
      ∧ sampleList.nodeType 0 = NodeType.element ∧ sampleList.parentNode 0 = none
      ∧ (∀ level, level ∈ [1, 3, 0, 2] → level < 9007199254740992)
      ∧ ∃ states : List ListState,
        Terminates
          (fun fuel => applyLevels (createElement "UL") fuel
            ([1, 3, 0, 2].map (fun n => (n : Int))) 0 0 sampleList)
          states
        ∧ List.Forall₂ (fun (level : Nat) (s : ListState) =>
            ancestorAt s.dom level s.listHTML = some 0 ∧ s.dom.parentNode 0 = none)
          [1, 3, 0, 2] states :=
  ⟨createElement_fresh "UL", by decide, by decide, by decide, by decide,
    createNestedList_keeps_depth (createElement "UL") (createElement_fresh "UL") sampleList 0
      (by decide) (by decide) (by decide) [1, 3, 0, 2] (by decide)⟩

/-! ## The nested list rebuilder, down and up again -/

/-- A call of `createNestedList` that does not go down, on a container that
has its ancestors, between levels in the safe range: it returns the ancestor
`lastLevel - actualLevel` levels above, makes no call of the factory and leaves
the store as it is. -/
theorem createNestedList_up (f : Factory) (d : Dom) (c : Nat) (a l : Int)
    (ha : -9007199254740992 < a) (hl : l < 9007199254740992) (k : Nat)
    (hk : l - a = (k : Int)) (top : Nat) (hanc : ancestorAt d k c = some top) :
    ∀ fuel, k < fuel →
      createNestedList fuel a l c f d
        = some { dom := d, listHTML := top, lastLevel := a, calls := 0 } := by
  intro fuel hfuel
  obtain ⟨n, rfl⟩ : ∃ n, fuel = n + 1 := ⟨fuel - 1, by omega⟩
  rw [createNestedList_no_descent f d c a l (by omega) n]
  exact ascend_up f a ha k { dom := d, listHTML := c, lastLevel := l, calls := 0 } top hk hl hanc
    (n + 1) hfuel

/-- C12, the counterexample: on the document with the single container `L0`,
for the levels `k = 2 ^ 53 + 2` and `l = 2 ^ 53` the descending call
`createNestedList(k, l, L0, f)` never returns, whatever the fuel, so there is
no container to ascend from: the levels are doubles and `lastLevel++` makes no
progress from `2 ^ 53`. -/
theorem createNestedList_round_trip_stalls :
    ((9007199254740994 : Int) ≥ 9007199254740992)
      ∧ ¬ ∃ s1 s2 : ListState,
          Terminates
            (fun fuel => createNestedList fuel 9007199254740994 9007199254740992 0
              (createElement "UL") sampleList) s1
          ∧ Terminates
            (fun fuel => createNestedList fuel 9007199254740992 9007199254740994 s1.listHTML
              (createElement "UL") s1.dom) s2 := by
  refine ⟨by decide, ?_⟩
  rintro ⟨s1, s2, ⟨N, hN⟩, _⟩
  have h := hN N (le_refl _)
  simp only [] at h
  rw [createNestedList_stalls _ _ _ _ _ (by decide) (by decide) (by decide)] at h
  cases h

/-- C12, amended. For every factory returning fresh empty parentless
containers, every container `c` of a document whose parent references lead to
nodes of the document, and all integer levels `k >= l` in the safe range (of
absolute value below `2 ^ 53`): the descending call `createNestedList(k, l, c,
f)` returns, after `k - l` calls of the factory, and the ascending call
`createNestedList(l, k, ·, f)` on the container it returned returns `c` itself,
invokes the factory zero times and leaves the store as the descending call left
it.  And the calls for the level sequence 0, 1, 2, 1, 0, started at `c`,
return: the calls to the levels 1 and 2 create one container each, the others
none, two in total; the first new container is the last child of `c`, the
second the only child of the first and without children; the last two calls
return the first new container and `c`. -/
theorem createNestedList_round_trip (f : Factory) (hfresh : FreshFactory f) (d : Dom)
    (hgrounded : Grounded d) (c : Nat) (hnode : c < d.size)
    (helem : d.nodeType c = NodeType.element) (k l : Int) (hkl : k ≥ l)
    (hsafe1 : SafeLevel k) (hsafe2 : SafeLevel l) :
    (∃ s1 s2 : ListState,
      Terminates (fun fuel => createNestedList fuel k l c f d) s1
      ∧ Terminates (fun fuel => createNestedList fuel l k s1.listHTML f s1.dom) s2
      ∧ s1.calls = (k - l).toNat
      ∧ s2.listHTML = c ∧ s2.calls = 0 ∧ s2.dom = s1.dom)
    ∧ (∃ s1 s2 : ListState,
      Terminates (fun fuel => applyLevels f fuel [0, 1, 2, 1, 0] 0 c d)
        [{ dom := d, listHTML := c, lastLevel := 0, calls := 0 }, s1, s2,
         { dom := s2.dom, listHTML := d.size, lastLevel := 1, calls := 0 },
         { dom := s2.dom, listHTML := c, lastLevel := 0, calls := 0 }]
      ∧ s1.calls = 1 ∧ s2.calls = 1 ∧ s2.dom.size = d.size + 2
      ∧ s1.listHTML = d.size ∧ s2.listHTML = d.size + 1
      ∧ s2.dom.childNodes c = d.childNodes c ++ [d.size]
      ∧ s2.dom.parentNode d.size = some c
      ∧ s2.dom.childNodes d.size = [d.size + 1]
      ∧ s2.dom.parentNode (d.size + 1) = some d.size
      ∧ s2.dom.childNodes (d.size + 1) = []) := by
  have hclear := clear_of_grounded d c hgrounded hnode
  constructor
  · have hk : k - l = (((k - l).toNat : Nat) : Int) := by omega
    generalize (k - l).toNat = n at hk
    obtain ⟨s1, h1, h2, _, h4, _⟩ := createNestedList_down f hfresh d c hnode helem hclear k l
      hsafe1.2 hsafe2.1 n hk
    refine ⟨s1, { dom := s1.dom, listHTML := c, lastLevel := l, calls := 0 },
      ⟨n + 1, fun fuel hfuel => h1 fuel (by omega)⟩,
      ⟨n + 1, fun fuel hfuel =>
        createNestedList_up f s1.dom s1.listHTML l k hsafe2.1 hsafe1.2 n hk c h4 fuel (by omega)⟩,
      h2, rfl, rfl, rfl⟩
  · obtain ⟨s1, a1, a2, a3, _, _, a6, _, _, a8, _, a11, a12, _⟩ :=
      createNestedList_down f hfresh d c hnode helem hclear 1 0 (by decide) (by decide) 1
        (by omega)
    obtain ⟨b1, b2, b3, b4⟩ := a6 (by omega)
    have hb3 : s1.listHTML = d.size := by rw [b3]; omega
    rw [hb3] at b4 a11 a12
    obtain ⟨s2, c1, c2, c3, _, _, c6, _, c7, c8, _⟩ :=
      createNestedList_down f hfresh s1.dom d.size (by omega) a11 a12 2 1 (by decide)
        (by decide) 1 (by omega)
    obtain ⟨e1, e2, e3, e4⟩ := c6 (by omega)
    rw [a3] at c3 e1 e2 e3 c7 c8
    have he3 : s2.listHTML = d.size + 1 := by rw [e3]
    rw [he3] at e4
    rw [b4] at e1
    have hpc : s2.dom.parentNode d.size = some c := by rw [c8 d.size (by omega), b2]
    have hcc : s2.dom.childNodes c = d.childNodes c ++ [d.size] := by
      rw [c7 c (by omega) (by omega), b1]
    have u0 := createNestedList_up f d c 0 0 (by decide) (by decide) 0 (by omega) c rfl
    have u3 := createNestedList_up f s2.dom (d.size + 1) 1 2 (by decide) (by decide) 1
      (by omega) d.size (by simp [ancestorAt, e2])
    have u4 := createNestedList_up f s2.dom d.size 0 1 (by decide) (by decide) 1 (by omega) c
      (by simp [ancestorAt, hpc])
    refine ⟨s1, s2, ⟨2, fun fuel hfuel => ?_⟩, a2, c2, by omega, hb3, he3, hcc, hpc,
      by simpa using e1, e2, e4⟩
    have v0 := u0 fuel (by omega)
    have v1 := a1 fuel (by omega)
    have v2 := c1 fuel (by omega)
    have v3 := u3 fuel (by omega)
    have v4 := u4 fuel (by omega)
    simp only [applyLevels, v0, v1, hb3, v2, he3, v3, v4]

/-- Witness of the amended C12: the levels 2 and 0 on the document with the
single container `L0`. -/
theorem createNestedList_round_trip_witness :
    FreshFactory (createElement "UL") ∧ Grounded sampleList ∧ 0 < sampleList.size
    ∧ sampleList.nodeType 0 = NodeType.element ∧ (2 : Int) ≥ 0 ∧ SafeLevel 2 ∧ SafeLevel 0
    ∧ (∃ s1 s2 : ListState,
      Terminates (fun fuel => createNestedList fuel 2 0 0 (createElement "UL") sampleList) s1
      ∧ Terminates
          (fun fuel => createNestedList fuel 0 2 s1.listHTML (createElement "UL") s1.dom) s2
      ∧ s1.calls = ((2 : Int) - 0).toNat
      ∧ s2.listHTML = 0 ∧ s2.calls = 0 ∧ s2.dom = s1.dom)
    ∧ (∃ s1 s2 : ListState,
      Terminates (fun fuel => applyLevels (createElement "UL") fuel [0, 1, 2, 1, 0] 0 0 sampleList)
        [{ dom := sampleList, listHTML := 0, lastLevel := 0, calls := 0 }, s1, s2,
         { dom := s2.dom, listHTML := sampleList.size, lastLevel := 1, calls := 0 },
         { dom := s2.dom, listHTML := 0, lastLevel := 0, calls := 0 }]
      ∧ s1.calls = 1 ∧ s2.calls = 1 ∧ s2.dom.size = sampleList.size + 2
      ∧ s1.listHTML = sampleList.size ∧ s2.listHTML = sampleList.size + 1
      ∧ s2.dom.childNodes 0 = sampleList.childNodes 0 ++ [sampleList.size]
      ∧ s2.dom.parentNode sampleList.size = some 0
      ∧ s2.dom.childNodes sampleList.size = [sampleList.size + 1]
      ∧ s2.dom.parentNode (sampleList.size + 1) = some sampleList.size
      ∧ s2.dom.childNodes (sampleList.size + 1) = []) :=
  ⟨createElement_fresh "UL", sampleList_grounded, by decide, by decide, by decide, by decide,
    by decide,
    createNestedList_round_trip (createElement "UL") (createElement_fresh "UL") sampleList
      sampleList_grounded 0 (by decide) (by decide) 2 0 (by decide) (by decide) (by decide)⟩

/-! ## Termination of the cleaner -/

/-- C19. For every finite element tree, `cleanElement` terminates: the
unwrapping pass of the walker returns, although the walker holds its index
after each unwrap; the attribute pass of the walker returns; the loop over the
direct children returns, although it goes back to the previous kept sibling, or
to the first child, after every unwrap; and so `cleanElement` returns. -/
theorem cleanElement_terminates (P : Predicates) (d : Dom) (tree : Shape)
    (htree : IsTree d tree) :
    ∃ d2 d3 d4,
      Terminates
        (fun fuel => unwrapDescendants fuel isSpanOrFont tree.id (removeAllAttributes d tree.id))
        d2
      ∧ Terminates (fun fuel => walkDescendants fuel isNotImgOrA stripAction tree.id d2) d3
      ∧ Terminates (fun fuel => cleanChildren P fuel d3 tree.id (firstChild d3 tree.id) none) d4
      ∧ Terminates (fun fuel => cleanElement P fuel tree.id d) d4 := by
  obtain ⟨e, ks⟩ := tree
  simp only [Shape.id]
  obtain ⟨d4, ks2, ks4, hT, _, _, _, _, _, _, _, _, _, _, _, d2, d3, h2, h3, h4⟩ :=
    cleanElement_spec P d e ks htree
  exact ⟨d2, d3, d4, h2, h3, h4, hT⟩

/-- Witness of C19 on the document `sampleHello`, where the unwrapping pass
unwraps the `SPAN` and holds its index, and the loop over the children unwraps
the empty `B` and goes back to the text before it. -/
theorem cleanElement_terminates_witness :
    IsTree (document sampleHello) sampleHelloShape
      ∧ ∃ d2 d3 d4,
        Terminates
          (fun fuel => unwrapDescendants fuel isSpanOrFont sampleHelloShape.id
            (removeAllAttributes (document sampleHello) sampleHelloShape.id)) d2
        ∧ Terminates
            (fun fuel => walkDescendants fuel isNotImgOrA stripAction sampleHelloShape.id d2) d3
        ∧ Terminates
            (fun fuel => cleanChildren htmlPredicates fuel d3 sampleHelloShape.id
              (firstChild d3 sampleHelloShape.id) none) d4
        ∧ Terminates
            (fun fuel => cleanElement htmlPredicates fuel sampleHelloShape.id
              (document sampleHello)) d4 :=
  ⟨by decide!,
    cleanElement_terminates htmlPredicates (document sampleHello) sampleHelloShape (by decide!)⟩

/-! ## The direct children after cleaning -/

theorem mem_roots (ks : List Shape) (c : Nat) (h : c ∈ roots ks) : ∃ s, s ∈ ks ∧ s.id = c := by
  obtain ⟨s, hs, rfl⟩ := List.mem_map.1 h
  exact ⟨s, hs, rfl⟩

/-- Every node of the original forest that `cleanElement` took out is a
`SPAN`, a `FONT` or a text-level semantic element that is not void. -/
theorem removable_of_gone (P : Predicates) (d : Dom) (ks ks2 ks4 : List Shape)
    (h1 : ∀ m, m ∈ idsList ks → m ∉ idsList ks2 → isSpanOrFont d m = true)
    (h2 : ∀ m, m ∈ idsList ks2 → m ∉ idsList ks4 → Removable P d m) :
    ∀ m, m ∈ idsList ks → m ∉ idsList ks4 → Removable P d m := by
  intro m hm hn
  by_cases h : m ∈ idsList ks2
  · exact h2 m h hn
  · exact Or.inl (h1 m hm h)

/-- C14. For every element tree, `cleanElement(element)` returns, and then no
direct child of the element is named `SPAN` or `FONT`, and no direct child is a
text-level semantic element that is not void and whose trimmed text content is
empty (the length `hasText` returns for it is not zero); the descendants of the
element after the call are descendants it had before, in their former order,
and every descendant that is gone is a `SPAN`, a `FONT` or a text-level
semantic element that is not void: the children of such a node have taken its
place.  On `<p><span style="color:red">Hello</span> <b></b>World</p>` the
result is a `P` whose children are the texts `Hello`, a blank and `World`, with
no `SPAN` and no `B`. -/
theorem cleanElement_unwraps_children (P : Predicates) (d : Dom) (tree : Shape)
    (htree : IsTree d tree) :
    (∃ d1 before after,
      Terminates (fun fuel => cleanElement P fuel tree.id d) d1
      ∧ (∀ c, c ∈ d1.childNodes tree.id →
          d1.nodeName c ≠ "SPAN" ∧ d1.nodeName c ≠ "FONT"
          ∧ ∃ n, Terminates (fun fuel => hasText fuel d1 c) n
            ∧ (P.isTextLevelSemanticNode (d1.nodeName c) = true →
                P.isVoidNode (d1.nodeName c) = false → n ≠ 0))
      ∧ Terminates (fun fuel => descendants fuel d tree.id) before
      ∧ Terminates (fun fuel => descendants fuel d1 tree.id) after
      ∧ after.Sublist before
      ∧ (∀ m, m ∈ before → m ∉ after → Removable P d m))
    ∧ (cleanElement htmlPredicates 20 0 (document sampleHello)).bind (fun d1 => toHtml 20 d1 0)
      = some (Html.elem "P" [] [Html.text "Hello", Html.text " ", Html.text "World"]) := by
  refine ⟨?_, by decide!⟩
  obtain ⟨e, ks⟩ := tree
  simp only [Shape.id]
  obtain ⟨d4, ks2, ks4, hT, hf4, hsub4, hsub2, _, _, _, _, _, hkept, hg2, hg4, _⟩ :=
    cleanElement_spec P d e ks htree
  refine ⟨d4, idsList ks, idsList ks4, hT, fun c hc => ?_,
    forest_descendants d e ks (isTree_forest d e ks htree), forest_descendants d4 e ks4 hf4,
    hsub4.trans hsub2, removable_of_gone P d ks ks2 ks4 hg2 hg4⟩
  rw [hf4.1] at hc
  obtain ⟨s, hs, rfl⟩ := mem_roots ks4 c hc
  have hin : s.In d4 := ((kidsIn_iff d4 e ks4).1 hf4.2.1 s hs).2
  have hk := hkept s hs
  simp only [shouldUnwrap, Bool.or_eq_false_iff, Bool.and_eq_false_iff, beq_eq_false_iff_ne,
    ne_eq] at hk
  refine ⟨hk.1.1, hk.1.2, utf16Length (trim (s.text d4.nodeType d4.data).data),
    ⟨s.size, fun fuel hf => hasText_eq d4 s hin fuel hf⟩, fun h1 h2 h0 => ?_⟩
  rcases hk.2 with h | h
  · exact h h0
  · rw [h1, h2] at h
    simp at h

/-- Witness of C14 on the document `sampleHello`. -/
theorem cleanElement_unwraps_children_witness :
    IsTree (document sampleHello) sampleHelloShape
    ∧ (∃ d1 before after,
      Terminates
        (fun fuel => cleanElement htmlPredicates fuel sampleHelloShape.id (document sampleHello))
        d1
      ∧ (∀ c, c ∈ d1.childNodes sampleHelloShape.id →
          d1.nodeName c ≠ "SPAN" ∧ d1.nodeName c ≠ "FONT"
          ∧ ∃ n, Terminates (fun fuel => hasText fuel d1 c) n
            ∧ (htmlPredicates.isTextLevelSemanticNode (d1.nodeName c) = true →
                htmlPredicates.isVoidNode (d1.nodeName c) = false → n ≠ 0))
      ∧ Terminates (fun fuel => descendants fuel (document sampleHello) sampleHelloShape.id)
          before
      ∧ Terminates (fun fuel => descendants fuel d1 sampleHelloShape.id) after
      ∧ after.Sublist before
      ∧ (∀ m, m ∈ before → m ∉ after → Removable htmlPredicates (document sampleHello) m))
    ∧ (cleanElement htmlPredicates 20 0 (document sampleHello)).bind (fun d1 => toHtml 20 d1 0)
      = some (Html.elem "P" [] [Html.text "Hello", Html.text " ", Html.text "World"]) :=
  ⟨by decide!,
    cleanElement_unwraps_children htmlPredicates (document sampleHello) sampleHelloShape
      (by decide!)⟩

/-! ## The text of a cleaned element -/

theorem joinText_append (data : Nat → String) (a b : List Nat) :
    joinText data (a ++ b) = joinText data a ++ joinText data b := by
  induction a with
  | nil => simp [joinText]
  | cons x xs ih =>
    simp only [joinText, List.cons_append, List.map_cons, List.foldr_cons] at ih ⊢
    rw [ih, String.append_assoc]

theorem textNodes_append (d : Dom) (a b : List Nat) :
    textNodes d (a ++ b) = textNodes d a ++ textNodes d b := by
  simp [textNodes]

/-- A sublist that lacks only elements on which `p` fails has the same
elements on which `p` holds. -/
theorem filter_sublist_eq {p : Nat → Bool} {l1 l2 : List Nat} (hs : l1.Sublist l2) :
    l2.Nodup → (∀ m, m ∈ l2 → m ∉ l1 → p m = false) → l1.filter p = l2.filter p := by
  induction hs with
  | slnil => intro _ _; rfl
  | @cons l1 l2 a hsub ih =>
    intro hnd hp
    have ha : a ∉ l2 := (List.nodup_cons.1 hnd).1
    have hpa : p a = false := hp a (List.mem_cons_self a l2) (fun h => ha (hsub.subset h))
    rw [List.filter_cons_of_neg (by simp [hpa])]
    exact ih (List.nodup_cons.1 hnd).2 (fun m hm hn => hp m (List.mem_cons_of_mem a hm) hn)
  | @cons₂ l1 l2 a hsub ih =>
    intro hnd hp
    have ha : a ∉ l2 := (List.nodup_cons.1 hnd).1
    have hrec := ih (List.nodup_cons.1 hnd).2 (fun m hm hn => hp m (List.mem_cons_of_mem a hm)
      (fun h => by
        rcases List.mem_cons.1 h with rfl | h1
        · exact ha hm
        · exact hn h1))
    simp only [List.filter_cons, hrec]

mutual
/-- The text content of a subtree is the concatenated character data of its
text nodes, in document order. -/
theorem Shape.text_join (d : Dom) : ∀ (s : Shape), s.In d →
    s.text d.nodeType d.data = joinText d.data (textNodes d s.ids)
  | Shape.mk i ks, h => by
    rw [Shape.in_mk] at h
    rw [Shape.ids_mk]
    simp only [Shape.text, textNodes]
    cases hty : d.nodeType i with
    | text =>
      have hnil : ks = [] := List.length_eq_zero.1 (h.2.1 hty)
      subst hnil
      simp [idsList, hty, joinText]
    | element =>
      have := textList_join d i ks h.2.2
      simp only [textNodes] at this
      simp [hty, this]
/-- The text content of a forest is the concatenated character data of its
text nodes, in document order. -/
theorem textList_join (d : Dom) (p : Nat) : ∀ (ks : List Shape), KidsIn d p ks →
    textList d.nodeType d.data ks = joinText d.data (textNodes d (idsList ks))
  | [], _ => by simp [textList, idsList, textNodes, joinText]
  | k :: ks, h => by
    rw [kidsIn_cons] at h
    rw [textList, idsList, textNodes_append, joinText_append, Shape.text_join d k h.1.2,
      textList_join d p ks h.2]
end

theorem idsList_eq_nil (ks : List Shape) (h : idsList ks = []) : ks = [] := by
  cases ks with
  | nil => rfl
  | cons k ks1 =>
    cases k with
    | mk i ck => simp [idsList, Shape.ids] at h

theorem textNodes_congr (d d1 : Dom) (h : d1.nodeType = d.nodeType) (ns : List Nat) :
    textNodes d1 ns = textNodes d ns := by
  simp [textNodes, h]

/-- C20. For every predicates collaborator that does not take a text node for
a text-level semantic element, and every element tree whose text nodes are
named `#text`: `cleanElement(element)` returns and never loses or reorders
text.  The text nodes among the descendants of the element, in document order,
are the same after the call as before; the character data of every node is
unchanged; and hence the text content of the element is the same after the
call as before. -/
theorem cleanElement_keeps_text (P : Predicates)
    (hP : P.isTextLevelSemanticNode "#text" = false) (d : Dom) (tree : Shape)
    (htree : IsTree d tree)
    (hnames : ∀ n, n ∈ tree.ids → d.nodeType n = NodeType.text → d.nodeName n = "#text") :
    ∃ d1 before after text,
      Terminates (fun fuel => cleanElement P fuel tree.id d) d1
      ∧ Terminates (fun fuel => descendants fuel d tree.id) before
      ∧ Terminates (fun fuel => descendants fuel d1 tree.id) after
      ∧ textNodes d1 after = textNodes d before
      ∧ d1.data = d.data
      ∧ Terminates (fun fuel => getTextContent fuel d tree.id) text
      ∧ Terminates (fun fuel => getTextContent fuel d1 tree.id) text := by
  obtain ⟨e, ks⟩ := tree
  simp only [Shape.id]
  obtain ⟨d4, ks2, ks4, hT, hf4, hsub4, hsub2, hty, _, hdata, _, _, _, hg2, hg4, _⟩ :=
    cleanElement_spec P d e ks htree
  have hf := isTree_forest d e ks htree
  have hin := htree.1
  have hroot : d.nodeType e = NodeType.text → ks.length = 0 := by
    have := hin; rw [Shape.in_mk] at this; exact this.2.1
  have hgone := removable_of_gone P d ks ks2 ks4 hg2 hg4
  have hsame : textNodes d (idsList ks4) = textNodes d (idsList ks) := by
    refine filter_sublist_eq (hsub4.trans hsub2) (List.nodup_cons.1 hf.2.2).2 (fun m hm hn => ?_)
    have hr := hgone m hm hn
    by_contra hc
    have htext : d.nodeType m = NodeType.text := by simpa using hc
    have hname := hnames m (by rw [Shape.ids_mk]; exact List.mem_cons_of_mem e hm) htext
    rcases hr with h | h
    · rw [isSpanOrFont, hname] at h
      revert h
      decide
    · rw [hname, hP] at h
      simp at h
  have hin4 : (Shape.mk e ks4).In d4 := by
    rw [Shape.in_mk]
    refine ⟨hf4.1, fun h => ?_, hf4.2.1⟩
    rw [hty] at h
    have hnil : ks = [] := List.length_eq_zero.1 (hroot h)
    subst hnil
    have h0 : idsList ks4 = [] := by simpa [idsList] using hsub4.trans hsub2
    rw [idsList_eq_nil ks4 h0]
    rfl
  have htext4 : (Shape.mk e ks4).text d4.nodeType d4.data
      = (Shape.mk e ks).text d.nodeType d.data := by
    rw [Shape.text_join d4 _ hin4, Shape.text_join d _ hin, hdata, Shape.ids_mk, Shape.ids_mk,
      textNodes_congr d d4 hty]
    simp only [textNodes, List.filter_cons] at hsame ⊢
    rw [hsame]
  refine ⟨d4, idsList ks, idsList ks4, (Shape.mk e ks).text d.nodeType d.data, hT,
    forest_descendants d e ks hf, forest_descendants d4 e ks4 hf4, ?_, hdata,
    ⟨(Shape.mk e ks).size, fun fuel hfu => Shape.getTextContent_eq d _ hin fuel hfu⟩,
    ⟨(Shape.mk e ks4).size, fun fuel hfu => ?_⟩⟩
  · rw [textNodes_congr d d4 hty]; exact hsame
  · rw [← htext4]
    exact Shape.getTextContent_eq d4 _ hin4 fuel hfu

/-- Witness of C20 on the document `sampleHello`. -/
theorem cleanElement_keeps_text_witness :
    htmlPredicates.isTextLevelSemanticNode "#text" = false
      ∧ IsTree (document sampleHello) sampleHelloShape
      ∧ (∀ n, n ∈ sampleHelloShape.ids → (document sampleHello).nodeType n = NodeType.text →
          (document sampleHello).nodeName n = "#text")
      ∧ ∃ d1 before after text,
        Terminates
          (fun fuel => cleanElement htmlPredicates fuel sampleHelloShape.id
            (document sampleHello)) d1
        ∧ Terminates (fun fuel => descendants fuel (document sampleHello) sampleHelloShape.id)
            before
        ∧ Terminates (fun fuel => descendants fuel d1 sampleHelloShape.id) after
        ∧ textNodes d1 after = textNodes (document sampleHello) before
        ∧ d1.data = (document sampleHello).data
        ∧ Terminates (fun fuel => getTextContent fuel (document sampleHello) sampleHelloShape.id)
            text
        ∧ Terminates (fun fuel => getTextContent fuel d1 sampleHelloShape.id) text :=
  ⟨by decide!, by decide!, by decide!,
    cleanElement_keeps_text htmlPredicates (by decide!) (document sampleHello) sampleHelloShape
      (by decide!) (by decide!)⟩

/-! ## Replacing a node -/

theorem insertLast_moved (d : Dom) (dst c q : Nat) (h : d.parentNode c = some q) :
    insertLast d dst c =
      { d with
        childNodes := Function.update (Function.update d.childNodes q ((d.childNodes q).erase c))
          dst (Function.update d.childNodes q ((d.childNodes q).erase c) dst ++ [c])
        parentNode := Function.update (Function.update d.parentNode c none) c (some dst) } := by
  simp only [insertLast, h, removeChild]

theorem moveChildren_unfold (fuel : Nat) (d : Dom) (src dst c : Nat) (K : List Nat)
    (hK : d.childNodes src = c :: K) :
    moveChildren (fuel + 1) d src dst =
      match appendChild d dst c with
      | none => none
      | some d1 => moveChildren fuel d1 src dst := by
  simp [moveChildren, firstChild, hK]

theorem moveChildren_mono (src dst : Nat) :
    ∀ (n : Nat) (d r : Dom), moveChildren n d src dst = some r →
      ∀ m, n ≤ m → moveChildren m d src dst = some r := by
  intro n
  induction n with
  | zero => intro d r h; simp [moveChildren] at h
  | succ n ih =>
    intro d r h m hm
    obtain ⟨m1, rfl⟩ : ∃ m1, m = m1 + 1 := ⟨m - 1, by omega⟩
    cases hK : d.childNodes src with
    | nil =>
      simp only [moveChildren, firstChild, hK, List.head?_nil] at h ⊢
      exact h
    | cons c K =>
      rw [moveChildren_unfold n d src dst c K hK] at h
      rw [moveChildren_unfold m1 d src dst c K hK]
      cases hd : appendChild d dst c with
      | none => rw [hd] at h; cases h
      | some d1 =>
        rw [hd] at h
        exact ih d1 r h m1 (by omega)

/-- The loop of `copyChildNodes` on a source whose children are distinct and
refer back to it, and a destination that is an element without parent: the host
accepts every insertion, and the children move to the end of the child list of
the destination, in order. -/
theorem moveChildren_spec (src dst : Nat) (hne : dst ≠ src) :
    ∀ (K : List Nat) (d : Dom), d.childNodes src = K → K.Nodup →
      (∀ c, c ∈ K → d.parentNode c = some src) →
      d.parentNode dst = none → d.nodeType dst = NodeType.element →
      ∃ d1, (∀ fuel, K.length < fuel → moveChildren fuel d src dst = some d1)
        ∧ d1.childNodes dst = d.childNodes dst ++ K ∧ d1.childNodes src = []
        ∧ (∀ c, c ∈ K → d1.parentNode c = some dst)
        ∧ (∀ m, m ≠ src → m ≠ dst → d1.childNodes m = d.childNodes m)
        ∧ (∀ m, m ∉ K → d1.parentNode m = d.parentNode m)
        ∧ SameData d d1 ∧ d1.size = d.size := by
  intro K
  induction K with
  | nil =>
    intro d hK _ _ _ _
    refine ⟨d, fun fuel hfuel => ?_, by simp, hK, fun c hc => (by cases hc), fun _ _ _ => rfl,
      fun _ _ => rfl, SameData.data_refl d, rfl⟩
    obtain ⟨n, rfl⟩ : ∃ n, fuel = n + 1 := ⟨fuel - 1, by omega⟩
    simp [moveChildren, firstChild, hK]
  | cons c K ih =>
    intro d hK hnd hpar hdet helem
    have hc := hpar c (List.mem_cons_self c K)
    have hcK : c ∉ K := (List.nodup_cons.1 hnd).1
    have hdc : dst ≠ c := fun e => by
      rw [e, hc] at hdet
      cases hdet
    have hcheck : canInsert d dst c = true := by
      have h2 := isInclusiveAncestor_parentless d dst c hdet hdc d.size
      simp [canInsert, helem, h2]
    have hD := insertLast_moved d dst c src hc
    have e1 : (insertLast d dst c).childNodes src = K := by
      rw [hD]
      show Function.update _ _ _ _ = _
      rw [Function.update_noteq hne.symm, Function.update_same, hK]
      simp
    have e2 : (insertLast d dst c).childNodes dst = d.childNodes dst ++ [c] := by
      rw [hD]
      show Function.update _ _ _ _ = _
      rw [Function.update_same, Function.update_noteq hne]
    have e3 : ∀ m, m ≠ src → m ≠ dst → (insertLast d dst c).childNodes m = d.childNodes m := by
      intro m h1 h2
      rw [hD]
      show Function.update _ _ _ _ = _
      rw [Function.update_noteq h2, Function.update_noteq h1]
    have e4 : (insertLast d dst c).parentNode c = some dst := insertLast_parent d dst c
    have e5 : ∀ m, m ≠ c → (insertLast d dst c).parentNode m = d.parentNode m := by
      intro m h1
      rw [hD]
      show Function.update _ _ _ _ = _
      rw [Function.update_noteq h1, Function.update_noteq h1]
    have e6 : SameData d (insertLast d dst c) := by rw [hD]; exact ⟨rfl, rfl, rfl, rfl⟩
    have e7 : (insertLast d dst c).size = d.size := by rw [hD]
    have hstep : ∀ n, moveChildren (n + 1) d src dst
        = moveChildren n (insertLast d dst c) src dst := by
      intro n
      rw [moveChildren_unfold n d src dst c K hK, appendChild_ok d dst c hcheck]
    generalize insertLast d dst c = D at e1 e2 e3 e4 e5 e6 e7 hstep
    obtain ⟨d1, h1, h2, h3, h4, h5, h6, h7, h8⟩ := ih D e1 (List.nodup_cons.1 hnd).2
      (fun x hx => by
        rw [e5 x (fun e => hcK (e ▸ hx))]
        exact hpar x (List.mem_cons_of_mem c hx))
      (by rw [e5 dst hdc]; exact hdet) (by rw [e6.1]; exact helem)
    refine ⟨d1, fun fuel hfuel => ?_, ?_, h3, fun x hx => ?_, fun m hm1 hm2 => ?_,
      fun m hm => ?_, ?_, by rw [h8, e7]⟩
    · obtain ⟨n, rfl⟩ : ∃ n, fuel = n + 1 := ⟨fuel - 1, by omega⟩
      rw [hstep n]
      exact h1 n (by simp only [List.length_cons] at hfuel; omega)
    · rw [h2, e2]; simp
    · rcases List.mem_cons.1 hx with rfl | hx1
      · rw [h6 x hcK, e4]
      · exact h4 x hx1
    · rw [h5 m hm1 hm2, e3 m hm1 hm2]
    · rw [h6 m (fun h => hm (List.mem_cons_of_mem c h)), e5 m (fun e => hm (by simp [e]))]
    · exact e6.data_trans h7

theorem replaceStep_detached (d : Dom) (p newChild oldChild : Nat)
    (h : d.parentNode newChild = none) :
    replaceStep d p newChild oldChild =
      { d with
        childNodes :=
          Function.update d.childNodes p (spliceAt (d.childNodes p) oldChild [newChild])
        parentNode :=
          Function.update (Function.update d.parentNode oldChild none) newChild (some p) } := by
  simp only [replaceStep, h]

/-- What `replaceNode` does to an element `src` whose children are distinct
and refer back to it, and an element `dst` without parent that is neither `src`
nor `src`'s parent nor above that parent: the host accepts every call. -/
theorem replaceNode_spec (d : Dom) (src dst : Nat) (helem : d.nodeType src = NodeType.element)
    (hne : dst ≠ src) (hdet : d.parentNode dst = none)
    (helemd : d.nodeType dst = NodeType.element) (hnd : (d.childNodes src).Nodup)
    (hpar : ∀ c, c ∈ d.childNodes src → d.parentNode c = some src)
    (hself : src ∉ d.childNodes src)
    (hsib : ∀ p, d.parentNode src = some p → p ≠ src ∧ p ≠ dst ∧ src ∈ d.childNodes p
      ∧ d.nodeType p = NodeType.element
      ∧ ∀ d1 : Dom, (∀ x, x ∉ d.childNodes src → d1.parentNode x = d.parentNode x) →
          ∀ n, isInclusiveAncestor d1 n p dst = false) :
    ∃ d1, Terminates (fun fuel => replaceNode fuel d src dst) d1
      ∧ d1.childNodes dst = d.childNodes dst ++ d.childNodes src
      ∧ d1.childNodes src = []
      ∧ (∀ c, c ∈ d.childNodes src → d1.parentNode c = some dst)
      ∧ (∀ p, d.parentNode src = some p →
          ∃ pre post, d.childNodes p = pre ++ src :: post ∧ src ∉ pre
            ∧ d1.childNodes p = pre ++ dst :: post
            ∧ d1.parentNode dst = some p ∧ d1.parentNode src = none)
      ∧ (d.parentNode src = none → d1.parentNode dst = none ∧ d1.parentNode src = none)
      ∧ (∀ m, m ≠ src → m ≠ dst → d.parentNode src ≠ some m → d1.childNodes m = d.childNodes m)
      ∧ (∀ m, m ∉ d.childNodes src → m ≠ src → m ≠ dst → d1.parentNode m = d.parentNode m)
      ∧ SameData d d1 ∧ d1.size = d.size := by
  obtain ⟨d1, h1, h2, h3, h4, h5, h6, h7, h8⟩ :=
    moveChildren_spec src dst hne (d.childNodes src) d rfl hnd hpar hdet helemd
  have hdk : dst ∉ d.childNodes src := fun h => by
    have := hpar dst h
    rw [hdet] at this
    cases this
  have hps : d1.parentNode src = d.parentNode src := h6 src hself
  have hpd : d1.parentNode dst = none := by rw [h6 dst hdk]; exact hdet
  have hcopy : ∀ fuel, (d.childNodes src).length < fuel →
      copyChildNodes fuel d src dst = some d1 := by
    intro fuel hfuel
    simp only [copyChildNodes, helem]
    exact h1 fuel hfuel
  cases hp : d.parentNode src with
  | none =>
    refine ⟨d1, ⟨(d.childNodes src).length + 1, fun fuel hfuel => ?_⟩, h2, h3, h4,
      fun p hq => (by cases hq), fun _ => ⟨hpd, by rw [hps, hp]⟩, fun m hm1 hm2 _ => h5 m hm1 hm2,
      fun m hm _ _ => h6 m hm, h7, h8⟩
    simp only [replaceNode, hcopy fuel (by omega), hps, hp]
  | some p =>
    obtain ⟨hp1, hp2, hp3, hp4, hp5⟩ := hsib p hp
    obtain ⟨pre, post, hsplit, hpre⟩ := List.eq_append_cons_of_mem hp3
    have hD := replaceStep_detached d1 p dst src hpd
    have hcp : d1.childNodes p = pre ++ src :: post := by rw [h5 p hp1 hp2, hsplit]
    have hcheck : (canInsert d1 p dst && decide (d1.parentNode src = some p)) = true := by
      have g1 : d1.nodeType p = NodeType.element := by rw [h7.1]; exact hp4
      have g2 := hp5 d1 h6 d1.size
      simp [canInsert, g1, g2, hps, hp]
    have hrep : replaceChild d1 p dst src = some (replaceStep d1 p dst src) := by
      unfold replaceChild
      rw [if_pos hcheck, if_neg hne]
    refine ⟨replaceStep d1 p dst src, ⟨(d.childNodes src).length + 1, fun fuel hfuel => ?_⟩,
      ?_, ?_, fun c hc => ?_, fun q hq => ?_, fun hq => (by cases hq), fun m hm1 hm2 hm3 => ?_,
      fun m hm hm1 hm2 => ?_, ?_, ?_⟩
    · simp only [replaceNode, hcopy fuel (by omega), hps, hp, hrep]
    · rw [hD]
      show Function.update _ _ _ _ = _
      rw [Function.update_noteq hp2.symm, h2]
    · rw [hD]
      show Function.update _ _ _ _ = _
      rw [Function.update_noteq hp1.symm, h3]
    · have hc1 : c ≠ dst := fun e => hdk (e ▸ hc)
      have hc2 : c ≠ src := fun e => hself (e ▸ hc)
      rw [hD]
      show Function.update _ _ _ _ = _
      rw [Function.update_noteq hc1, Function.update_noteq hc2]
      exact h4 c hc
    · have hqp : p = q := Option.some.inj hq
      subst hqp
      refine ⟨pre, post, hsplit, hpre, ?_, ?_, ?_⟩
      · rw [hD]
        show Function.update _ _ _ _ = _
        rw [Function.update_same, hcp, spliceAt_mid pre post [dst] src hpre]
        simp
      · rw [hD]
        show Function.update _ _ _ _ = _
        rw [Function.update_same]
      · rw [hD]
        show Function.update _ _ _ _ = _
        rw [Function.update_noteq hne.symm, Function.update_same]
    · have hmp : m ≠ p := fun e => hm3 (by rw [e])
      rw [hD]
      show Function.update _ _ _ _ = _
      rw [Function.update_noteq hmp]
      exact h5 m hm1 hm2
    · rw [hD]
      show Function.update _ _ _ _ = _
      rw [Function.update_noteq hm2, Function.update_noteq hm1]
      exact h6 m hm
    · rw [hD]
      exact h7
    · rw [hD]
      exact h8

theorem roots_sublist : ∀ ks : List Shape, (roots ks).Sublist (idsList ks)
  | [] => by simp [roots, idsList]
  | Shape.mk i ck :: ks => by
    simp only [roots, List.map_cons, Shape.id, idsList, Shape.ids, List.cons_append]
    exact List.Sublist.cons₂ i ((roots_sublist ks).trans (List.sublist_append_right _ _))

mutual
/-- In a tree, the children of a node are distinct nodes of the tree that
refer back to the node, and a node with a child is an element. -/
theorem Shape.node_facts (d : Dom) : ∀ s : Shape, s.In d → s.ids.Nodup →
    ∀ x, x ∈ s.ids → (d.childNodes x).Nodup
      ∧ ∀ c, c ∈ d.childNodes x →
          d.parentNode c = some x ∧ c ∈ s.ids ∧ c ≠ x ∧ d.nodeType x = NodeType.element
  | Shape.mk i ks, h, hnd, x, hx => by
    rw [Shape.in_mk] at h
    rw [Shape.ids_mk] at hnd hx ⊢
    obtain ⟨hi, hks⟩ := List.nodup_cons.1 hnd
    rcases List.mem_cons.1 hx with rfl | hx1
    · rw [h.1]
      refine ⟨(roots_sublist ks).nodup hks, fun c hc => ⟨kidsIn_root_parent d x ks h.2.2 c hc,
        List.mem_cons_of_mem x (roots_subset_idsList ks c hc), fun e => ?_, ?_⟩⟩
      · exact hi (e ▸ roots_subset_idsList ks c hc)
      · cases hty : d.nodeType x with
        | element => rfl
        | text =>
          have hnil : ks = [] := List.length_eq_zero.1 (h.2.1 hty)
          rw [hnil] at hc
          simp [roots] at hc
    · obtain ⟨g1, g2⟩ := kids_node_facts d i ks h.2.2 hks x hx1
      exact ⟨g1, fun c hc => ⟨(g2 c hc).1, List.mem_cons_of_mem i (g2 c hc).2.1, (g2 c hc).2.2⟩⟩
theorem kids_node_facts (d : Dom) (p : Nat) : ∀ ks : List Shape, KidsIn d p ks →
    (idsList ks).Nodup → ∀ x, x ∈ idsList ks → (d.childNodes x).Nodup
      ∧ ∀ c, c ∈ d.childNodes x →
          d.parentNode c = some x ∧ c ∈ idsList ks ∧ c ≠ x ∧ d.nodeType x = NodeType.element
  | [], _, _, x, hx => by simp [idsList] at hx
  | k :: ks, h, hnd, x, hx => by
    rw [kidsIn_cons] at h
    rw [idsList] at hnd hx ⊢
    obtain ⟨hk, hks, _⟩ := List.nodup_append.1 hnd
    rcases List.mem_append.1 hx with hx1 | hx1
    · obtain ⟨g1, g2⟩ := Shape.node_facts d k h.1.2 hk x hx1
      exact ⟨g1, fun c hc => ⟨(g2 c hc).1, List.mem_append_left _ (g2 c hc).2.1, (g2 c hc).2.2⟩⟩
    · obtain ⟨g1, g2⟩ := kids_node_facts d p ks h.2 hks x hx1
      exact ⟨g1, fun c hc => ⟨(g2 c hc).1, List.mem_append_right _ (g2 c hc).2.1, (g2 c hc).2.2⟩⟩
end

/-- In a tree, a node other than the root is a child of a node of the tree. -/
theorem tree_parent (d : Dom) (i : Nat) (ks : List Shape) (h : IsTree d (Shape.mk i ks))
    (m : Nat) (hm : m ∈ idsList ks) :
    ∃ p, p ∈ (Shape.mk i ks).ids ∧ d.parentNode m = some p ∧ m ∈ d.childNodes p := by
  have hin := h.1
  rw [Shape.in_mk] at hin
  have hd := (descendant_iff d i ks hin.1 hin.2.2 m).2 hm
  have hfact : ∀ p, p ∈ (Shape.mk i ks).ids → m ∈ d.childNodes p →
      ∃ p, p ∈ (Shape.mk i ks).ids ∧ d.parentNode m = some p ∧ m ∈ d.childNodes p :=
    fun p hp hc => ⟨p, hp, ((Shape.node_facts d _ h.1 h.2 p hp).2 m hc).1, hc⟩
  cases hd with
  | child hc => exact hfact i (by simp [Shape.ids]) hc
  | step hp hc =>
    exact hfact _ (by
      rw [Shape.ids_mk]
      exact List.mem_cons_of_mem i ((descendant_iff d i ks hin.1 hin.2.2 _).1 hp)) hc

mutual
/-- In a tree that does not hold `dst`, with a store `d1` that has the parent
references of `d` except at the children of `src`: when `dst` is not above the
root of a subtree, it is not above the parent of a node `src` of the
subtree. -/
theorem Shape.above_clear (d d1 : Dom) (src dst : Nat)
    (hpar : ∀ x, x ∉ d.childNodes src → d1.parentNode x = d.parentNode x) :
    ∀ s : Shape, s.In d → s.ids.Nodup → dst ∉ s.ids →
      (∀ n, isInclusiveAncestor d1 n s.id dst = false) → src ∈ idsList s.kids →
      ∀ p, d.parentNode src = some p → ∀ n, isInclusiveAncestor d1 n p dst = false
  | Shape.mk i ks, hin, hnd, hdst, hroot, hsrc, p, hp, n => by
    rw [Shape.in_mk] at hin
    rw [Shape.ids_mk] at hnd hdst
    simp only [Shape.kids] at hsrc
    simp only [Shape.id] at hroot
    exact kids_above_clear d d1 src dst hpar i ks hin.2.2 (List.nodup_cons.1 hnd).2
      (fun h => hdst (List.mem_cons_of_mem i h)) hroot hsrc p hp n
theorem kids_above_clear (d d1 : Dom) (src dst : Nat)
    (hpar : ∀ x, x ∉ d.childNodes src → d1.parentNode x = d.parentNode x) (i : Nat) :
    ∀ ks : List Shape, KidsIn d i ks → (idsList ks).Nodup → dst ∉ idsList ks →
      (∀ n, isInclusiveAncestor d1 n i dst = false) → src ∈ idsList ks →
      ∀ p, d.parentNode src = some p → ∀ n, isInclusiveAncestor d1 n p dst = false
  | [], _, _, _, _, hsrc, _, _, _ => by simp [idsList] at hsrc
  | Shape.mk c ck :: ks, h, hnd, hdst, hroot, hsrc, p, hp, n => by
    rw [kidsIn_cons] at h
    rw [idsList] at hnd hdst hsrc
    obtain ⟨hk, hks, _⟩ := List.nodup_append.1 hnd
    rcases List.mem_append.1 hsrc with hs1 | hs1
    · rw [Shape.ids_mk] at hs1 hk
      rcases List.mem_cons.1 hs1 with rfl | hs2
      · have h1 := h.1.1
        simp only [Shape.id] at h1
        rw [h1] at hp
        rw [← Option.some.inj hp]
        exact hroot n
      · have hcd : c ≠ dst := fun e => hdst (List.mem_append_left _ (by simp [Shape.ids, e]))
        have hck : c ∉ idsList ck := (List.nodup_cons.1 hk).1
        have hcs : c ∉ d.childNodes src := fun hx =>
          hck (by
            have := Shape.children_closed d (Shape.mk c ck) h.1.2 src
              (by rw [Shape.ids_mk]; exact List.mem_cons_of_mem c hs2) c hx
            simpa [Shape.kids] using this)
        have h1 := h.1.1
        simp only [Shape.id] at h1
        have hroot1 : ∀ n, isInclusiveAncestor d1 n (Shape.mk c ck).id dst = false := by
          intro n
          simp only [Shape.id]
          cases n with
          | zero => simpa [isInclusiveAncestor] using hcd
          | succ n => simp [isInclusiveAncestor, hpar c hcs, h1, hcd, hroot n]
        exact Shape.above_clear d d1 src dst hpar (Shape.mk c ck) h.1.2
          (by rw [Shape.ids_mk]; exact hk)
          (fun hx => hdst (List.mem_append_left _ hx)) hroot1
          (by simpa [Shape.kids] using hs2) p hp n
    · exact kids_above_clear d d1 src dst hpar i ks h.2 hks
        (fun hx => hdst (List.mem_append_right _ hx)) hroot hs1 p hp n
end

/-- When the loop of `copyChildNodes` returns with some fuel and the host
rejects the `replaceChild` that follows, `replaceNode` returns with no fuel at
all. -/
theorem replaceNode_rejected (d : Dom) (src dst : Nat) (fuel0 : Nat)
    (hty : d.nodeType src = NodeType.element)
    (hsome : (moveChildren fuel0 d src dst).isSome = true)
    (hrej : ((moveChildren fuel0 d src dst).bind
      (fun r => match r.parentNode src with
        | none => some r
        | some p => replaceChild r p dst src)).isNone = true) :
    ¬ ∃ d1, Terminates (fun fuel => replaceNode fuel d src dst) d1 := by
  obtain ⟨r0, hr0⟩ := Option.isSome_iff_exists.1 hsome
  have hrej1 := Option.isNone_iff_eq_none.1 hrej
  rw [hr0] at hrej1
  simp only [Option.bind] at hrej1
  rintro ⟨d1, N, hN⟩
  have h := hN (max N fuel0) (le_max_left _ _)
  have hmove := moveChildren_mono src dst fuel0 _ r0 hr0 (max N fuel0) (le_max_right _ _)
  simp only [replaceNode, copyChildNodes, hty, hmove] at h
  rw [hrej1] at h
  cases h

/-- When the host rejects the first `appendChild` of the loop of
`copyChildNodes`, `replaceNode` returns with no fuel at all. -/
theorem replaceNode_first_rejected (d : Dom) (src dst c : Nat)
    (hty : d.nodeType src = NodeType.element) (hfc : firstChild d src = some c)
    (happ : (appendChild d dst c).isNone = true) :
    ∀ fuel, replaceNode fuel d src dst = none := by
  have happ1 := Option.isNone_iff_eq_none.1 happ
  intro fuel
  cases fuel with
  | zero => simp only [replaceNode, copyChildNodes, hty, moveChildren]
  | succ n => simp only [replaceNode, copyChildNodes, hty, moveChildren, hfc, happ1]

/-- C16, the counterexample.  In `<div><i></i>x<b>y</b>z</div>` the `DIV`,
node 0, is a detached node (it has no parent) that is neither the `B`, node 3,
nor inside it (the only descendant of the `B` is node 4); `replaceNode(B, DIV)`
moves the child of the `B` to the end of the `DIV`, and then
`parent.replaceChild(nodeDst, nodeSrc)` asks the host to put the `DIV` into
itself, which the host rejects: the call throws, for every fuel.  And for the
detached text node 6 of `sampleLoose` the host rejects the first
`appendChild`, of the child 4 of the `B`, a text node takes no children: the
call throws as well. -/
theorem replaceNode_throws :
    (document sampleSiblings).parentNode 0 = none
      ∧ descendants 20 (document sampleSiblings) 3 = some [4]
      ∧ (copyChildNodes 20 (document sampleSiblings) 3 0).map
          (fun d1 => (d1.childNodes 0, d1.childNodes 3, d1.parentNode 3))
        = some ([1, 2, 3, 5, 4], [], some 0)
      ∧ (¬ ∃ d1, Terminates (fun fuel => replaceNode fuel (document sampleSiblings) 3 0) d1)
      ∧ sampleLoose.parentNode 6 = none ∧ sampleLoose.nodeType 6 = NodeType.text
      ∧ firstChild sampleLoose 3 = some 4
      ∧ ∀ fuel, replaceNode fuel sampleLoose 3 6 = none := by
  have c1 : (document sampleSiblings).parentNode 0 = none := by decide!
  have c2 : descendants 20 (document sampleSiblings) 3 = some [4] := by decide!
  have c3 : (copyChildNodes 20 (document sampleSiblings) 3 0).map
      (fun d1 => (d1.childNodes 0, d1.childNodes 3, d1.parentNode 3))
        = some ([1, 2, 3, 5, 4], [], some 0) := by decide!
  have c4 : ¬ ∃ d1, Terminates (fun fuel => replaceNode fuel (document sampleSiblings) 3 0) d1 :=
    replaceNode_rejected (document sampleSiblings) 3 0 20 (by decide!) (by decide!) (by decide!)
  have c5 : sampleLoose.parentNode 6 = none := by decide!
  have c6 : sampleLoose.nodeType 6 = NodeType.text := by decide!
  have c7 : firstChild sampleLoose 3 = some 4 := by decide!
  have c8 : ∀ fuel, replaceNode fuel sampleLoose 3 6 = none :=
    replaceNode_first_rejected sampleLoose 3 6 4 (by decide!) c7 (by decide!)
  exact ⟨c1, c2, c3, c4, c5, c6, c7, c8⟩

/-- C16, amended. For every tree whose root has no parent, every element
`nodeSrc` of the tree and every detached element `nodeDst` outside the tree, an
element without parent that is neither `nodeSrc`, nor inside it, nor above it:
`replaceNode(nodeSrc, nodeDst)` returns; the children of `nodeDst` are then its
former children followed by the former children of `nodeSrc` in order, which
now have `nodeDst` as parent, and `nodeSrc` has no children; if `nodeSrc` had a
parent, `nodeDst` stands at the former index of `nodeSrc` in the child list of
that parent, the other siblings are unchanged, `nodeDst` has that parent and
`nodeSrc` has none; if `nodeSrc` had no parent, the children are moved all the
same and neither node has a parent; and nothing else changes: the other child
lists, the other parent references, and the type, name, attributes and text of
every node. -/
theorem replaceNode_moves_children (d : Dom) (tree : Shape) (htree : IsTree d tree)
    (hroot : d.parentNode tree.id = none) (nodeSrc nodeDst : Nat) (hsrc : nodeSrc ∈ tree.ids)
    (helem : d.nodeType nodeSrc = NodeType.element) (hdst : nodeDst ∉ tree.ids)
    (hdet : d.parentNode nodeDst = none) (helemd : d.nodeType nodeDst = NodeType.element) :
    ∃ d1, Terminates (fun fuel => replaceNode fuel d nodeSrc nodeDst) d1
      ∧ d1.childNodes nodeDst = d.childNodes nodeDst ++ d.childNodes nodeSrc
      ∧ d1.childNodes nodeSrc = []
      ∧ (∀ c, c ∈ d.childNodes nodeSrc → d1.parentNode c = some nodeDst)
      ∧ (∀ p, d.parentNode nodeSrc = some p →
          ∃ pre post, d.childNodes p = pre ++ nodeSrc :: post ∧ nodeSrc ∉ pre
            ∧ d1.childNodes p = pre ++ nodeDst :: post
            ∧ d1.parentNode nodeDst = some p ∧ d1.parentNode nodeSrc = none)
      ∧ (d.parentNode nodeSrc = none → d1.parentNode nodeDst = none ∧ d1.parentNode nodeSrc = none)
      ∧ (∀ m, m ≠ nodeSrc → m ≠ nodeDst → d.parentNode nodeSrc ≠ some m →
          d1.childNodes m = d.childNodes m)
      ∧ (∀ m, m ∉ d.childNodes nodeSrc → m ≠ nodeSrc → m ≠ nodeDst →
          d1.parentNode m = d.parentNode m)
      ∧ SameData d d1 ∧ d1.size = d.size := by
  obtain ⟨i, ks⟩ := tree
  simp only [Shape.id] at hroot
  obtain ⟨g1, g2⟩ := Shape.node_facts d _ htree.1 htree.2 nodeSrc hsrc
  have hne : nodeDst ≠ nodeSrc := fun e => hdst (e ▸ hsrc)
  refine replaceNode_spec d nodeSrc nodeDst helem hne hdet helemd g1 (fun c hc => (g2 c hc).1)
    (fun h => (g2 nodeSrc h).2.2.1 rfl) (fun p hp => ?_)
  have hsk : nodeSrc ∈ idsList ks := by
    rw [Shape.ids_mk] at hsrc
    rcases List.mem_cons.1 hsrc with rfl | h
    · rw [hroot] at hp; cases hp
    · exact h
  obtain ⟨q, hq, hq1, hq2⟩ := tree_parent d i ks htree nodeSrc hsk
  rw [hp] at hq1
  have hpq : p = q := Option.some.inj hq1
  subst hpq
  have hfacts := (Shape.node_facts d _ htree.1 htree.2 p hq).2 nodeSrc hq2
  refine ⟨fun e => hfacts.2.2.1 e.symm, fun e => hdst (e ▸ hq), hq2, hfacts.2.2.2,
    fun d1 hd1 n => ?_⟩
  have hid : i ≠ nodeDst := fun e => hdst (by rw [← e]; simp [Shape.ids])
  have hic : i ∉ d.childNodes nodeSrc := fun hx => by
    have := (g2 i hx).1
    rw [hroot] at this
    cases this
  have hrootclear : ∀ n, isInclusiveAncestor d1 n (Shape.mk i ks).id nodeDst = false :=
    fun n => isInclusiveAncestor_parentless d1 i nodeDst (by rw [hd1 i hic]; exact hroot) hid n
  exact Shape.above_clear d d1 nodeSrc nodeDst hd1 (Shape.mk i ks) htree.1 htree.2 hdst
    hrootclear (by simpa [Shape.kids] using hsk) p hp n

/-- Witness of the amended C16: in `sampleHeading` the `B`, node 3, is replaced
by the `H1`, node 6. -/
theorem replaceNode_moves_children_witness :
    IsTree sampleHeading sampleSiblingsShape
      ∧ sampleHeading.parentNode sampleSiblingsShape.id = none
      ∧ 3 ∈ sampleSiblingsShape.ids
      ∧ sampleHeading.nodeType 3 = NodeType.element
      ∧ 6 ∉ sampleSiblingsShape.ids
      ∧ sampleHeading.parentNode 6 = none
      ∧ sampleHeading.nodeType 6 = NodeType.element
      ∧ ∃ d1, Terminates (fun fuel => replaceNode fuel sampleHeading 3 6) d1
        ∧ d1.childNodes 6 = sampleHeading.childNodes 6 ++ sampleHeading.childNodes 3
        ∧ d1.childNodes 3 = []
        ∧ (∀ c, c ∈ sampleHeading.childNodes 3 → d1.parentNode c = some 6)
        ∧ (∀ p, sampleHeading.parentNode 3 = some p →
            ∃ pre post, sampleHeading.childNodes p = pre ++ 3 :: post ∧ 3 ∉ pre
              ∧ d1.childNodes p = pre ++ 6 :: post
              ∧ d1.parentNode 6 = some p ∧ d1.parentNode 3 = none)
        ∧ (sampleHeading.parentNode 3 = none → d1.parentNode 6 = none ∧ d1.parentNode 3 = none)
        ∧ (∀ m, m ≠ 3 → m ≠ 6 → sampleHeading.parentNode 3 ≠ some m →
            d1.childNodes m = sampleHeading.childNodes m)
        ∧ (∀ m, m ∉ sampleHeading.childNodes 3 → m ≠ 3 → m ≠ 6 →
            d1.parentNode m = sampleHeading.parentNode m)
        ∧ SameData sampleHeading d1 ∧ d1.size = sampleHeading.size :=
  ⟨by decide!, by decide!, by decide!, by decide!, by decide!, by decide!, by decide!,
    replaceNode_moves_children sampleHeading sampleSiblingsShape (by decide!) (by decide!) 3 6
      (by decide!) (by decide!) (by decide!) (by decide!) (by decide!)⟩

/-! ## Removing the empty children -/

/-- C15, the code at the failing input `<div><p></p><p></p><p>x</p></div>`:
`removeEmptyChildren` on the `DIV` leaves `<div><p></p><p>x</p></div>`; the
children that remain are the nodes 2 and 3, and node 2, the second empty
paragraph, has no text (`hasText` returns 0 for it). -/
theorem removeEmptyChildren_leaves_empty_child :
    (removeEmptyChildren 20 (document sampleEmpty) 0).bind (fun d => toHtml 20 d 0)
        = some (Html.elem "DIV" []
            [Html.elem "P" [] [], Html.elem "P" [] [Html.text "x"]])
      ∧ (removeEmptyChildren 20 (document sampleEmpty) 0).map (fun d => d.childNodes 0)
        = some [2, 3]
      ∧ (removeEmptyChildren 20 (document sampleEmpty) 0).bind (fun d => hasText 20 d 2)
        = some 0 := by
  decide!

/-! ## The next sibling with text -/

theorem afterIn_mid (pre post : List Nat) (c : Nat) (h : c ∉ pre) :
    afterIn (pre ++ c :: post) c = post := by
  induction pre with
  | nil => simp [afterIn]
  | cons x xs ih =>
    have hx : x ≠ c := fun e => h (by simp [e])
    have hxs : c ∉ xs := fun e => h (by simp [e])
    simp [afterIn, hx, ih hxs]

theorem nextElementSibling_mid (d : Dom) (p : Nat) (A R : List Shape) (c : Nat)
    (ck : List Shape) (h : Forest d p (A ++ [Shape.mk c ck] ++ R)) :
    nextElementSibling d c
      = (roots R).find? (fun n => decide (d.nodeType n = NodeType.element)) := by
  obtain ⟨_, hpar, _⟩ := forest_child d p A R c ck h
  obtain ⟨_, _, _, _, hcA, _⟩ := nodup_mid p A R c ck h.2.2
  have hpre : c ∉ roots A := fun hc => hcA (roots_subset_idsList A c hc)
  simp only [nextElementSibling, hpar]
  rw [h.1, roots_mid, afterIn_mid (roots A) (roots R) c hpre]

theorem skipEmpty_null (d : Dom) (fuel : Nat) : skipEmpty (fuel + 1) d none = some none := by
  simp [skipEmpty]

/-- The loop of `nextNotEmptyElementSibling`, entered at the first element
among the siblings `R`: it returns the first sibling of `R` that is an element
with text, or `null`. -/
theorem skipEmpty_spec (d : Dom) (p : Nat) :
    ∀ (R A : List Shape), Forest d p (A ++ R) →
      ∀ fuel, sizeList R + R.length + 1 ≤ fuel →
        skipEmpty fuel d ((roots R).find? (fun n => decide (d.nodeType n = NodeType.element)))
          = some ((R.find? (isFilledElement d)).map Shape.id) := by
  intro R
  induction R with
  | nil =>
    intro A _ fuel hfuel
    obtain ⟨n, rfl⟩ : ∃ n, fuel = n + 1 := ⟨fuel - 1, by omega⟩
    simp [roots, skipEmpty]
  | cons k R ih =>
    intro A hf fuel hfuel
    obtain ⟨c, ck⟩ := k
    have hf1 : Forest d p (A ++ [Shape.mk c ck] ++ R) := by simpa using hf
    have hrec := ih (A ++ [Shape.mk c ck]) hf1
    simp only [sizeList, List.length_cons, Shape.size_mk] at hfuel
    cases hty : d.nodeType c with
    | text =>
      have := hrec fuel (by omega)
      simpa [roots, Shape.id, isFilledElement, hty] using this
    | element =>
      obtain ⟨n, rfl⟩ : ∃ n, fuel = n + 1 := ⟨fuel - 1, by omega⟩
      have hin : (Shape.mk c ck).In d :=
        ((kidsIn_iff d p _).1 hf1.2.1 (Shape.mk c ck) (by simp)).2
      have htxt := hasText_eq d (Shape.mk c ck) hin n (by rw [Shape.size_mk]; omega)
      simp only [Shape.id] at htxt
      have hfind : (roots (Shape.mk c ck :: R)).find?
          (fun n => decide (d.nodeType n = NodeType.element)) = some c := by
        simp [roots, Shape.id, hty]
      rw [hfind]
      cases hlen : utf16Length (trim ((Shape.mk c ck).text d.nodeType d.data).data) with
      | zero =>
        rw [hlen] at htxt
        simp only [skipEmpty, htxt]
        rw [nextElementSibling_mid d p A R c ck hf1, hrec n (by omega)]
        simp [isFilledElement, Shape.id, hty, hlen]
      | succ m =>
        rw [hlen] at htxt
        simp only [skipEmpty, htxt]
        simp [isFilledElement, Shape.id, hty, hlen]

/-- C17, the counterexample: in `<div><i></i>x<b>y</b>z</div>` the siblings
that follow the `I`, node 1, are the text `x`, node 2, the `B`, node 3, and the
text `z`, node 5, and `hasText` is not zero for the text `x`; yet
`nextNotEmptyElementSibling` returns the `B` for the `I`, not the text `x`, and
it returns `null` for the `B`, although the text `z` follows it. -/
theorem nextNotEmptyElementSibling_skips_text :
    (document sampleSiblings).childNodes 0 = [1, 2, 3, 5]
      ∧ hasText 20 (document sampleSiblings) 2 = some 1
      ∧ nextNotEmptyElementSibling 20 (document sampleSiblings) 1 = some (some 3)
      ∧ hasText 20 (document sampleSiblings) 5 = some 1
      ∧ nextNotEmptyElementSibling 20 (document sampleSiblings) 3 = some none := by
  decide!

/-- C17, amended. For every node, `nextNotEmptyElementSibling(node)` returns
the nearest following sibling of the node that is an element and whose text
content contains a character that is not white space: it skips every following
sibling that is not an element, the text nodes with text included, and the
element siblings whose text content is empty or white space, and it returns
`null` when no following sibling is an element with such text, and for a node
without parent.  Here the node `node` is a child of `p` with the siblings `A`
before it and the siblings `R` after it. -/
theorem nextNotEmptyElementSibling_next_filled_element (d : Dom) (p node : Nat)
    (A R ck : List Shape) (h : Forest d p (A ++ [Shape.mk node ck] ++ R)) :
    Terminates (fun fuel => nextNotEmptyElementSibling fuel d node)
        ((R.find? (isFilledElement d)).map Shape.id)
      ∧ ∀ (d0 : Dom) (n : Nat), d0.parentNode n = none →
          Terminates (fun fuel => nextNotEmptyElementSibling fuel d0 n) none := by
  constructor
  · refine ⟨sizeList R + R.length + 1, fun fuel hfuel => ?_⟩
    simp only [nextNotEmptyElementSibling]
    rw [nextElementSibling_mid d p A R node ck h]
    exact skipEmpty_spec d p R (A ++ [Shape.mk node ck]) h fuel hfuel
  · intro d0 n hn
    refine ⟨1, fun fuel hfuel => ?_⟩
    obtain ⟨k, rfl⟩ : ∃ k, fuel = k + 1 := ⟨fuel - 1, by omega⟩
    simp [nextNotEmptyElementSibling, nextElementSibling, hn, skipEmpty]

/-- Witness of the amended C17 on the document `sampleSiblings`: the node is
the `I`, node 1, the siblings after it are the text `x`, the `B` and the text
`z`. -/
theorem nextNotEmptyElementSibling_next_filled_element_witness :
    Forest (document sampleSiblings) 0
        ([] ++ [Shape.mk 1 []] ++ [Shape.mk 2 [], Shape.mk 3 [Shape.mk 4 []], Shape.mk 5 []])
      ∧ (Terminates (fun fuel => nextNotEmptyElementSibling fuel (document sampleSiblings) 1)
          (([Shape.mk 2 [], Shape.mk 3 [Shape.mk 4 []], Shape.mk 5 []].find?
            (isFilledElement (document sampleSiblings))).map Shape.id)
        ∧ ∀ (d0 : Dom) (n : Nat), d0.parentNode n = none →
            Terminates (fun fuel => nextNotEmptyElementSibling fuel d0 n) none) :=
  ⟨by unfold Forest; decide!,
    nextNotEmptyElementSibling_next_filled_element (document sampleSiblings) 0 1 []
      [Shape.mk 2 [], Shape.mk 3 [Shape.mk 4 []], Shape.mk 5 []] []
      (by unfold Forest; decide!)⟩

/-! ## The node the walker descends into -/

theorem handleChild_held (c : Cond) (a : Action) (e : Nat) (i : Int) (d d1 : Dom)
    (log : List Event) (child : Nat) (hc : c d child = true) (ha : a d child = some d1)
    (hchg : (d1.childNodes e)[i.toNat]? ≠ some child) :
    handleChild c a e i d log child
      = some (d1, log ++ [Event.test child true, Event.act child], i + 1) := by
  simp [handleChild, hc, ha, hchg]

theorem handleChild_extends (c : Cond) (a : Action) (e : Nat) (i : Int) (d : Dom)
    (log : List Event) (child : Nat) (r : Dom × List Event × Int)
    (h : handleChild c a e i d log child = some r) :
    ∃ rest, r.2.1 = log ++ Event.test child (c d child) :: rest := by
  unfold handleChild at h
  by_cases hc : c d child = true
  · rw [if_pos hc] at h
    cases ha : a d child with
    | none => rw [ha] at h; cases h
    | some d1 =>
      rw [ha] at h
      have := Option.some.inj h
      rw [← this, hc]
      exact ⟨[Event.act child], rfl⟩
  · rw [if_neg hc] at h
    have := Option.some.inj h
    have hf : c d child = false := by simpa using hc
    rw [← this, hf]
    exact ⟨[], rfl⟩

/-- The record of a walk extends the record the walk was entered with. -/
theorem walkFrom_extends (c : Cond) (a : Action) :
    ∀ (fuel : Nat) (e : Nat) (i : Int) (d : Dom) (log : List Event) (r : Dom × List Event),
      walkFrom fuel c a e i (d, log) = some r → ∃ rest, r.2 = log ++ rest := by
  intro fuel
  induction fuel with
  | zero => intro e i d log r h; simp [walkFrom] at h
  | succ n ih =>
    intro e i d log r h
    by_cases hi : i < 0
    · rw [walkFrom_neg c a e i (d, log) n hi] at h
      exact ⟨[], by rw [← Option.some.inj h]; simp⟩
    · cases hch : (d.childNodes e)[i.toNat]? with
      | none =>
        rw [walkFrom_undef c a e i d log n (by omega) hch] at h
        exact ih e (i - 1) d log r h
      | some child =>
        rw [walkFrom_child c a e i d log n child (by omega) hch] at h
        cases hh : handleChild c a e i d log child with
        | none => rw [hh] at h; cases h
        | some t =>
          obtain ⟨d1, log1, i1⟩ := t
          obtain ⟨rest1, h1⟩ := handleChild_extends c a e i d log child _ hh
          simp only [] at h1
          rw [hh] at h
          simp only [] at h
          cases hd : descendInto c a child (d1, log1) n with
          | none => rw [hd] at h; cases h
          | some s2 =>
            rw [hd] at h
            simp only [] at h
            obtain ⟨d2, log2⟩ := s2
            have h2 : ∃ rest2, log2 = log1 ++ rest2 := by
              unfold descendInto at hd
              by_cases hel : isElementNode d1 child = true
              · simp only [hel, if_true] at hd
                exact ih child _ d1 log1 (d2, log2) hd
              · simp only [hel] at hd
                have := Option.some.inj hd
                exact ⟨[], by simpa using (congrArg Prod.snd this).symm⟩
            obtain ⟨rest2, h2⟩ := h2
            obtain ⟨rest3, h3⟩ := ih e (i1 - 1) d2 log2 r h
            exact ⟨Event.test child (c d child) :: rest1 ++ rest2 ++ rest3, by
              rw [h3, h2, h1]; simp⟩

/-- The first thing a walk entered at a child does is to evaluate the
predicate on that child. -/
theorem walkFrom_first_test (c : Cond) (a : Action) (fuel : Nat) (e : Nat) (i : Nat) (d : Dom)
    (log : List Event) (r : Dom × List Event) (g : Nat)
    (hg : (d.childNodes e)[i]? = some g)
    (h : walkFrom (fuel + 1) c a e (i : Int) (d, log) = some r) :
    ∃ rest, r.2 = log ++ Event.test g (c d g) :: rest := by
  rw [walkFrom_child c a e (i : Int) d log fuel g (by omega) (by simpa using hg)] at h
  cases hh : handleChild c a e (i : Int) d log g with
  | none => rw [hh] at h; cases h
  | some t =>
    obtain ⟨d1, log1, i1⟩ := t
    obtain ⟨rest1, h1⟩ := handleChild_extends c a e (i : Int) d log g _ hh
    simp only [] at h1
    rw [hh] at h
    simp only [] at h
    cases hd : descendInto c a g (d1, log1) fuel with
    | none => rw [hd] at h; cases h
    | some s2 =>
      rw [hd] at h
      simp only [] at h
      obtain ⟨d2, log2⟩ := s2
      have h2 : ∃ rest2, log2 = log1 ++ rest2 := by
        unfold descendInto at hd
        by_cases hel : isElementNode d1 g = true
        · simp only [hel, if_true] at hd
          exact walkFrom_extends c a fuel g _ d1 log1 (d2, log2) hd
        · simp only [hel] at hd
          have := Option.some.inj hd
          exact ⟨[], by simpa using (congrArg Prod.snd this).symm⟩
      obtain ⟨rest2, h2⟩ := h2
      obtain ⟨rest3, h3⟩ := walkFrom_extends c a fuel e (i1 - 1) d2 log2 r h
      exact ⟨rest1 ++ rest2 ++ rest3, by rw [h3, h2, h1]; simp⟩

/-- C18, the counterexample: on `<div><b><b>t</b></b></div>`, with the
predicate "is a `B`" and an action that replaces the node by a new `P` at the
same position, the action on the outer `B`, node 1, puts the new node 4 at
index 0 of the root and detaches node 1.  The walker then evaluates the
predicate on node 2, the child of the detached node 1, and runs the action on
it: the detached child is walked and its subtree is changed (its child list
goes from `[2]` to `[5]`); the new node 4 is examined only afterwards. -/
theorem walkDescendants_walks_detached_child :
    (document sampleBoldPair).childNodes 1 = [2]
      ∧ (walkDescendantsLog 20 isBold swapAction 0 (document sampleBoldPair)).map
          (fun r => (r.2, r.1.childNodes 0, r.1.parentNode 1, r.1.childNodes 1))
        = some ([Event.test 1 true, Event.act 1, Event.test 2 true, Event.act 2,
            Event.test 3 false, Event.test 5 false, Event.test 4 false], [4], none, [5]) := by
  decide!

/-- C18, amended. For every call of `walkDescendants` in which the action
replaces the matched child by a different node at the same position (in the
loop over the children of `element` at index `i`, the predicate holds on
`child`, the action leaves the store `d1`, and a node `other` that is not
`child` stands at index `i` then): the recursive descent made right after the
action goes into the original child, also when the action detached it, and the
loop then goes on at the same index `i`, where the new node stands.  So when
the original child is an element that still has children, the next evaluation
of the predicate is on its last child; and when it has no children left, the
next evaluation is on the node now standing at the position. -/
theorem walkDescendants_descends_into_original_child (c : Cond) (a : Action)
    (element i : Nat) (d d1 : Dom) (log : List Event) (child other : Nat) (fuel : Nat)
    (hchild : (d.childNodes element)[i]? = some child) (hc : c d child = true)
    (ha : a d child = some d1) (hother : (d1.childNodes element)[i]? = some other)
    (hne : other ≠ child) :
    walkFrom (fuel + 1) c a element (i : Int) (d, log)
        = (descendInto c a child (d1, log ++ [Event.test child true, Event.act child]) fuel).bind
            (fun st => walkFrom fuel c a element (i : Int) st)
      ∧ (∀ g gs r, d1.nodeType child = NodeType.element → d1.childNodes child = gs ++ [g] →
          walkFrom (fuel + 2) c a element (i : Int) (d, log) = some r →
          ∃ rest, r.2 = log ++ [Event.test child true, Event.act child,
            Event.test g (c d1 g)] ++ rest)
      ∧ (∀ r, d1.childNodes child = [] →
          walkFrom (fuel + 2) c a element (i : Int) (d, log) = some r →
          ∃ rest, r.2 = log ++ [Event.test child true, Event.act child,
            Event.test other (c d1 other)] ++ rest) := by
  have hstep : ∀ n, walkFrom (n + 1) c a element (i : Int) (d, log)
      = (descendInto c a child (d1, log ++ [Event.test child true, Event.act child]) n).bind
          (fun st => walkFrom n c a element (i : Int) st) := by
    intro n
    have hchg : (d1.childNodes element)[(i : Int).toNat]? ≠ some child := by
      simp only [Int.toNat_ofNat, hother]
      exact fun e => hne (Option.some.inj e)
    rw [walkFrom_child c a element (i : Int) d log n child (by omega) (by simpa using hchild),
      handleChild_held c a element (i : Int) d d1 log child hc ha hchg]
    simp only [Int.add_sub_cancel]
    cases descendInto c a child (d1, log ++ [Event.test child true, Event.act child]) n <;> rfl
  refine ⟨hstep fuel, fun g gs r hel hkids h => ?_, fun r hkids h => ?_⟩
  · rw [hstep (fuel + 1)] at h
    cases hd : descendInto c a child (d1, log ++ [Event.test child true, Event.act child])
        (fuel + 1) with
    | none => rw [hd] at h; cases h
    | some st =>
      rw [hd] at h
      simp only [Option.bind] at h
      obtain ⟨d2, log2⟩ := st
      have hlast : (d1.childNodes child)[gs.length]? = some g := by rw [hkids]; simp
      have hlen : ((d1.childNodes child).length : Int) - 1 = ((gs.length : Nat) : Int) := by
        rw [hkids]; simp
      simp only [descendInto, isElementNode, hel, decide_True, if_true, hlen] at hd
      obtain ⟨rest1, h1⟩ := walkFrom_first_test c a fuel child gs.length d1 _ (d2, log2) g hlast hd
      obtain ⟨rest2, h2⟩ := walkFrom_extends c a (fuel + 1) element (i : Int) d2 log2 r h
      simp only [] at h1
      exact ⟨rest1 ++ rest2, by rw [h2, h1]; simp⟩
  · rw [hstep (fuel + 1)] at h
    have hd : descendInto c a child (d1, log ++ [Event.test child true, Event.act child])
        (fuel + 1) = some (d1, log ++ [Event.test child true, Event.act child]) := by
      simp only [descendInto, hkids, List.length_nil]
      by_cases hel : isElementNode d1 child = true
      · simp only [hel, if_true]
        exact walkFrom_neg c a child _ _ fuel (by simp)
      · simp only [hel]
        rfl
    rw [hd] at h
    simp only [Option.bind] at h
    obtain ⟨rest, h1⟩ := walkFrom_first_test c a fuel element i d1 _ r other hother h
    exact ⟨rest, by rw [h1]; simp⟩

/-- Witness of the amended C18: the loop over the children of the root of
`sampleBoldPair` at index 0, where `swapAction` replaces the outer `B`, node
1, by the new node 4. -/
theorem walkDescendants_descends_into_original_child_witness :
    (((document sampleBoldPair).childNodes 0)[0]? = some 1)
      ∧ isBold (document sampleBoldPair) 1 = true
      ∧ swapAction (document sampleBoldPair) 1 = some sampleSwapped
      ∧ ((sampleSwapped.childNodes 0)[0]? = some 4)
      ∧ 4 ≠ 1
      ∧ (walkFrom (18 + 1) isBold swapAction 0 ((0 : Nat) : Int) (document sampleBoldPair, [])
          = (descendInto isBold swapAction 1
              (sampleSwapped, [] ++ [Event.test 1 true, Event.act 1]) 18).bind
              (fun st => walkFrom 18 isBold swapAction 0 ((0 : Nat) : Int) st)
        ∧ (∀ g gs r, sampleSwapped.nodeType 1 = NodeType.element →
            sampleSwapped.childNodes 1 = gs ++ [g] →
            walkFrom (18 + 2) isBold swapAction 0 ((0 : Nat) : Int) (document sampleBoldPair, [])
              = some r →
            ∃ rest, r.2 = [] ++ [Event.test 1 true, Event.act 1,
              Event.test g (isBold sampleSwapped g)] ++ rest)
        ∧ (∀ r, sampleSwapped.childNodes 1 = [] →
            walkFrom (18 + 2) isBold swapAction 0 ((0 : Nat) : Int) (document sampleBoldPair, [])
              = some r →
            ∃ rest, r.2 = [] ++ [Event.test 1 true, Event.act 1,
              Event.test 4 (isBold sampleSwapped 4)] ++ rest)) :=
  have h1 : (document sampleBoldPair).parentNode 1 = some 0 := by decide!
  have h2 : (createElement "P" (document sampleBoldPair)).1 = 4 := by decide!
  have h3 : (canInsert (createElement "P" (document sampleBoldPair)).2 0 4
      && decide ((createElement "P" (document sampleBoldPair)).2.parentNode 1 = some 0))
      = true := by decide!
  have ha : swapAction (document sampleBoldPair) 1 = some sampleSwapped := by
    simp only [swapAction, h1]
    rw [h2]
    unfold replaceChild
    rw [if_pos h3, if_neg (by decide)]
    rfl
  ⟨by decide!, by decide!, ha, by decide!, by decide,
    walkDescendants_descends_into_original_child isBold swapAction 0 0
      (document sampleBoldPair) sampleSwapped [] 1 4 18 (by decide!) (by decide!) ha
      (by decide!) (by decide)⟩

end Aloha
